import Mathlib

/-! # urlpath: a shallow embedding and its verified properties

The Go package `urlpath` (files `urlpath.go`, `urlpath_unix.go`,
`urlpath_windows.go`) manipulates URL-like path strings.  It is a thin layer
over the Go standard library packages `path`, `net/url`, `strings` and
`path/filepath`.

* Go strings are byte strings.  They are embedded as `List Char`, one `Char`
  per byte (the `Char` with the byte's code); for ASCII text this is the
  text itself.  Where the standard library decodes UTF-8, in `path.Match`,
  the bytes are decoded by `utf8.DecodeRuneInString` and a rune is a number.
* The standard-library functions the package calls are embedded from the
  Go 1.22 - 1.24 sources, loop by loop, in the namespaces `strings`, `path`,
  `url`, `filepath` and `utf8`.
* The two build variants (`//go:build unix`, `//go:build windows`) are the
  namespaces `urlpath.unix` and `urlpath.windows`; the shared file
  `urlpath.go` is embedded once, over a `GOOS` parameter that selects the
  variant the build tag would select.
* A Go result `(string, error)` is a pair `GoString × Option Error`.
-/

/-- A Go string: a sequence of bytes, one `Char` per byte. -/
abbrev GoString := List Char

/-- The errors the package can report. -/
inductive Error where
  | invalidControlCharacter
  | missingProtocolScheme
  | firstPathSegmentColon
  | missingBracketInHost
  | invalidPort
  | invalidUserinfo
  | escapeError
  | invalidHostError
  | errBadPattern
  deriving DecidableEq, Repr

deriving instance DecidableEq for Except

/-! ## Package `strings` -/

namespace strings

/-- The Go function `strings.HasPrefix`. -/
def HasPrefix (s pre : GoString) : Bool := pre.isPrefixOf s

/-- The Go function `strings.Contains` for a one-byte substring. -/
def ContainsByte (s : GoString) (c : Char) : Bool := s.elem c

/-- The Go function `strings.Cut` for a one-byte separator: the text before the first
separator, the text after it, and whether a separator was found. -/
def Cut (s : GoString) (sep : Char) : GoString × GoString × Bool :=
  match s.dropWhile (fun c => !decide (c = sep)) with
  | [] => (s, [], false)
  | _ :: after => (s.takeWhile (fun c => !decide (c = sep)), after, true)

/-- The text after the last occurrence of `sep`, together with the text
before it; `none` when `sep` does not occur (`strings.LastIndex` is -1). -/
def cutLast (s : GoString) (sep : Char) : Option (GoString × GoString) :=
  match s.reverse.dropWhile (fun c => !decide (c = sep)) with
  | [] => none
  | _ :: rbefore => some (rbefore.reverse, (s.reverse.takeWhile (fun c => !decide (c = sep))).reverse)

/-- The Go function `strings.ReplaceAll` for one-byte old and new strings. -/
def ReplaceAll (s : GoString) (old new : Char) : GoString :=
  s.map (fun c => if c = old then new else c)

/-- The byte-wise lower-casing `strings.ToLower` performs on ASCII text. -/
def ToLower (s : GoString) : GoString :=
  s.map (fun c => if 'A' ≤ c ∧ c ≤ 'Z' then Char.ofNat (c.toNat + 32) else c)

/-- The Go function `strings.Index(s, sub)`: the text before the first occurrence of `sub`
and the text from that occurrence on; `none` when there is none. -/
def cutAt (sub : GoString) : GoString → Option (GoString × GoString)
  | [] => if sub = [] then some ([], []) else none
  | c :: cs =>
    if sub.isPrefixOf (c :: cs) then some ([], c :: cs)
    else match cutAt sub cs with
      | none => none
      | some (before, frm) => some (c :: before, frm)

end strings

/-! ## Package `path` -/

namespace path

/-- The `.` case of `Clean`: `path[r] == '.' && (r+1 == n || path[r+1] == '/')`,
where `rest` is `path[r+1:]`. -/
def isDot (c : Char) (rest : GoString) : Bool :=
  c = '.' && (match rest with
    | [] => true
    | c1 :: _ => c1 = '/')

/-- The `..` case of `Clean`:
`path[r] == '.' && path[r+1] == '.' && (r+2 == n || path[r+2] == '/')`. -/
def isDotDot (c : Char) (rest : GoString) : Bool :=
  c = '.' && (match rest with
    | [] => false
    | c1 :: rest2 => c1 = '.' && (match rest2 with
      | [] => true
      | c2 :: _ => c2 = '/'))

/-- The backtracking loop of `Clean`, after the first `out.w--`:
`for out.w > dotdot && out.index(out.w) != '/' { out.w-- }`.
The buffer is held last byte first; `popped` is `out.index(out.w)`. -/
def backtrack (dotdot : Nat) : List Char → Char → List Char
  | [], _ => []
  | c :: rout, popped =>
    if (c :: rout).length > dotdot ∧ popped ≠ '/' then backtrack dotdot rout c
    else c :: rout

/-- The main loop of `Clean` (`for r < n`).  `rest` is the unread input
`path[r:]`, `rout` the output buffer (last byte first, so `out.w` is its
length), `dotdot` the index where `..` must stop.  Every round consumes at
least one byte, so `fuel = len(path)` rounds are enough. -/
def cleanLoop (rooted : Bool) : Nat → GoString → List Char → Nat → List Char
  | 0, _, rout, _ => rout
  | _ + 1, [], rout, _ => rout
  | fuel + 1, c :: rest, rout, dotdot =>
    if c = '/' then
      -- empty path element
      cleanLoop rooted fuel rest rout dotdot
    else if isDot c rest then
      -- . element
      cleanLoop rooted fuel rest rout dotdot
    else if isDotDot c rest then
      -- .. element: remove to last /
      if rout.length > dotdot then
        -- can backtrack
        match rout with
        | [] => cleanLoop rooted fuel rest.tail rout dotdot
        | popped :: rout1 => cleanLoop rooted fuel rest.tail (backtrack dotdot rout1 popped) dotdot
      else if !rooted then
        -- cannot backtrack, but not rooted, so append .. element
        let rout1 := if rout.length > 0 then '/' :: rout else rout
        cleanLoop rooted fuel rest.tail ('.' :: '.' :: rout1) (rout1.length + 2)
      else
        cleanLoop rooted fuel rest.tail rout dotdot
    else
      -- real path element: add slash if needed, copy element
      let rout1 :=
        if (rooted ∧ rout.length ≠ 1) ∨ (¬ rooted ∧ rout.length ≠ 0) then '/' :: rout else rout
      cleanLoop rooted fuel (rest.dropWhile (fun x => !decide (x = '/')))
        ((rest.takeWhile (fun x => !decide (x = '/'))).reverse ++ c :: rout1) dotdot

/-- The Go function `path.Clean`. -/
def Clean (p : GoString) : GoString :=
  match p with
  | [] => ['.']
  | c :: rest =>
    let rooted : Bool := c = '/'
    let rout :=
      if rooted then cleanLoop true p.length rest ['/'] 1
      else cleanLoop false p.length p [] 0
    -- Turn empty string into "."
    if rout.length = 0 then ['.'] else rout.reverse

/-- The buffer `path.Join` builds before cleaning it: the non-empty-prefixed
elements separated by slashes. -/
def joinBuf : List Char → List GoString → List Char
  | buf, [] => buf
  | buf, e :: es =>
    if buf.length > 0 ∨ e ≠ [] then
      joinBuf ((if buf.length > 0 then buf ++ ['/'] else buf) ++ e) es
    else joinBuf buf es

/-- The Go function `path.Join(elem...)`. -/
def Join (elem : List GoString) : GoString :=
  if (elem.map List.length).sum = 0 then []
  else Clean (joinBuf [] elem)

/-- The Go function `path.Split`: the text up to and including the last slash, and the text
after it. -/
def Split (p : GoString) : GoString × GoString :=
  match strings.cutLast p '/' with
  | none => ([], p)
  | some (before, after) => (before ++ ['/'], after)

/-- The Go function `path.IsAbs`. -/
def IsAbs (p : GoString) : Bool :=
  match p with
  | [] => false
  | c :: _ => c = '/'

/-- The loop of `path.Ext`, from the last byte backwards:
`rpath` is `path[:i+1]` last byte first, `acc` is `path[i+1:]`. -/
def extLoop : List Char → GoString → GoString
  | [], _ => []
  | c :: rpath, acc =>
    if c = '/' then []
    else if c = '.' then c :: acc
    else extLoop rpath (c :: acc)

/-- The Go function `path.Ext`. -/
def Ext (p : GoString) : GoString := extLoop p.reverse []

/-- The Go function `path.Base`. -/
def Base (p : GoString) : GoString :=
  if p = [] then ['.']
  else
    -- Strip trailing slashes.
    let p1 := (p.reverse.dropWhile (fun c => decide (c = '/'))).reverse
    -- Find the last element.
    let p2 := match strings.cutLast p1 '/' with
      | none => p1
      | some (_, after) => after
    -- If empty now, it had only slashes.
    if p2 = [] then ['/'] else p2

/-- The Go function `path.Dir`. -/
def Dir (p : GoString) : GoString := Clean (Split p).1

end path

/-! ## Package `net/url` -/

namespace url

/-- The part of Go's `url.URL` the package reads: `Scheme`, `Host` and
`Path`.  (`Opaque`, `User`, `RawQuery`, `Fragment` and the other fields are
set by `Parse` but never read by `urlpath`.) -/
structure URL where
  Scheme : GoString
  Host : GoString
  Path : GoString
  deriving DecidableEq, Repr

/-- The escaping modes of `net/url` that `Parse` uses. -/
inductive encoding where
  | encodePath
  | encodeHost
  | encodeZone
  | encodeUserPassword
  | encodeFragment
  deriving DecidableEq, Repr

def isAlpha (c : Char) : Bool := ('a' ≤ c && c ≤ 'z') || ('A' ≤ c && c ≤ 'Z')

def isDigit (c : Char) : Bool := '0' ≤ c && c ≤ '9'

/-- The Go function `ishex`. -/
def ishex (c : Char) : Bool :=
  ('0' ≤ c && c ≤ '9') || ('a' ≤ c && c ≤ 'f') || ('A' ≤ c && c ≤ 'F')

/-- The Go function `unhex`. -/
def unhex (c : Char) : Nat :=
  if '0' ≤ c ∧ c ≤ '9' then c.toNat - 48
  else if 'a' ≤ c ∧ c ≤ 'f' then c.toNat - 97 + 10
  else if 'A' ≤ c ∧ c ≤ 'F' then c.toNat - 65 + 10
  else 0

/-- The Go function `shouldEscape(c, encodeHost)`: whether byte `c` may not appear verbatim
in a host. -/
def shouldEscapeHost (c : Char) : Bool :=
  if isAlpha c || isDigit c then false
  else if c ∈ ['!', '$', '&', '\'', '(', ')', '*', '+', ',', ';', '=', ':', '[', ']', '<', '>', '"'] then false
  else if c ∈ ['-', '_', '.', '~'] then false
  else true

/-- The Go function `unescape(s, mode)`: checks the `%XX` escapes of `s` (and, for a host,
its bytes) and decodes them. -/
def unescape : GoString → encoding → Except Error GoString
  | [], _ => .ok []
  | c :: rest, mode =>
    if c = '%' then
      match rest with
      | h1 :: h2 :: rest2 =>
        if ishex h1 ∧ ishex h2 then
          if mode = .encodeHost ∧ unhex h1 < 8 ∧ ¬ (h1 = '2' ∧ h2 = '5') then
            .error .escapeError
          else if mode = .encodeZone ∧ ¬ (h1 = '2' ∧ h2 = '5')
              ∧ unhex h1 * 16 + unhex h2 ≠ 32
              ∧ shouldEscapeHost (Char.ofNat (unhex h1 * 16 + unhex h2)) then
            .error .escapeError
          else
            match unescape rest2 mode with
            | .error e => .error e
            | .ok t => .ok (Char.ofNat (unhex h1 * 16 + unhex h2) :: t)
        else .error .escapeError
      | _ => .error .escapeError
    else if (mode = .encodeHost ∨ mode = .encodeZone) ∧ c.toNat < 128 ∧ shouldEscapeHost c then
      .error .invalidHostError
    else
      match unescape rest mode with
      | .error e => .error e
      | .ok t => .ok (c :: t)

/-- The Go function `stringContainsCTLByte`. -/
def stringContainsCTLByte (s : GoString) : Bool :=
  s.any (fun b => b.toNat < 32 || b.toNat = 127)

/-- The loop of `getScheme`; `i` is the index of the byte `c` at the head
of the unread input. -/
def getSchemeLoop (rawURL : GoString) : Nat → GoString → Except Error (GoString × GoString)
  | _, [] => .ok ([], rawURL)
  | i, c :: cs =>
    if isAlpha c then getSchemeLoop rawURL (i + 1) cs
    else if isDigit c ∨ c = '+' ∨ c = '-' ∨ c = '.' then
      if i = 0 then .ok ([], rawURL) else getSchemeLoop rawURL (i + 1) cs
    else if c = ':' then
      if i = 0 then .error .missingProtocolScheme else .ok (rawURL.take i, cs)
    else
      -- an invalid character, so there is no valid scheme
      .ok ([], rawURL)

/-- The Go function `getScheme`: the scheme of `rawURL` and the text after its colon. -/
def getScheme (rawURL : GoString) : Except Error (GoString × GoString) :=
  getSchemeLoop rawURL 0 rawURL

/-- The Go function `validOptionalPort`. -/
def validOptionalPort (port : GoString) : Bool :=
  match port with
  | [] => true
  | c :: ds => c = ':' && ds.all isDigit

/-- The Go function `validUserinfo`. -/
def validUserinfo (s : GoString) : Bool :=
  s.all (fun r => isAlpha r || isDigit r ||
    r ∈ ['-', '.', '_', ':', '~', '!', '$', '&', '\'', '(', ')', '*', '+', ',', ';', '=', '%', '@'])

/-- The Go function `parseHost`. -/
def parseHost (host : GoString) : Except Error GoString :=
  if strings.HasPrefix host ['['] then
    -- an IP-literal, "[fe80::1]", "[fe80::1%25en0]", "[fe80::1]:80"
    match strings.cutLast host ']' with
    | none => .error .missingBracketInHost
    | some (beforeBracket, colonPort) =>
      if ¬ validOptionalPort colonPort then .error .invalidPort
      else
        match strings.cutAt ['%', '2', '5'] beforeBracket with
        | some (h1, zone) =>
          match unescape h1 .encodeHost with
          | .error e => .error e
          | .ok host1 =>
            match unescape zone .encodeZone with
            | .error e => .error e
            | .ok host2 =>
              match unescape (']' :: colonPort) .encodeHost with
              | .error e => .error e
              | .ok host3 => .ok (host1 ++ host2 ++ host3)
        | none => unescape host .encodeHost
  else
    match strings.cutLast host ':' with
    | some (_, afterColon) =>
      if ¬ validOptionalPort (':' :: afterColon) then .error .invalidPort
      else unescape host .encodeHost
    | none => unescape host .encodeHost

/-- The Go function `parseAuthority`, reduced to the host it returns: the user information
is validated and unescaped (it can make parsing fail) and then dropped. -/
def parseAuthority (authority : GoString) : Except Error GoString :=
  match strings.cutLast authority '@' with
  | none => parseHost authority
  | some (userinfo, hostpart) =>
    match parseHost hostpart with
    | .error e => .error e
    | .ok host =>
      if ¬ validUserinfo userinfo then .error .invalidUserinfo
      else if ¬ strings.ContainsByte userinfo ':' then
        match unescape userinfo .encodeUserPassword with
        | .error e => .error e
        | .ok _ => .ok host
      else
        match unescape (strings.Cut userinfo ':').1 .encodeUserPassword with
        | .error e => .error e
        | .ok _ =>
          match unescape (strings.Cut userinfo ':').2.1 .encodeUserPassword with
          | .error e => .error e
          | .ok _ => .ok host

/-- The unexported `parse(rawURL, viaRequest = false)`. -/
def parse (rawURL : GoString) : Except Error URL :=
  if stringContainsCTLByte rawURL then .error .invalidControlCharacter
  else if rawURL = ['*'] then .ok { Scheme := [], Host := [], Path := ['*'] }
  else
    match getScheme rawURL with
    | .error e => .error e
    | .ok (scheme0, rest0) =>
      let scheme := strings.ToLower scheme0
      let rest1 :=
        if rest0.getLast? = some '?' ∧ rest0.count '?' = 1 then rest0.dropLast
        else (strings.Cut rest0 '?').1
      if ¬ strings.HasPrefix rest1 ['/'] ∧ scheme ≠ [] then
        -- rootless paths are opaque
        .ok { Scheme := scheme, Host := [], Path := [] }
      else if ¬ strings.HasPrefix rest1 ['/']
          ∧ strings.ContainsByte (strings.Cut rest1 '/').1 ':' then
        -- first path segment in URL cannot contain colon
        .error .firstPathSegmentColon
      else if (scheme ≠ [] ∨ ¬ strings.HasPrefix rest1 ['/', '/', '/'])
          ∧ strings.HasPrefix rest1 ['/', '/'] then
        let authority0 := rest1.drop 2
        let authority := authority0.takeWhile (fun c => !decide (c = '/'))
        let rest2 := authority0.dropWhile (fun c => !decide (c = '/'))
        match parseAuthority authority with
        | .error e => .error e
        | .ok host =>
          match unescape rest2 .encodePath with
          | .error e => .error e
          | .ok p => .ok { Scheme := scheme, Host := host, Path := p }
      else
        match unescape rest1 .encodePath with
        | .error e => .error e
        | .ok p => .ok { Scheme := scheme, Host := [], Path := p }

/-- The Go function `url.Parse`: cut off the fragment, parse the rest, then check the
fragment's escapes (`setFragment`). -/
def Parse (rawURL : GoString) : Except Error URL :=
  let u := (strings.Cut rawURL '#').1
  let frag := (strings.Cut rawURL '#').2.1
  match parse u with
  | .error e => .error e
  | .ok url =>
    if frag = [] then .ok url
    else
      match unescape frag .encodeFragment with
      | .error e => .error e
      | .ok _ => .ok url

end url

/-! ### Well-formed components

The sets of schemes, host names and path bytes that the serializer writes and
the parser reads back unchanged; they state which structures round-trip. -/

namespace url

/-- A byte a scheme may hold after its first letter (`getScheme`). -/
def schemeByte (c : Char) : Bool := isAlpha c || isDigit c || c = '+' || c = '-' || c = '.'

/-- A scheme as `Parse` returns it: a lower-case letter, then lower-case
letters, digits, `+`, `-` and `.`. -/
def schemeOK (s : GoString) : Bool :=
  match s with
  | [] => false
  | c :: cs =>
    ('a' ≤ c && c ≤ 'z') &&
      cs.all (fun x => ('a' ≤ x && x ≤ 'z') || isDigit x || x = '+' || x = '-' || x = '.')

/-- A host name of letters, digits, dots and hyphens. -/
def hostNameOK (h : GoString) : Bool :=
  h.all (fun c => isAlpha c || isDigit c || c = '.' || c = '-')

/-- A path byte that is written and read back verbatim: not `%`, `?` or
`#`, and not a control byte. -/
def pathByteOK (c : Char) : Bool :=
  c ≠ '%' && c ≠ '?' && c ≠ '#' && decide (32 ≤ c.toNat) && c.toNat ≠ 127

/-- A path of bytes that are read back verbatim. -/
def pathOK (q : GoString) : Bool := q.all pathByteOK

/-- A byte that cannot end the text `parse` reads: no `#`, no `?`, not a
control byte. -/
def plainByte (c : Char) : Prop := c ≠ '#' ∧ c ≠ '?' ∧ 32 ≤ c.toNat ∧ c.toNat ≠ 127

/-- A byte of a host name or of a port. -/
def hostByte (c : Char) : Bool := isAlpha c || isDigit c || c = '.' || c = '-' || c = ':'

end url

/-! ## Package `path/filepath` on Windows -/

namespace filepath

/-- The Go function `IsPathSeparator` (Windows). -/
def IsPathSeparator (c : Char) : Bool := c = '\\' || c = '/'

/-- The Go function `toUpper` of `path_windows.go`. -/
def toUpper (c : Char) : Char :=
  if 'a' ≤ c ∧ c ≤ 'z' then Char.ofNat (c.toNat - 32) else c

/-- The loop of `pathHasPrefixFold` over the bytes of `prefix`; `none` when
`s` is shorter than the prefix or differs from it, else the rest of `s`. -/
def stripPrefixFold : GoString → GoString → Option GoString
  | s, [] => some s
  | [], _ :: _ => none
  | c :: s, p :: ps =>
    if IsPathSeparator p then
      if IsPathSeparator c then stripPrefixFold s ps else none
    else if toUpper p = toUpper c then stripPrefixFold s ps else none

/-- The Go function `pathHasPrefixFold`: `s` begins with `pre`, ignoring case and treating
all separators alike, and the prefix ends at a separator or at the end. -/
def pathHasPrefixFold (s pre : GoString) : Bool :=
  match stripPrefixFold s pre with
  | none => false
  | some [] => true
  | some (c :: _) => IsPathSeparator c

/-- The loop of `uncLen` from index `i`: the index of the second separator,
or the length of the path. -/
def uncLenLoop : GoString → Nat → Nat → Nat
  | [], i, _ => i
  | c :: cs, i, count =>
    if IsPathSeparator c then
      if count + 1 = 2 then i else uncLenLoop cs (i + 1) (count + 1)
    else uncLenLoop cs (i + 1) count

/-- The Go function `uncLen(path, prefixLen)`. -/
def uncLen (p : GoString) (prefixLen : Nat) : Nat :=
  if prefixLen < p.length then uncLenLoop (p.drop prefixLen) prefixLen 0 else p.length

/-- The Go function `cutPath`: the text after the first separator, when there is one. -/
def cutPathRest : GoString → Option GoString
  | [] => none
  | c :: cs => if IsPathSeparator c then some cs else cutPathRest cs

/-- Whether `path[i]` exists and is a path separator. -/
def sepAt (p : GoString) (i : Nat) : Bool :=
  match p.get? i with
  | none => false
  | some c => IsPathSeparator c

/-- The Go function `volumeNameLen` (Windows). -/
def volumeNameLen (p : GoString) : Nat :=
  if p.length ≥ 2 ∧ p.get? 1 = some ':' then
    -- Path starts with a drive letter.
    2
  else if p.length = 0 ∨ ¬ sepAt p 0 then
    -- Path does not have a volume component.
    0
  else if pathHasPrefixFold p "\\\\.\\UNC".toList then uncLen p 8
  else if pathHasPrefixFold p "\\\\.".toList || pathHasPrefixFold p "\\\\?".toList
      || pathHasPrefixFold p "\\??".toList then
    if p.length = 3 then 3
    else match cutPathRest (p.drop 4) with
      | none => p.length
      | some rest => p.length - rest.length - 1
  else if p.length ≥ 2 ∧ sepAt p 1 then
    -- Path starts with \\\\, and is a UNC path.
    uncLen p 2
  else 0

/-- The Go function `filepath.FromSlash` (Windows). -/
def FromSlash (p : GoString) : GoString := strings.ReplaceAll p '/' '\\'

/-- The Go function `filepath.VolumeName` (Windows). -/
def VolumeName (p : GoString) : GoString := FromSlash (p.take (volumeNameLen p))

end filepath

/-! ## Package `urlpath` -/

namespace urlpath

open url (URL)

/-! ### `urlpath_unix.go` -/

namespace unix

/-- The function `fromString` must not call path.Clean on URL.Path! -/
def fromString (pth : GoString) : Except Error URL :=
  url.Parse pth

def isAbsURL (u : URL) : Bool :=
  u.Scheme ≠ [] || path.IsAbs u.Path

def toString (u : URL) : GoString :=
  if u.Scheme ≠ [] then
    u.Scheme ++ "://".toList ++ u.Host ++ path.Join ["/".toList, u.Path]
  else
    path.Clean u.Path

def normalize (u wd : URL) : GoString :=
  if u.Scheme ≠ [] ∨ u.Host ≠ [] then
    toString { u with Path := path.Clean u.Path }
  else
    let u1 : URL := { u with Scheme := wd.Scheme, Host := wd.Host }
    if ¬ path.IsAbs u1.Path then
      toString { u1 with Path := path.Join [wd.Path, u1.Path] }
    else
      toString { u1 with Path := path.Clean u1.Path }

end unix

/-! ### `urlpath_windows.go` -/

namespace windows

/-- The function `fromString` must not call path.Clean on URL.Path! -/
def fromString (pth0 : GoString) : Except Error URL :=
  let pth := strings.ReplaceAll pth0 '\\' '/'
  let volume := filepath.VolumeName pth
  if strings.ContainsByte volume ':' then
    -- Is an absolute path starting with volume name (i.e. C:\)...
    .ok { Scheme := [], Host := [], Path := '/' :: pth }
  else
    url.Parse pth

def volumeName (u : URL) : GoString :=
  if u.Path = [] then []
  else filepath.VolumeName (u.Path.drop 1)

def isAbsURL (u : URL) : Bool :=
  u.Scheme ≠ [] || u.Host ≠ [] || volumeName u ≠ [] || path.IsAbs u.Path

/-- The function `isFileURL` of `urlpath.go`; only the Windows variant uses it. -/
def isFileURL (u : URL) : Bool :=
  u.Scheme = "file".toList || u.Scheme = []

def pathURL (u0 : URL) : GoString :=
  let u : URL := if volumeName u0 ≠ [] then { u0 with Path := u0.Path.drop 1 } else u0
  if isFileURL u ∧ u.Host ≠ [] then
    "//".toList ++ u.Host ++ path.Join ["/".toList, u.Path]
  else
    path.Clean u.Path

def toString (u0 : URL) : GoString :=
  let u : URL :=
    if volumeName u0 ≠ [] then { u0 with Path := path.Clean (u0.Path.drop 1) } else u0
  if u.Scheme ≠ [] then
    u.Scheme ++ "://".toList ++ u.Host ++ path.Join ["/".toList, u.Path]
  else if u.Host ≠ [] then
    "//".toList ++ u.Host ++ path.Join ["/".toList, u.Path]
  else
    path.Clean u.Path

def normalize (u wd : URL) : GoString :=
  if u.Scheme ≠ [] ∨ u.Host ≠ [] ∨ volumeName u ≠ [] then
    toString { u with Path := path.Clean u.Path }
  else
    let u1 : URL := { u with Scheme := wd.Scheme, Host := wd.Host }
    if ¬ path.IsAbs u1.Path then
      toString { u1 with Path := path.Join [wd.Path, u1.Path] }
    else
      toString { u1 with Path := path.Clean u1.Path }

end windows

/-! ### `urlpath.go`

The build tag picks one of the two variants; `GOOS` is that choice. -/

/-- The build variant. -/
inductive GOOS where
  | unix
  | windows
  deriving DecidableEq, Repr

def fromString : GOOS → GoString → Except Error URL
  | .unix => unix.fromString
  | .windows => windows.fromString

def toString : GOOS → URL → GoString
  | .unix => unix.toString
  | .windows => windows.toString

def isAbsURL : GOOS → URL → Bool
  | .unix => unix.isAbsURL
  | .windows => windows.isAbsURL

def normalize : GOOS → URL → URL → GoString
  | .unix => unix.normalize
  | .windows => windows.normalize

/-- The test `normalize` starts with: the structure is already qualified
(`u.Scheme != "" || u.Host != ""`, and on Windows `|| volumeName(u) != ""`). -/
def isQualified : GOOS → URL → Bool
  | .unix, u => decide (u.Scheme ≠ [] ∨ u.Host ≠ [])
  | .windows, u => decide (u.Scheme ≠ [] ∨ u.Host ≠ [] ∨ windows.volumeName u ≠ [])

/-- The function `Abs` resolves a path to an absolute URL string relative to a working
directory. -/
def Abs (os : GOOS) (pth wd0 : GoString) : GoString × Option Error :=
  let wd := if wd0 = [] then "/".toList else wd0
  match fromString os pth with
  | .error err => ([], some err)
  | .ok u =>
    match fromString os wd with
    | .error err => ([], some err)
    | .ok wdu => (normalize os u wdu, none)

/-- The function `Base` returns the last element of the path component. -/
def Base (os : GOOS) (pth : GoString) : GoString × Option Error :=
  match fromString os pth with
  | .error err => ([], some err)
  | .ok u => (path.Base u.Path, none)

/-- The function `Dir` returns the directory component of the input URL string. -/
def Dir (os : GOOS) (pth : GoString) : GoString × Option Error :=
  match fromString os pth with
  | .error err => ([], some err)
  | .ok u => (toString os { u with Path := path.Dir u.Path }, none)

/-- The function `Ext` returns the file extension of the path component. -/
def Ext (os : GOOS) (pth : GoString) : GoString × Option Error :=
  match fromString os pth with
  | .error err => ([], some err)
  | .ok u => (path.Ext u.Path, none)

/-- The function `Clean` cleans the path component of the input URL string. -/
def Clean (os : GOOS) (pth : GoString) : GoString × Option Error :=
  match fromString os pth with
  | .error err => ([], some err)
  | .ok u => (toString os { u with Path := path.Clean u.Path }, none)

/-- The function `IsAbs` determines if the input URL string represents an absolute URL. -/
def IsAbs (os : GOOS) (pth : GoString) : Bool × Option Error :=
  match fromString os pth with
  | .error err => (false, some err)
  | .ok u => (isAbsURL os u, none)

/-- The loop of `Join` over the elements after the first: `uf` is the
first element's structure, whose path takes the joined paths. -/
def joinLoop (os : GOOS) : URL → List GoString → Except Error URL
  | uf, [] => .ok uf
  | uf, e :: es =>
    match fromString os e with
    | .error err => .error err
    | .ok u => joinLoop os { uf with Path := path.Join [uf.Path, u.Path] } es

/-- The function `Join` combines multiple URL path strings into a single URL string.
With no element at all, `toString` dereferences the nil `uf` and the Go
program panics: the result is `none`. -/
def Join (os : GOOS) (elem : List GoString) : Option (GoString × Option Error) :=
  match elem with
  | [] => none
  | e :: es =>
    match fromString os e with
    | .error err => some ([], some err)
    | .ok uf =>
      match joinLoop os uf es with
      | .error err => some ([], some err)
      | .ok uf1 => some (toString os uf1, none)

/-- The function `Split` splits the path component into its directory and file. -/
def Split (os : GOOS) (pth : GoString) : GoString × GoString × Option Error :=
  match fromString os pth with
  | .error err => ([], [], some err)
  | .ok u => (toString os { u with Path := (path.Split u.Path).1 }, (path.Split u.Path).2, none)

end urlpath

/-! ## The segment view of `path.Clean`

`path.Clean` works byte by byte on a buffer.  Its effect is easier to state
on path elements: split the path at the slashes and run the elements through
a stack.  The definitions below state that view; `path.Clean_eq_cleanSpec`
proves that the byte-level loop computes it. -/

namespace path

/-- The elements of a path: the text between the slashes. -/
def segs : GoString → List GoString
  | [] => [[]]
  | c :: cs =>
    if c = '/' then [] :: segs cs
    else match segs cs with
      | [] => [[c]]
      | s :: ss => (c :: s) :: ss

/-- The state of `Clean` seen as elements: the elements kept so far above
the leading `..` elements (last element first), and the number of leading
`..` elements. -/
abbrev CleanState := List GoString × Nat

/-- What one path element does to the state. -/
def cleanStep (rooted : Bool) (st : CleanState) (e : GoString) : CleanState :=
  if e = [] ∨ e = ['.'] then st
  else if e = ['.', '.'] then
    match st.1 with
    | _ :: rs => (rs, st.2)
    | [] => if rooted then st else ([], st.2 + 1)
  else (e :: st.1, st.2)

/-- The state after the elements `es`. -/
def cleanRun (rooted : Bool) (st : CleanState) (es : List GoString) : CleanState :=
  es.foldl (cleanStep rooted) st

/-- The buffer, last byte first, that holds `n` leading `..` elements (or
the root slash). -/
def encBase (rooted : Bool) : Nat → List Char
  | 0 => if rooted then ['/'] else []
  | n + 1 =>
    '.' :: '.' :: (if (encBase rooted n).length > 0 then '/' :: encBase rooted n
      else encBase rooted n)

/-- The buffer, last byte first, of a state. -/
def encReal (rooted : Bool) (b : List Char) : List GoString → List Char
  | [] => b
  | e :: es =>
    e.reverse ++
      (if (rooted ∧ (encReal rooted b es).length ≠ 1) ∨ (¬ rooted ∧ (encReal rooted b es).length ≠ 0)
        then '/' :: encReal rooted b es else encReal rooted b es)

/-- The buffer of a state. -/
def enc (rooted : Bool) (st : CleanState) : List Char :=
  encReal rooted (encBase rooted st.2) st.1

/-- The string `Clean` returns for a final state. -/
def render (rooted : Bool) (st : CleanState) : GoString :=
  if (enc rooted st).length = 0 then ['.'] else (enc rooted st).reverse

/-- The function `Clean`, stated on path elements. -/
def cleanSpec (p : GoString) : GoString :=
  render (IsAbs p) (cleanRun (IsAbs p) ([], 0) (segs p))

/-- A path element a state may hold: not empty and without a slash. -/
def IsElem (e : GoString) : Prop := e ≠ [] ∧ '/' ∉ e

/-- A state `Clean` can reach: its elements are proper path elements, and a
rooted path has no leading `..`. -/
def Valid (rooted : Bool) (st : CleanState) : Prop :=
  (∀ e ∈ st.1, IsElem e ∧ e ≠ ['.'] ∧ e ≠ ['.', '.']) ∧ (rooted = true → st.2 = 0)

/-- The state `Clean` ends in on path `p`. -/
def cleanState (p : GoString) : CleanState := cleanRun (IsAbs p) ([], 0) (segs p)

end path

/-! ## Package `unicode/utf8`: `DecodeRuneInString`

A string is a list of bytes, one `Char` per byte; a rune is a natural
number.  The bit operations of the Go source are written with `%`, `*` and
`+`: `b & maskx` is `b % 64`, `b & mask2` is `b % 32`, `b & mask3` is
`b % 16`, `b & mask4` is `b % 8`, a shift left by `k` bits is a product with
`2 ^ k`, and the bit fields joined by `|` do not overlap. -/

namespace utf8

/-- The constant `RuneError`, U+FFFD. -/
def RuneError : Nat := 0xFFFD

/-- The table `first`: information about the first byte of a UTF-8
sequence.  `0xF0` (`as`) is an ASCII byte and `0xF1` (`xx`) an invalid one;
otherwise the low three bits are the size of the sequence and the high four
bits the index of the range the second byte must be in. -/
def first (b : Nat) : Nat :=
  if b < 0x80 then 0xF0
  else if b < 0xC2 then 0xF1
  else if b < 0xE0 then 0x02
  else if b = 0xE0 then 0x13
  else if b < 0xED then 0x03
  else if b = 0xED then 0x23
  else if b < 0xF0 then 0x03
  else if b = 0xF0 then 0x34
  else if b < 0xF4 then 0x04
  else if b = 0xF4 then 0x44
  else 0xF1

/-- The table `acceptRanges`: the lowest and the highest value of the second
byte. -/
def acceptRanges (i : Nat) : Nat × Nat :=
  match i with
  | 0 => (0x80, 0xBF)
  | 1 => (0xA0, 0xBF)
  | 2 => (0x80, 0x9F)
  | 3 => (0x90, 0xBF)
  | 4 => (0x80, 0x8F)
  | _ => (0, 0)

/-- The Go function `utf8.DecodeRuneInString`: the first rune of `s` and its
width in bytes; `(RuneError, 0)` for the empty string and `(RuneError, 1)`
for an invalid encoding. -/
def DecodeRuneInString (s : GoString) : Nat × Nat :=
  match s with
  | [] => (RuneError, 0)
  | c0 :: rest =>
    if first c0.toNat ≥ 0xF0 then
      -- an ASCII byte is the rune itself, an invalid byte gives RuneError
      (if first c0.toNat % 2 = 1 then RuneError else c0.toNat, 1)
    else if s.length < first c0.toNat % 8 then (RuneError, 1)
    else
      match rest with
      | [] => (RuneError, 1)
      | c1 :: rest1 =>
        if c1.toNat < (acceptRanges (first c0.toNat / 16)).1
            ∨ (acceptRanges (first c0.toNat / 16)).2 < c1.toNat then (RuneError, 1)
        else if first c0.toNat % 8 ≤ 2 then (c0.toNat % 32 * 64 + c1.toNat % 64, 2)
        else
          match rest1 with
          | [] => (RuneError, 1)
          | c2 :: rest2 =>
            if c2.toNat < 0x80 ∨ 0xBF < c2.toNat then (RuneError, 1)
            else if first c0.toNat % 8 ≤ 3 then
              (c0.toNat % 16 * 4096 + c1.toNat % 64 * 64 + c2.toNat % 64, 3)
            else
              match rest2 with
              | [] => (RuneError, 1)
              | c3 :: _ =>
                if c3.toNat < 0x80 ∨ 0xBF < c3.toNat then (RuneError, 1)
                else
                  (c0.toNat % 8 * 262144 + c1.toNat % 64 * 4096 + c2.toNat % 64 * 64
                    + c3.toNat % 64, 4)

end utf8

/-! ## Package `path`: `Match`

The matcher of Go's `path/match.go`.  The pattern and the name are read byte
by byte, except where the source decodes a rune: for `?`, for the rune a
character class is matched against, and for the characters of a class. -/

namespace path

/-- The scanning loop of `scanChunk`: the length of the chunk, which ends at
the first `*` outside a character class. -/
def scanLoop : GoString → Bool → Nat
  | [], _ => 0
  | c :: rest, inrange =>
    if c = '\\' then
      -- error check handled in matchChunk: bad pattern.
      match rest with
      | [] => 1
      | _ :: rest2 => 2 + scanLoop rest2 inrange
    else if c = '[' then 1 + scanLoop rest true
    else if c = ']' then 1 + scanLoop rest false
    else if c = '*' then
      if !inrange then 0 else 1 + scanLoop rest inrange
    else 1 + scanLoop rest inrange

/-- The function `scanChunk`: whether the pattern begins with stars, the
chunk after them, and the rest of the pattern. -/
def scanChunk (pattern : GoString) : Bool × GoString × GoString :=
  let p1 := pattern.dropWhile (fun c => decide (c = '*'))
  let star : Bool := match pattern with
    | [] => false
    | c :: _ => c = '*'
  (star, p1.take (scanLoop p1 false), p1.drop (scanLoop p1 false))

/-- The function `getEsc`: a possibly escaped character of a character class,
and the chunk after it, which must not be empty.  The character is
decoded as a rune; an invalid encoding is a bad pattern. -/
def getEsc (chunk : GoString) : Except Error (Nat × GoString) :=
  match chunk with
  | [] => .error .errBadPattern
  | c :: rest =>
    if c = '-' ∨ c = ']' then .error .errBadPattern
    else
      match (if c = '\\' then rest else c :: rest) with
      | [] => .error .errBadPattern
      | c1 :: rest1 =>
        if ((utf8.DecodeRuneInString (c1 :: rest1)).1 = utf8.RuneError
              ∧ (utf8.DecodeRuneInString (c1 :: rest1)).2 = 1)
            ∨ (c1 :: rest1).drop (utf8.DecodeRuneInString (c1 :: rest1)).2 = [] then
          .error .errBadPattern
        else
          .ok ((utf8.DecodeRuneInString (c1 :: rest1)).1,
            (c1 :: rest1).drop (utf8.DecodeRuneInString (c1 :: rest1)).2)

/-- The loop of `matchChunk` that parses the ranges of a character class:
whether `r` is in one of them, and the chunk after the closing bracket.
Every round consumes a byte of the chunk, so `fuel = len(chunk) + 1` rounds
are enough. -/
def classLoop : Nat → GoString → Nat → Bool → Nat → Except Error (Bool × GoString)
  | 0, _, _, _, _ => .error .errBadPattern
  | fuel + 1, chunk, r, m, nrange =>
    if chunk.head? = some ']' ∧ nrange > 0 then .ok (m, chunk.tail)
    else
      match getEsc chunk with
      | .error e => .error e
      | .ok (lo, chunk1) =>
        if chunk1.head? = some '-' then
          match getEsc chunk1.tail with
          | .error e => .error e
          | .ok (hi, chunk2) =>
            classLoop fuel chunk2 r (m || (decide (lo ≤ r) && decide (r ≤ hi))) (nrange + 1)
        else
          classLoop fuel chunk1 r (m || (decide (lo ≤ r) && decide (r ≤ lo))) (nrange + 1)

/-- The loop of `matchChunk`: `chunk` is what is left of the chunk, `s` what
is left of the name, `failed` whether the match has failed (the loop goes on
to check that the chunk is well formed).  The result is the rest of the name
when the chunk matched, `none` when it did not. -/
def matchChunkLoop : Nat → GoString → GoString → Bool → Except Error (Option GoString)
  | 0, _, _, _ => .error .errBadPattern
  | _ + 1, [], s, failed => if failed then .ok none else .ok (some s)
  | fuel + 1, c :: chunk1, s, failed0 =>
    let failed : Bool := failed0 || s.isEmpty
    if c = '[' then
      -- character class
      let r : Nat := if failed then 0 else (utf8.DecodeRuneInString s).1
      let s1 := if failed then s else s.drop (utf8.DecodeRuneInString s).2
      -- possibly negated
      let negated : Bool := chunk1.head? = some '^'
      let chunk2 := if negated then chunk1.tail else chunk1
      -- parse all ranges
      match classLoop fuel chunk2 r false 0 with
      | .error e => .error e
      | .ok (m, chunk3) => matchChunkLoop fuel chunk3 s1 (failed || (m == negated))
    else if c = '?' then
      if failed then matchChunkLoop fuel chunk1 s failed
      else
        matchChunkLoop fuel chunk1 (s.drop (utf8.DecodeRuneInString s).2) (s.head? = some '/')
    else if c = '\\' then
      match chunk1 with
      | [] => .error .errBadPattern
      | c2 :: chunk2 =>
        if failed then matchChunkLoop fuel chunk2 s failed
        else matchChunkLoop fuel chunk2 s.tail (s.head? ≠ some c2)
    else
      if failed then matchChunkLoop fuel chunk1 s failed
      else matchChunkLoop fuel chunk1 s.tail (s.head? ≠ some c)

/-- The function `matchChunk`. -/
def matchChunk (chunk s : GoString) : Except Error (Option GoString) :=
  matchChunkLoop (chunk.length + 1) chunk s false

/-- The loop of `Match` that looks for a match of the chunk after skipping
`i + 1` bytes; it cannot skip a slash.  `last` says that the chunk is the
last one, which must exhaust the name. -/
def starLoop (chunk : GoString) (last : Bool) : GoString → Except Error (Option GoString)
  | [] => .ok none
  | c :: tail =>
    if c = '/' then .ok none
    else
      match matchChunk chunk tail with
      | .error e => .error e
      | .ok (some t) => if last ∧ t ≠ [] then starLoop chunk last tail else .ok (some t)
      | .ok none => starLoop chunk last tail

/-- The loop of `Match` that checks that the remainder of the pattern is
syntactically valid. -/
def checkRest : Nat → GoString → Option Error
  | 0, _ => none
  | fuel + 1, pattern =>
    if pattern = [] then none
    else
      match matchChunk (scanChunk pattern).2.1 [] with
      | .error e => some e
      | .ok _ => checkRest fuel (scanChunk pattern).2.2

/-- The main loop of `Match`.  Every round consumes a byte of the pattern,
so `fuel = len(pattern) + 1` rounds are enough. -/
def matchLoop : Nat → GoString → GoString → Bool × Option Error
  | 0, _, _ => (false, none)
  | fuel + 1, pattern, name =>
    if pattern = [] then (decide (name = []), none)
    else
      let star := (scanChunk pattern).1
      let chunk := (scanChunk pattern).2.1
      let rest := (scanChunk pattern).2.2
      if star ∧ chunk = [] then
        -- Trailing * matches rest of string unless it has a /.
        (decide ('/' ∉ name), none)
      else
        match matchChunk chunk name with
        | .error e => (false, some e)
        | .ok r =>
          match (match r with
              | some t => if t = [] ∨ rest ≠ [] then some t else none
              | none => none) with
          | some t => matchLoop fuel rest t
          | none =>
            match (if star then starLoop chunk (decide (rest = [])) name else .ok none) with
            | .error e => (false, some e)
            | .ok (some t) => matchLoop fuel rest t
            | .ok none => (false, checkRest fuel rest)

/-- The Go function `path.Match`. -/
def Match (pattern name : GoString) : Bool × Option Error :=
  matchLoop (pattern.length + 1) pattern name

end path

/-! ## Package `urlpath`: `Match` and `Path` -/

namespace urlpath

open url (URL)

namespace unix

/-- Modelled from the spec: `pathURL` of the unix variant is not among the
sources (`urlpath_unix.go` does not define it).  The spec says of the source
that `Path` "special-cases `file://host/...` to re-add `//host`, but does not
special-case other schemes with hosts", and that only Windows strips a
volume; the doc comment of `Path` says the same.  So: the Windows `pathURL`
without the volume step. -/
def pathURL (u : URL) : GoString :=
  if windows.isFileURL u ∧ u.Host ≠ [] then
    "//".toList ++ u.Host ++ path.Join ["/".toList, u.Path]
  else
    path.Clean u.Path

end unix

def pathURL : GOOS → URL → GoString
  | .unix => unix.pathURL
  | .windows => windows.pathURL

/-- The function `Match` checks if the input URL string matches the given
pattern. -/
def Match (os : GOOS) (pattern name : GoString) : Bool × Option Error :=
  match fromString os name with
  | .error err => (false, some err)
  | .ok u => path.Match pattern (toString os u)

/-- The function `Path` extracts the path component of the input URL
string. -/
def Path (os : GOOS) (pth : GoString) : GoString × Option Error :=
  match fromString os pth with
  | .error err => ([], some err)
  | .ok u => (pathURL os u, none)

end urlpath

namespace urlpath

/-- The input parses: `fromString` returns a structure and no error. -/
def parses (os : GOOS) (s : GoString) : Prop := ∃ u, fromString os s = .ok u

end urlpath

/-! ## Glob matching, stated on its own

The matching the specification describes for `Match`, written down without
the chunks and the search of `path.Match`.  A pattern is read as a list of
items; each item other than the star stands for one byte of the text. -/

namespace path

/-- An item of a pattern: `*`, `?`, a byte that stands for itself (written
plainly or after a backslash), or a character class with its ranges. -/
inductive Item where
  | star
  | any
  | lit (c : Char)
  | cls (negated : Bool) (ranges : List (Nat × Nat))

/-- The rune `r` lies in one of the ranges. -/
def inRanges (ranges : List (Nat × Nat)) (r : Nat) : Bool :=
  ranges.any (fun rg => decide (rg.1 ≤ r) && decide (r ≤ rg.2))

/-- The byte `d` of the text is one the item stands for: `?` is any byte
other than `/`, a literal the byte itself, a class a byte in one of its
ranges (not in any of them when the class is negated).  The star stands for
no single byte. -/
def Item.accepts : Item → Char → Bool
  | .star, _ => false
  | .any, d => !decide (d = '/')
  | .lit c, d => decide (d = c)
  | .cls negated ranges, d => inRanges ranges d.toNat != negated

/-- A character of a class: an ASCII byte other than `-`, `]` and the
backslash, or a backslash and an ASCII byte. -/
inductive ClassChar : GoString → Nat → Prop
  | plain (c : Char) : c ≠ '-' → c ≠ ']' → c ≠ '\\' → c.toNat < 128 → ClassChar [c] c.toNat
  | esc (c : Char) : c.toNat < 128 → ClassChar ['\\', c] c.toNat

/-- A range of a class: one character, or two characters with `-` between
them. -/
inductive ClassRange : GoString → Nat × Nat → Prop
  | one (t : GoString) (r : Nat) : ClassChar t r → ClassRange t (r, r)
  | range (t1 : GoString) (lo : Nat) (t2 : GoString) (hi : Nat) :
      ClassChar t1 lo → ClassChar t2 hi → ClassRange (t1 ++ '-' :: t2) (lo, hi)

/-- The text between the brackets of a class: one or more ranges. -/
inductive ClassRanges : GoString → List (Nat × Nat) → Prop
  | one (t : GoString) (rg : Nat × Nat) : ClassRange t rg → ClassRanges t [rg]
  | cons (t : GoString) (rg : Nat × Nat) (ts : GoString) (rgs : List (Nat × Nat)) :
      ClassRange t rg → ClassRanges ts rgs → ClassRanges (t ++ ts) (rg :: rgs)

/-- The pattern reads as the list of items: a well-formed pattern.  A class
is `[` ranges `]`, negated when `^` follows the bracket. -/
inductive Parses : GoString → List Item → Prop
  | nil : Parses [] []
  | star (p : GoString) (is : List Item) : Parses p is → Parses ('*' :: p) (.star :: is)
  | any (p : GoString) (is : List Item) : Parses p is → Parses ('?' :: p) (.any :: is)
  | esc (c : Char) (p : GoString) (is : List Item) :
      Parses p is → Parses ('\\' :: c :: p) (.lit c :: is)
  | lit (c : Char) (p : GoString) (is : List Item) :
      c ≠ '*' → c ≠ '?' → c ≠ '\\' → c ≠ '[' → Parses p is → Parses (c :: p) (.lit c :: is)
  | cls (body : GoString) (rgs : List (Nat × Nat)) (p : GoString) (is : List Item) :
      body.head? ≠ some '^' → ClassRanges body rgs → Parses p is →
      Parses ('[' :: (body ++ ']' :: p)) (.cls false rgs :: is)
  | ncls (body : GoString) (rgs : List (Nat × Nat)) (p : GoString) (is : List Item) :
      ClassRanges body rgs → Parses p is →
      Parses ('[' :: '^' :: (body ++ ']' :: p)) (.cls true rgs :: is)

/-- The items match the whole of the text `s`: a star takes any run of bytes
other than `/`, every other item one byte it accepts. -/
inductive Glob : List Item → GoString → Prop
  | nil : Glob [] []
  | star (a s : GoString) (is : List Item) : '/' ∉ a → Glob is s → Glob (.star :: is) (a ++ s)
  | one (i : Item) (d : Char) (s : GoString) (is : List Item) :
      i.accepts d = true → Glob is s → Glob (i :: is) (d :: s)

/-- The items of a pattern without character classes and escapes. -/
def plainItems (pattern : GoString) : List Item :=
  pattern.map (fun c => if c = '*' then .star else if c = '?' then .any else .lit c)

end path

/-! ## Structures that are written and read back

The conditions on a structure under which the parser reads back what the
serializer writes, and the structure it reads. -/

namespace urlpath

open url (URL)

/-- The first element of a path: the bytes before its first slash. -/
def firstSeg (p : GoString) : GoString := p.takeWhile (fun c => !decide (c = '/'))

/-- The condition on the path `q` of a structure without scheme and host.
On unix the first element of the cleaned path has no colon (a relative path
with one does not parse, or parses as a scheme).  On Windows, for a path
without a volume, the same holds and the cleaned path is not `/:...`, which
would be read as a volume; a path with a volume is the stored form of a
drive-letter path, a slash followed by a relative path whose cleaned form
still begins with the drive. -/
def bareOK (os : GOOS) (q : GoString) : Prop :=
  match os with
  | .unix => ':' ∉ firstSeg (path.Clean q)
  | .windows =>
    if windows.volumeName { Scheme := [], Host := [], Path := q } = [] then
      ':' ∉ firstSeg (path.Clean q) ∧ (path.Clean q).get? 1 ≠ some ':'
    else
      q.head? = some '/' ∧ (path.Clean (q.drop 1)).head? ≠ some '/'
        ∧ (path.Clean (q.drop 1)).get? 1 = some ':'

instance (os : GOOS) (q : GoString) : Decidable (bareOK os q) := by
  cases os
  · exact inferInstanceAs (Decidable (':' ∉ firstSeg (path.Clean q)))
  · exact inferInstanceAs (Decidable
      (if windows.volumeName { Scheme := [], Host := [], Path := q } = [] then
        ':' ∉ firstSeg (path.Clean q) ∧ (path.Clean q).get? 1 ≠ some ':'
      else
        q.head? = some '/' ∧ (path.Clean (q.drop 1)).head? ≠ some '/'
          ∧ (path.Clean (q.drop 1)).get? 1 = some ':'))

/-- A structure the parser reads back from its serialization.  The host is
a host name (letters, digits, dots, hyphens) with an optional port; the path
has only bytes that are written and read verbatim; the scheme is empty or
well formed.  Without a scheme the host has no port; without scheme and host
the path satisfies `bareOK`; a host without a scheme is written on Windows
only, and then the path has no colon (the text `//host/...` is read as a UNC
volume there).  On Windows the scheme is not a single letter, which would be
read as a drive, the path has no backslash, which the parser turns into a
slash, and a path that carries a volume begins with a slash. -/
def Writable (os : GOOS) (u : URL) : Prop :=
  (∃ name port, u.Host = name ++ port ∧ url.hostNameOK name = true
      ∧ url.validOptionalPort port = true ∧ (u.Scheme = [] → port = []))
    ∧ url.pathOK u.Path = true
    ∧ (u.Scheme = [] ∨ url.schemeOK u.Scheme = true)
    ∧ (u.Scheme = [] → u.Host = [] → bareOK os u.Path)
    ∧ (u.Scheme = [] → u.Host ≠ [] → os = .windows ∧ ':' ∉ u.Path)
    ∧ (os = .windows → u.Scheme.length ≠ 1 ∧ '\\' ∉ u.Path
        ∧ (windows.volumeName u ≠ [] → path.IsAbs u.Path = true))

/-- The structure read back from the serialization of `u`: the same scheme
and host; the path is the cleaned path for a structure without scheme and
host, and the rooted cleaned path `path.Join("/", path)` otherwise. -/
def canon (u : URL) : URL :=
  { u with Path := if u.Scheme = [] ∧ u.Host = [] then path.Clean u.Path
      else path.Join ["/".toList, u.Path] }

end urlpath

/-! # Theorems -/

/-! ## `path.Clean` computes its element-level specification -/

namespace path

theorem segs_ne_nil (p : GoString) : segs p ≠ [] := by
  cases p with
  | nil => simp [segs]
  | cons c cs =>
    simp only [segs]
    split
    · simp
    · split <;> simp

theorem segs_slash (r : GoString) : segs ('/' :: r) = [] :: segs r := by
  simp [segs]

/-- Splitting at the first slash. -/
theorem segs_eq (l : GoString) :
    segs l = l.takeWhile (fun x => !decide (x = '/')) ::
      (segs (l.dropWhile (fun x => !decide (x = '/')))).tail := by
  induction l with
  | nil => simp [segs]
  | cons c cs ih =>
    by_cases hc : c = '/'
    · subst hc
      simp [segs]
    · simp only [segs, if_neg hc]
      rw [ih]
      simp [List.takeWhile, List.dropWhile, hc]

theorem segs_dropWhile (l : GoString) :
    segs (l.dropWhile (fun x => !decide (x = '/'))) =
      [] :: (segs (l.dropWhile (fun x => !decide (x = '/')))).tail := by
  induction l with
  | nil => simp [segs]
  | cons c cs ih =>
    by_cases hc : c = '/'
    · subst hc
      simp [segs]
    · simpa [List.dropWhile, hc] using ih

theorem cleanStep_nil (rooted : Bool) (st : CleanState) : cleanStep rooted st [] = st := by
  simp [cleanStep]

theorem cleanStep_dot (rooted : Bool) (st : CleanState) : cleanStep rooted st ['.'] = st := by
  simp [cleanStep]

/-- Reading one element `c :: takeWhile ..` and going on after it. -/
theorem cleanRun_segs_cons (rooted : Bool) (st : CleanState) (c : Char) (rest : GoString)
    (hc : c ≠ '/') :
    cleanRun rooted st (segs (c :: rest)) =
      cleanRun rooted (cleanStep rooted st (c :: rest.takeWhile (fun x => !decide (x = '/'))))
        (segs (rest.dropWhile (fun x => !decide (x = '/')))) := by
  rw [segs_eq (c :: rest), segs_dropWhile rest]
  simp [List.takeWhile, List.dropWhile, hc, cleanRun, cleanStep_nil]

end path

namespace path

theorem encReal_length_ge (rooted : Bool) (b : List Char) (real : List GoString) :
    b.length ≤ (encReal rooted b real).length := by
  induction real with
  | nil => simp [encReal]
  | cons e es ih =>
    simp only [encReal, List.length_append, List.length_reverse]
    split
    · simp only [List.length_cons]; omega
    · omega

theorem encReal_length_gt (rooted : Bool) (b : List Char) (e : GoString) (es : List GoString)
    (he : e ≠ []) : b.length < (encReal rooted b (e :: es)).length := by
  have h := encReal_length_ge rooted b es
  have h1 : 0 < e.length := List.length_pos.mpr he
  simp only [encReal, List.length_append, List.length_reverse]
  split
  · simp only [List.length_cons]; omega
  · omega

theorem backtrack_short (d : Nat) (r : List Char) (p : Char) (h : r.length ≤ d) :
    backtrack d r p = r := by
  cases r with
  | nil => simp [backtrack]
  | cons x l =>
    have : ¬ (x :: l).length > d := by omega
    simp [backtrack] at *
    intro h1
    omega

theorem backtrack_slash (d : Nat) (r : List Char) (p : Char) (hp : p ≠ '/')
    (h : d ≤ r.length) : backtrack d ('/' :: r) p = r := by
  have h1 : ('/' :: r).length > d := by simp; omega
  rw [backtrack, if_pos ⟨h1, hp⟩]
  cases r with
  | nil => simp [backtrack]
  | cons x l => simp [backtrack]

theorem backtrack_elem (d : Nat) (X : List Char) (hX : d ≤ X.length) :
    ∀ (l : List Char) (c : Char), (∀ x ∈ l, x ≠ '/') → c ≠ '/' →
      ∃ p, p ≠ '/' ∧ backtrack d (l ++ X) c = backtrack d X p := by
  intro l
  induction l with
  | nil => intro c _ hc; exact ⟨c, hc, rfl⟩
  | cons x l ih =>
    intro c hl hc
    have hx : x ≠ '/' := hl x (List.mem_cons_self _ _)
    obtain ⟨p, hp, hpe⟩ := ih x (fun y hy => hl y (List.mem_cons_of_mem _ hy)) hx
    refine ⟨p, hp, ?_⟩
    have h1 : (x :: (l ++ X)).length > d := by simp; omega
    rw [List.cons_append, backtrack, if_pos ⟨h1, hc⟩, hpe]

end path

namespace path

theorem backtrack_enc (rooted : Bool) (base : Nat) (hb : rooted = true → base = 0)
    (e : GoString) (es : List GoString) (he : IsElem e) (popped : Char) (rout1 : List Char)
    (h : encReal rooted (encBase rooted base) (e :: es) = popped :: rout1) :
    backtrack (encBase rooted base).length rout1 popped
      = encReal rooted (encBase rooted base) es := by
  have hge := encReal_length_ge rooted (encBase rooted base) es
  have hrev : ∀ x ∈ e.reverse, x ≠ '/' := by
    intro x hx h1
    subst h1
    exact he.2 (List.mem_reverse.mp hx)
  rw [encReal] at h
  cases hr : e.reverse with
  | nil => exact absurd (List.reverse_eq_nil_iff.mp hr) he.1
  | cons p l =>
    rw [hr] at h hrev
    rw [List.cons_append] at h
    injection h with h1 h2
    subst h1
    rw [← h2]
    have hp : p ≠ '/' := hrev p (List.mem_cons_self _ _)
    have hl : ∀ x ∈ l, x ≠ '/' := fun x hx => hrev x (List.mem_cons_of_mem _ hx)
    split
    · obtain ⟨q, hq, hqe⟩ := backtrack_elem (encBase rooted base).length
        ('/' :: encReal rooted (encBase rooted base) es) (by simp; omega) l p hl hp
      rw [hqe, backtrack_slash _ _ _ hq hge]
    · rename_i hns
      obtain ⟨q, _, hqe⟩ := backtrack_elem (encBase rooted base).length
        (encReal rooted (encBase rooted base) es) hge l p hl hp
      rw [hqe]
      apply backtrack_short
      cases rooted with
      | true =>
        have hb0 := hb rfl
        subst hb0
        simp [encBase] at hns ⊢
        omega
      | false =>
        simp at hns
        simp [hns]

end path

namespace path

theorem isDot_iff (c : Char) (rest : GoString) :
    isDot c rest = true ↔ c = '.' ∧ rest.takeWhile (fun x => !decide (x = '/')) = [] := by
  cases rest with
  | nil => simp [isDot]
  | cons c1 r =>
    by_cases h1 : c1 = '/'
    · simp [isDot, List.takeWhile, h1]
    · simp [isDot, List.takeWhile, h1]

theorem isDotDot_iff (c : Char) (rest : GoString) :
    isDotDot c rest = true ↔ c = '.' ∧ rest.takeWhile (fun x => !decide (x = '/')) = ['.'] := by
  cases rest with
  | nil => simp [isDotDot]
  | cons c1 r =>
    by_cases h1 : c1 = '/'
    · simp [isDotDot, List.takeWhile, h1]
    · cases r with
      | nil =>
        simp [isDotDot, List.takeWhile, h1]
      | cons c2 r2 =>
        by_cases h2 : c2 = '/'
        · simp [isDotDot, List.takeWhile, h1, h2]
        · simp [isDotDot, List.takeWhile, h1, h2]

theorem dropWhile_of_takeWhile_nil (rest : GoString)
    (h : rest.takeWhile (fun x => !decide (x = '/')) = []) :
    rest.dropWhile (fun x => !decide (x = '/')) = rest := by
  have := List.takeWhile_append_dropWhile (fun x => !decide (x = '/')) rest
  rw [h] at this
  simpa using this

theorem dropWhile_of_takeWhile_dot (rest : GoString)
    (h : rest.takeWhile (fun x => !decide (x = '/')) = ['.']) :
    rest.dropWhile (fun x => !decide (x = '/')) = rest.tail := by
  have := List.takeWhile_append_dropWhile (fun x => !decide (x = '/')) rest
  rw [h] at this
  conv_rhs => rw [← this]
  rfl

theorem length_dropWhile_le (rest : GoString) :
    (rest.dropWhile (fun x => !decide (x = '/'))).length ≤ rest.length := by
  have := List.takeWhile_append_dropWhile (fun x => !decide (x = '/')) rest
  have h2 := congrArg List.length this
  rw [List.length_append] at h2
  omega

theorem isElem_cons_takeWhile (c : Char) (rest : GoString) (hc : c ≠ '/') :
    IsElem (c :: rest.takeWhile (fun x => !decide (x = '/'))) := by
  refine ⟨by simp, ?_⟩
  intro h
  rcases List.mem_cons.mp h with h1 | h1
  · exact hc h1.symm
  · have := List.mem_takeWhile_imp h1
    simp at this

end path

namespace path

theorem enc_nil_length (rooted : Bool) (base : Nat) :
    enc rooted ([], base) = encBase rooted base := rfl

theorem cleanLoop_cons (rooted : Bool) (fuel : Nat) (c : Char) (rest : GoString)
    (rout : List Char) (dotdot : Nat) :
    cleanLoop rooted (fuel + 1) (c :: rest) rout dotdot =
      if c = '/' then cleanLoop rooted fuel rest rout dotdot
      else if isDot c rest then cleanLoop rooted fuel rest rout dotdot
      else if isDotDot c rest then
        if rout.length > dotdot then
          match rout with
          | [] => cleanLoop rooted fuel rest.tail rout dotdot
          | popped :: rout1 =>
            cleanLoop rooted fuel rest.tail (backtrack dotdot rout1 popped) dotdot
        else if !rooted then
          cleanLoop rooted fuel rest.tail
            ('.' :: '.' :: (if rout.length > 0 then '/' :: rout else rout))
            ((if rout.length > 0 then '/' :: rout else rout).length + 2)
        else cleanLoop rooted fuel rest.tail rout dotdot
      else
        cleanLoop rooted fuel (rest.dropWhile (fun x => !decide (x = '/')))
          ((rest.takeWhile (fun x => !decide (x = '/'))).reverse ++ c ::
            (if (rooted ∧ rout.length ≠ 1) ∨ (¬ rooted ∧ rout.length ≠ 0) then '/' :: rout
              else rout)) dotdot := by
  rfl

/-- The byte-level loop of `Clean` computes the element-level run. -/
theorem cleanLoop_enc (rooted : Bool) : ∀ (fuel : Nat) (rest : GoString)
    (real : List GoString) (base : Nat),
    rest.length ≤ fuel → (∀ e ∈ real, IsElem e) → (rooted = true → base = 0) →
    cleanLoop rooted fuel rest (enc rooted (real, base)) (encBase rooted base).length
      = enc rooted (cleanRun rooted (real, base) (segs rest)) := by
  intro fuel
  induction fuel with
  | zero =>
    intro rest real base hlen _ _
    have : rest = [] := List.length_eq_zero.mp (by omega)
    subst this
    simp [cleanLoop, segs, cleanRun, cleanStep]
  | succ fuel ih =>
    intro rest real base hlen hreal hb
    cases rest with
    | nil => simp [cleanLoop, segs, cleanRun, cleanStep]
    | cons c rest =>
      have hlen1 : rest.length ≤ fuel := by simp at hlen; omega
      rw [cleanLoop_cons]
      by_cases hc : c = '/'
      · subst hc
        rw [if_pos rfl, segs_slash]
        simp only [cleanRun, List.foldl_cons, cleanStep_nil]
        exact ih rest real base hlen1 hreal hb
      · rw [if_neg hc, cleanRun_segs_cons rooted _ c rest hc]
        by_cases hd : isDot c rest = true
        · rw [if_pos hd]
          obtain ⟨h1, h2⟩ := (isDot_iff c rest).mp hd
          subst h1
          rw [h2, dropWhile_of_takeWhile_nil rest h2, cleanStep_dot]
          exact ih rest real base hlen1 hreal hb
        · rw [if_neg hd]
          by_cases hdd : isDotDot c rest = true
          · rw [if_pos hdd]
            obtain ⟨h1, h2⟩ := (isDotDot_iff c rest).mp hdd
            subst h1
            rw [h2, dropWhile_of_takeWhile_dot rest h2]
            have hlen2 : rest.tail.length ≤ fuel := by simp; omega
            cases real with
            | nil =>
              have hnot : ¬ (enc rooted ([], base)).length > (encBase rooted base).length := by
                simp [enc, encReal]
              rw [if_neg hnot]
              cases rooted with
              | true =>
                simp only [Bool.not_true, Bool.false_eq_true, if_false]
                have : cleanStep true ([], base) ['.', '.'] = ([], base) := by
                  simp [cleanStep]
                rw [this]
                exact ih rest.tail [] base hlen2 hreal hb
              | false =>
                simp only [Bool.not_false, if_true]
                have : cleanStep false ([], base) ['.', '.'] = ([], base + 1) := by
                  simp [cleanStep]
                rw [this]
                have h3 := ih rest.tail [] (base + 1) hlen2 hreal (by simp)
                rw [← h3]
                simp [enc, encReal, encBase]
            | cons e es =>
              have he : IsElem e := hreal e (List.mem_cons_self _ _)
              have hes : ∀ x ∈ es, IsElem x := fun x hx => hreal x (List.mem_cons_of_mem _ hx)
              have hgt : (enc rooted (e :: es, base)).length > (encBase rooted base).length :=
                encReal_length_gt rooted _ e es he.1
              rw [if_pos hgt]
              have : cleanStep rooted (e :: es, base) ['.', '.'] = (es, base) := by
                simp [cleanStep]
              rw [this]
              cases hrout : enc rooted (e :: es, base) with
              | nil => rw [hrout] at hgt; simp at hgt
              | cons popped rout1 =>
                simp only
                rw [backtrack_enc rooted base hb e es he popped rout1 hrout]
                exact ih rest.tail es base hlen2 hes hb
          · rw [if_neg hdd]
            have helem := isElem_cons_takeWhile c rest hc
            have hstep : cleanStep rooted (real, base)
                (c :: rest.takeWhile (fun x => !decide (x = '/')))
                = ((c :: rest.takeWhile (fun x => !decide (x = '/'))) :: real, base) := by
              have hn1 : ¬ (c :: rest.takeWhile (fun x => !decide (x = '/')) = ['.']) := by
                intro h
                injection h with h1 h2
                exact hd ((isDot_iff c rest).mpr ⟨h1, h2⟩)
              have hn2 : ¬ (c :: rest.takeWhile (fun x => !decide (x = '/')) = ['.', '.']) := by
                intro h
                injection h with h1 h2
                exact hdd ((isDotDot_iff c rest).mpr ⟨h1, h2⟩)
              simp only [cleanStep, hn1, hn2, if_false, or_false]
              simp
            rw [hstep]
            have h3 := ih (rest.dropWhile (fun x => !decide (x = '/')))
              ((c :: rest.takeWhile (fun x => !decide (x = '/'))) :: real) base
              (le_trans (length_dropWhile_le rest) hlen1)
              (by
                intro x hx
                rcases List.mem_cons.mp hx with h | h
                · rw [h]; exact helem
                · exact hreal x h) hb
            rw [← h3]
            congr 1
            simp [enc, encReal]

end path

namespace path

/-- The function `path.Clean` computes the element-level specification. -/
theorem Clean_eq_cleanSpec (p : GoString) : Clean p = cleanSpec p := by
  cases p with
  | nil => simp [Clean, cleanSpec, render, enc, encReal, encBase, cleanRun, segs, cleanStep, IsAbs]
  | cons c rest =>
    by_cases hc : c = '/'
    · subst hc
      have h := cleanLoop_enc true ('/' :: rest).length rest [] 0 (by simp) (by simp) (by simp)
      have h1 : enc true ([], 0) = ['/'] := rfl
      have h2 : (encBase true 0).length = 1 := rfl
      rw [h1, h2] at h
      simp only [Clean, cleanSpec, IsAbs, decide_True, if_true, h, render, segs_slash, cleanRun,
        List.foldl_cons, cleanStep_nil]
    · have h := cleanLoop_enc false (c :: rest).length (c :: rest) [] 0 (by simp) (by simp)
        (by simp)
      have h1 : enc false ([], 0) = [] := rfl
      have h2 : (encBase false 0).length = 0 := rfl
      rw [h1, h2] at h
      simp only [Clean, cleanSpec, IsAbs, hc, decide_False, Bool.false_eq_true, if_false, h,
        render]

end path

/-! ## Algebra of `path.Clean`, `path.Join` and `path.Split` -/

namespace path

theorem segs_append_slash (a b : GoString) : segs (a ++ '/' :: b) = segs a ++ segs b := by
  induction a with
  | nil => simp [segs]
  | cons c cs ih =>
    by_cases hc : c = '/'
    · subst hc
      simp [segs, ih]
    · simp only [List.cons_append, segs, if_neg hc]
      change (match segs (cs ++ '/' :: b) with
        | [] => [[c]]
        | s :: ss => (c :: s) :: ss) = _
      rw [ih]
      cases h : segs cs with
      | nil => exact absurd h (segs_ne_nil cs)
      | cons s ss => simp

theorem segs_of_not_mem (e : GoString) (h : '/' ∉ e) : segs e = [e] := by
  induction e with
  | nil => simp [segs]
  | cons c cs ih =>
    have hc : c ≠ '/' := fun h1 => h (by simp [h1])
    have hcs : '/' ∉ cs := fun h1 => h (List.mem_cons_of_mem _ h1)
    simp [segs, hc, ih hcs]

theorem cleanRun_append (rooted : Bool) (st : CleanState) (l1 l2 : List GoString) :
    cleanRun rooted st (l1 ++ l2) = cleanRun rooted (cleanRun rooted st l1) l2 := by
  simp [cleanRun, List.foldl_append]

theorem valid_init (rooted : Bool) : Valid rooted ([], 0) := by
  simp [Valid]

theorem cleanStep_valid (rooted : Bool) (st : CleanState) (e : GoString) (he : '/' ∉ e)
    (h : Valid rooted st) : Valid rooted (cleanStep rooted st e) := by
  obtain ⟨real, base⟩ := st
  unfold cleanStep
  split
  · exact h
  · rename_i h1
    split
    · cases real with
      | nil =>
        cases rooted with
        | true => exact h
        | false => simp [Valid]
      | cons r rs =>
        exact ⟨fun x hx => h.1 x (List.mem_cons_of_mem _ hx), h.2⟩
    · rename_i h2
      refine ⟨?_, h.2⟩
      intro x hx
      rcases List.mem_cons.mp hx with hx | hx
      · subst hx
        simp only [not_or] at h1
        exact ⟨⟨h1.1, he⟩, h1.2, h2⟩
      · exact h.1 x hx

theorem not_mem_of_mem_segs (p : GoString) : ∀ e ∈ segs p, '/' ∉ e := by
  induction p with
  | nil => simp [segs]
  | cons c cs ih =>
    by_cases hc : c = '/'
    · subst hc
      simp only [segs, if_true]
      intro e he
      rcases List.mem_cons.mp he with h | h
      · simp [h]
      · exact ih e h
    · simp only [segs, if_neg hc]
      cases h : segs cs with
      | nil => exact absurd h (segs_ne_nil cs)
      | cons s ss =>
        rw [h] at ih
        intro e he
        rcases List.mem_cons.mp he with h1 | h1
        · subst h1
          intro hm
          rcases List.mem_cons.mp hm with h2 | h2
          · exact hc h2.symm
          · exact ih s (List.mem_cons_self _ _) h2
        · exact ih e (List.mem_cons_of_mem _ h1)

theorem cleanRun_valid (rooted : Bool) (es : List GoString) (hes : ∀ e ∈ es, '/' ∉ e) :
    ∀ st, Valid rooted st → Valid rooted (cleanRun rooted st es) := by
  induction es with
  | nil => intro st h; exact h
  | cons e es ih =>
    intro st h
    simp only [cleanRun, List.foldl_cons]
    exact ih (fun x hx => hes x (List.mem_cons_of_mem _ hx)) _
      (cleanStep_valid rooted st e (hes e (List.mem_cons_self _ _)) h)

theorem cleanState_valid (p : GoString) : Valid (IsAbs p) (cleanState p) :=
  cleanRun_valid _ _ (not_mem_of_mem_segs p) _ (valid_init _)

end path

namespace path

theorem cleanStep_proper (rooted : Bool) (st : CleanState) (e : GoString)
    (h1 : e ≠ []) (h2 : e ≠ ['.']) (h3 : e ≠ ['.', '.']) :
    cleanStep rooted st e = (e :: st.1, st.2) := by
  simp [cleanStep, h1, h2, h3]

theorem cleanStep_dotdot_base (n : Nat) :
    cleanStep false ([], n) ['.', '.'] = ([], n + 1) := by
  simp [cleanStep]

theorem encBase_false_length (n : Nat) : (encBase false (n + 1)).length ≥ 2 := by
  simp only [encBase]
  split <;> simp

/-- Reading back the leading `..` elements of a relative path. -/
theorem cleanRun_segs_encBase_false (n : Nat) :
    cleanRun false ([], 0) (segs (encBase false n).reverse) = ([], n) := by
  induction n with
  | zero => simp [encBase, segs, cleanRun, cleanStep]
  | succ n ih =>
    simp only [encBase]
    split
    · have : ('.' :: '.' :: '/' :: encBase false n).reverse
          = (encBase false n).reverse ++ '/' :: ['.', '.'] := by simp
      rw [this, segs_append_slash, cleanRun_append, ih]
      simp [segs, cleanRun, cleanStep]
    · rename_i h
      have h0 : n = 0 := by
        cases n with
        | zero => rfl
        | succ m =>
          have := encBase_false_length m
          omega
      subst h0
      simp [encBase, segs, cleanRun, cleanStep]

theorem cleanRun_segs_encBase (rooted : Bool) (n : Nat) (h : rooted = true → n = 0) :
    cleanRun rooted ([], 0) (segs (encBase rooted n).reverse) = ([], n) := by
  cases rooted with
  | false => exact cleanRun_segs_encBase_false n
  | true =>
    have := h rfl
    subst this
    simp [encBase, segs, cleanRun, cleanStep]

/-- Reading back the buffer of a valid state gives the state. -/
theorem cleanRun_segs_enc (rooted : Bool) (base : Nat) (hb : rooted = true → base = 0) :
    ∀ (real : List GoString), (∀ e ∈ real, IsElem e ∧ e ≠ ['.'] ∧ e ≠ ['.', '.']) →
      cleanRun rooted ([], 0) (segs (enc rooted (real, base)).reverse) = (real, base) := by
  intro real
  induction real with
  | nil => intro _; exact cleanRun_segs_encBase rooted base hb
  | cons e es ih =>
    intro hreal
    have he := hreal e (List.mem_cons_self _ _)
    have hes : ∀ x ∈ es, IsElem x ∧ x ≠ ['.'] ∧ x ≠ ['.', '.'] :=
      fun x hx => hreal x (List.mem_cons_of_mem _ hx)
    have ih' := ih hes
    simp only [enc, encReal] at ih' ⊢
    split
    · have : (e.reverse ++ '/' :: encReal rooted (encBase rooted base) es).reverse
          = (encReal rooted (encBase rooted base) es).reverse ++ '/' :: e := by simp
      rw [this, segs_append_slash, cleanRun_append, ih', segs_of_not_mem e he.1.2]
      simp [cleanRun, cleanStep_proper rooted _ e he.1.1 he.2.1 he.2.2]
    · rename_i hns
      have hnil : es = [] := by
        cases es with
        | nil => rfl
        | cons x xs =>
          exfalso
          have hx := (hes x (List.mem_cons_self _ _)).1.1
          have hgt := encReal_length_gt rooted (encBase rooted base) x xs hx
          cases rooted with
          | true =>
            have := hb rfl
            subst this
            simp [encBase] at hns hgt
            omega
          | false =>
            have hlen : (encReal false (encBase false base) (x :: xs)).length = 0 := by
              by_contra hne
              exact hns (Or.inr ⟨by simp, hne⟩)
            omega
      subst hnil
      cases rooted with
      | true =>
        have := hb rfl
        subst this
        simp [encReal, encBase, segs, segs_of_not_mem e he.1.2, cleanRun, cleanStep_nil,
          cleanStep_proper true _ e he.1.1 he.2.1 he.2.2]
      | false =>
        have hb0 : base = 0 := by
          cases base with
          | zero => rfl
          | succ m =>
            have := encBase_false_length m
            have hlen : (encReal false (encBase false (m + 1)) []).length = 0 := by
              by_contra hne
              exact hns (Or.inr ⟨by simp, hne⟩)
            simp only [encReal] at hlen
            omega
        subst hb0
        simp [encReal, encBase, segs_of_not_mem e he.1.2, cleanRun,
          cleanStep_proper false _ e he.1.1 he.2.1 he.2.2]

end path

namespace path

theorem IsAbs_append (x y : GoString) (hx : x ≠ []) : IsAbs (x ++ y) = IsAbs x := by
  cases x with
  | nil => exact absurd rfl hx
  | cons c cs => rfl

theorem enc_true_reverse (real : List GoString) :
    ∃ t, (enc true (real, 0)).reverse = '/' :: t := by
  induction real with
  | nil => exact ⟨[], rfl⟩
  | cons e es ih =>
    obtain ⟨t, ht⟩ := ih
    simp only [enc, encReal] at ht ⊢
    split
    · refine ⟨t ++ '/' :: e, ?_⟩
      simp [ht]
    · refine ⟨t ++ e, ?_⟩
      simp [ht]

theorem IsAbs_encBase_false (n : Nat) : IsAbs (encBase false n).reverse = false := by
  induction n with
  | zero => rfl
  | succ n ih =>
    simp only [encBase]
    split
    · rename_i h
      have hne : (encBase false n).reverse ≠ [] := by
        intro h1
        rw [List.reverse_eq_nil_iff] at h1
        rw [h1] at h
        simp at h
      have : ('.' :: '.' :: '/' :: encBase false n).reverse
          = (encBase false n).reverse ++ '/' :: ['.', '.'] := by simp
      rw [this, IsAbs_append _ _ hne, ih]
    · rename_i h
      have h1 : encBase false n = [] := List.length_eq_zero.mp (by omega)
      rw [h1]
      rfl

theorem IsAbs_elem (e : GoString) (he : IsElem e) : IsAbs e = false := by
  cases e with
  | nil => rfl
  | cons c cs =>
    have : c ≠ '/' := fun h => he.2 (by simp [h])
    simp [IsAbs, this]

theorem IsAbs_enc_false (base : Nat) : ∀ (real : List GoString), (∀ e ∈ real, IsElem e) →
    IsAbs (enc false (real, base)).reverse = false := by
  intro real
  induction real with
  | nil => intro _; exact IsAbs_encBase_false base
  | cons e es ih =>
    intro hreal
    have he := hreal e (List.mem_cons_self _ _)
    have ih' := ih (fun x hx => hreal x (List.mem_cons_of_mem _ hx))
    simp only [enc, encReal] at ih' ⊢
    split
    · rename_i h
      have hne : (encReal false (encBase false base) es).reverse ≠ [] := by
        intro h1
        rw [List.reverse_eq_nil_iff] at h1
        rw [h1] at h
        simp at h
      have : (e.reverse ++ '/' :: encReal false (encBase false base) es).reverse
          = (encReal false (encBase false base) es).reverse ++ '/' :: e := by simp
      rw [this, IsAbs_append _ _ hne, ih']
    · rename_i h
      have h1 : encReal false (encBase false base) es = [] := by
        apply List.length_eq_zero.mp
        by_contra hne
        exact h (Or.inr ⟨by simp, hne⟩)
      rw [h1]
      simpa using IsAbs_elem e he

/-- The function `Clean` keeps a path rooted or relative. -/
theorem IsAbs_render (rooted : Bool) (st : CleanState) (hv : Valid rooted st) :
    IsAbs (render rooted st) = rooted := by
  obtain ⟨real, base⟩ := st
  cases rooted with
  | true =>
    have hb : base = 0 := hv.2 rfl
    subst hb
    obtain ⟨t, ht⟩ := enc_true_reverse real
    have hlen : (enc true (real, 0)).length ≠ 0 := by
      intro h
      have := List.length_eq_zero.mp h
      rw [this] at ht
      simp at ht
    simp [render, hlen, ht, IsAbs]
  | false =>
    simp only [render]
    split
    · rfl
    · exact IsAbs_enc_false base real (fun e he => (hv.1 e he).1)

theorem render_ne_nil (rooted : Bool) (st : CleanState) : render rooted st ≠ [] := by
  simp only [render]
  split
  · simp
  · rename_i h
    intro h1
    rw [List.reverse_eq_nil_iff] at h1
    rw [h1] at h
    simp at h

/-- Reading back what `Clean` returns gives the state it ended in. -/
theorem cleanRun_segs_render (rooted : Bool) (st : CleanState) (hv : Valid rooted st) :
    cleanRun rooted ([], 0) (segs (render rooted st)) = st := by
  have h := cleanRun_segs_enc rooted st.2 hv.2 st.1 hv.1
  simp only [render]
  split
  · rename_i h0
    have h1 : enc rooted st = [] := List.length_eq_zero.mp h0
    have h2 : enc rooted (st.1, st.2) = [] := h1
    rw [h2] at h
    have h3 : st = (st.1, st.2) := rfl
    rw [h3, ← h]
    simp [segs, cleanRun, cleanStep]
  · exact h

theorem cleanSpec_eq (p : GoString) : cleanSpec p = render (IsAbs p) (cleanState p) := rfl

theorem IsAbs_cleanSpec (p : GoString) : IsAbs (cleanSpec p) = IsAbs p :=
  IsAbs_render _ _ (cleanState_valid p)

theorem cleanState_cleanSpec (p : GoString) : cleanState (cleanSpec p) = cleanState p := by
  rw [cleanState, IsAbs_cleanSpec, cleanSpec_eq]
  exact cleanRun_segs_render _ _ (cleanState_valid p)

/-- The function `path.Clean` is idempotent. -/
theorem Clean_idem (p : GoString) : Clean (Clean p) = Clean p := by
  rw [Clean_eq_cleanSpec, Clean_eq_cleanSpec]
  rw [cleanSpec_eq (cleanSpec p), IsAbs_cleanSpec, cleanState_cleanSpec]
  rfl

theorem Clean_ne_nil (p : GoString) : Clean p ≠ [] := by
  rw [Clean_eq_cleanSpec]
  exact render_ne_nil _ _

theorem IsAbs_Clean (p : GoString) : IsAbs (Clean p) = IsAbs p := by
  rw [Clean_eq_cleanSpec]
  exact IsAbs_cleanSpec p

end path

namespace path

theorem Join_pair (x y : GoString) (hx : x ≠ []) :
    Join [x, y] = Clean (x ++ '/' :: y) := by
  have h1 : x.length ≠ 0 := fun h => hx (List.length_eq_zero.mp h)
  have h2 : 0 < x.length := Nat.pos_of_ne_zero h1
  simp [Join, joinBuf, hx, h1, h2]

theorem Join_nil_left (y : GoString) : Join [[], y] = if y = [] then [] else Clean y := by
  by_cases hy : y = []
  · simp [Join, hy]
  · have h1 : y.length ≠ 0 := fun h => hy (List.length_eq_zero.mp h)
    simp [Join, joinBuf, hy, h1]

/-- Cleaning `x/y`: run the elements of `y` from the state `x` ends in. -/
theorem cleanSpec_append (x y : GoString) (hx : x ≠ []) :
    cleanSpec (x ++ '/' :: y)
      = render (IsAbs x) (cleanRun (IsAbs x) (cleanState x) (segs y)) := by
  rw [cleanSpec, IsAbs_append x _ hx, segs_append_slash, cleanRun_append]
  rfl

/-- Cleaning the first part of a path first changes nothing. -/
theorem Clean_Clean_append (x y : GoString) (hx : x ≠ []) :
    Clean (Clean x ++ '/' :: y) = Clean (x ++ '/' :: y) := by
  rw [Clean_eq_cleanSpec (Clean x ++ '/' :: y), Clean_eq_cleanSpec (x ++ '/' :: y),
    cleanSpec_append _ _ (Clean_ne_nil x), cleanSpec_append _ _ hx, IsAbs_Clean,
    Clean_eq_cleanSpec x, cleanState_cleanSpec]

theorem Clean_slash_slash (d f : GoString) :
    Clean ((d ++ ['/']) ++ '/' :: f) = Clean (d ++ '/' :: f) := by
  rw [Clean_eq_cleanSpec, Clean_eq_cleanSpec]
  have hI : IsAbs ((d ++ ['/']) ++ '/' :: f) = IsAbs (d ++ '/' :: f) := by
    cases d <;> rfl
  have hs : segs ((d ++ ['/']) ++ '/' :: f) = segs d ++ [] :: segs f := by
    rw [segs_append_slash, segs_append_slash]
    simp [segs]
  rw [cleanSpec, cleanSpec, hI, hs, segs_append_slash, cleanRun_append, cleanRun_append]
  simp [cleanRun, cleanStep_nil]

theorem Clean_dot_slash (f : GoString) (hf : IsAbs f = false) :
    Clean ('.' :: '/' :: f) = Clean f := by
  rw [Clean_eq_cleanSpec, Clean_eq_cleanSpec]
  have h := cleanSpec_append ['.'] f (by simp)
  simp only [List.singleton_append] at h
  rw [h, cleanSpec, hf]
  have : cleanState ['.'] = ([], 0) := by decide
  rw [this]
  rfl

end path

namespace strings

theorem cutLast_none (s : GoString) (sep : Char) (h : cutLast s sep = none) : sep ∉ s := by
  unfold cutLast at h
  split at h
  · rename_i h1
    rw [List.dropWhile_eq_nil_iff] at h1
    intro hm
    have := h1 sep (List.mem_reverse.mpr hm)
    simp at this
  · simp at h

theorem cutLast_some (s : GoString) (sep : Char) (before after : GoString)
    (h : cutLast s sep = some (before, after)) :
    s = before ++ sep :: after ∧ sep ∉ after := by
  unfold cutLast at h
  split at h
  · simp at h
  · rename_i c rbefore h1
    simp only [Option.some.injEq, Prod.mk.injEq] at h
    obtain ⟨hb, ha⟩ := h
    have h2 := List.takeWhile_append_dropWhile (fun c => !decide (c = sep)) s.reverse
    rw [h1] at h2
    have hc : c = sep := by
      have := List.head_dropWhile_not (fun c => !decide (c = sep)) s.reverse
        (by rw [h1]; simp)
      simp only [h1, List.head_cons] at this
      simpa using this
    subst hc
    constructor
    · have h3 := congrArg List.reverse h2
      rw [List.reverse_reverse] at h3
      rw [← h3, ← hb, ← ha]
      simp
    · rw [← ha]
      intro hm
      have := List.mem_takeWhile_imp (List.mem_reverse.mp hm)
      simp at this

end strings

namespace path

/-- What `path.Split` returns: the two parts make up the path, the file part
has no slash, and the directory part is empty or ends in a slash. -/
theorem Split_spec (p : GoString) :
    (Split p).1 ++ (Split p).2 = p ∧ '/' ∉ (Split p).2 ∧
      ((Split p).1 = [] ∨ ∃ d, (Split p).1 = d ++ ['/']) := by
  unfold Split
  cases h : strings.cutLast p '/' with
  | none => exact ⟨rfl, strings.cutLast_none p '/' h, Or.inl rfl⟩
  | some ba =>
    obtain ⟨before, after⟩ := ba
    obtain ⟨h1, h2⟩ := strings.cutLast_some p '/' before after h
    refine ⟨?_, h2, Or.inr ⟨before, rfl⟩⟩
    simp [h1]

theorem IsAbs_of_not_mem (f : GoString) (h : '/' ∉ f) : IsAbs f = false := by
  cases f with
  | nil => rfl
  | cons c cs =>
    have : c ≠ '/' := fun h1 => h (by simp [h1])
    simp [IsAbs, this]

/-- Joining the cleaned directory part and the file part of a path gives
the cleaned path. -/
theorem Join_Clean_Split (p : GoString) :
    Join [Clean (Split p).1, (Split p).2] = Clean p := by
  obtain ⟨h1, h2, h3⟩ := Split_spec p
  rw [Join_pair _ _ (Clean_ne_nil _)]
  rcases h3 with h3 | ⟨d, h3⟩
  · rw [h3] at h1 ⊢
    simp only [List.nil_append] at h1
    rw [h1] at h2 ⊢
    have : Clean [] = ['.'] := rfl
    rw [this]
    exact Clean_dot_slash p (IsAbs_of_not_mem p h2)
  · have hne : (Split p).1 ≠ [] := by rw [h3]; simp
    rw [Clean_Clean_append _ _ hne]
    conv_rhs => rw [← h1]
    rw [h3, Clean_slash_slash]
    simp

end path

namespace path

theorem mem_of_mem_segs (p : GoString) : ∀ e ∈ segs p, ∀ c ∈ e, c ∈ p := by
  induction p with
  | nil => simp [segs]
  | cons x xs ih =>
    by_cases hx : x = '/'
    · subst hx
      simp only [segs, if_true]
      intro e he c hc
      rcases List.mem_cons.mp he with h | h
      · subst h; simp at hc
      · exact List.mem_cons_of_mem _ (ih e h c hc)
    · simp only [segs, if_neg hx]
      cases h : segs xs with
      | nil => exact absurd h (segs_ne_nil xs)
      | cons s ss =>
        rw [h] at ih
        intro e he c hc
        rcases List.mem_cons.mp he with h1 | h1
        · subst h1
          rcases List.mem_cons.mp hc with h2 | h2
          · simp [h2]
          · exact List.mem_cons_of_mem _ (ih s (List.mem_cons_self _ _) c h2)
        · exact List.mem_cons_of_mem _ (ih e (List.mem_cons_of_mem _ h1) c hc)

theorem cleanStep_mem (rooted : Bool) (st : CleanState) (e : GoString) :
    ∀ x ∈ (cleanStep rooted st e).1, x ∈ st.1 ∨ x = e := by
  obtain ⟨real, base⟩ := st
  unfold cleanStep
  split
  · intro x hx; exact Or.inl hx
  · split
    · cases real with
      | nil =>
        cases rooted <;> simp
      | cons r rs =>
        intro x hx
        exact Or.inl (List.mem_cons_of_mem _ hx)
    · intro x hx
      rcases List.mem_cons.mp hx with h | h
      · exact Or.inr h
      · exact Or.inl h

theorem cleanRun_mem (rooted : Bool) (es : List GoString) :
    ∀ st, ∀ x ∈ (cleanRun rooted st es).1, x ∈ st.1 ∨ x ∈ es := by
  induction es with
  | nil => intro st x hx; exact Or.inl hx
  | cons e es ih =>
    intro st x hx
    simp only [cleanRun, List.foldl_cons] at hx
    rcases ih _ x hx with h | h
    · rcases cleanStep_mem rooted st e x h with h1 | h1
      · exact Or.inl h1
      · exact Or.inr (by simp [h1])
    · exact Or.inr (List.mem_cons_of_mem _ h)

theorem mem_encBase (rooted : Bool) (n : Nat) : ∀ c ∈ encBase rooted n, c = '.' ∨ c = '/' := by
  induction n with
  | zero =>
    cases rooted <;> simp [encBase]
  | succ n ih =>
    intro c hc
    simp only [encBase] at hc
    split at hc
    · simp only [List.mem_cons] at hc
      rcases hc with h | h | h | h
      · exact Or.inl h
      · exact Or.inl h
      · exact Or.inr h
      · exact ih c h
    · simp only [List.mem_cons] at hc
      rcases hc with h | h | h
      · exact Or.inl h
      · exact Or.inl h
      · exact ih c h

theorem mem_encReal (rooted : Bool) (b : List Char) (real : List GoString) :
    ∀ c ∈ encReal rooted b real, c ∈ b ∨ c = '/' ∨ ∃ e ∈ real, c ∈ e := by
  induction real with
  | nil => intro c hc; exact Or.inl hc
  | cons e es ih =>
    intro c hc
    simp only [encReal] at hc
    rcases List.mem_append.mp hc with h | h
    · exact Or.inr (Or.inr ⟨e, List.mem_cons_self _ _, List.mem_reverse.mp h⟩)
    · have h2 : c = '/' ∨ c ∈ encReal rooted b es := by
        split at h
        · exact List.mem_cons.mp h
        · exact Or.inr h
      rcases h2 with h2 | h2
      · exact Or.inr (Or.inl h2)
      · rcases ih c h2 with h3 | h3 | ⟨x, hx, hcx⟩
        · exact Or.inl h3
        · exact Or.inr (Or.inl h3)
        · exact Or.inr (Or.inr ⟨x, List.mem_cons_of_mem _ hx, hcx⟩)

/-- Every byte of a cleaned path is a byte of the path, a dot or a slash. -/
theorem mem_Clean (p : GoString) : ∀ c ∈ Clean p, c ∈ p ∨ c = '.' ∨ c = '/' := by
  intro c hc
  rw [Clean_eq_cleanSpec, cleanSpec, render] at hc
  split at hc
  · simp only [List.mem_singleton] at hc
    exact Or.inr (Or.inl hc)
  · rw [List.mem_reverse] at hc
    rcases mem_encReal _ _ _ c hc with h | h | ⟨e, he, hce⟩
    · rcases mem_encBase _ _ c h with h1 | h1
      · exact Or.inr (Or.inl h1)
      · exact Or.inr (Or.inr h1)
    · exact Or.inr (Or.inr h)
    · rcases cleanRun_mem _ _ _ e he with h1 | h1
      · simp at h1
      · exact Or.inl (mem_of_mem_segs p e h1 c hce)

/-- A rooted cleaned path is `/` or begins with `/` and a byte that is not a
slash. -/
theorem enc_true_shape : ∀ (real : List GoString), (∀ e ∈ real, IsElem e) →
    (enc true (real, 0)).reverse = ['/']
      ∨ ∃ c t, c ≠ '/' ∧ (enc true (real, 0)).reverse = '/' :: c :: t := by
  intro real
  induction real with
  | nil => intro _; exact Or.inl rfl
  | cons e es ih =>
    intro hreal
    have he := hreal e (List.mem_cons_self _ _)
    right
    obtain ⟨c, t, hct⟩ : ∃ c t, e = c :: t := by
      cases e with
      | nil => exact absurd rfl he.1
      | cons c t => exact ⟨c, t, rfl⟩
    have hc : c ≠ '/' := fun h => he.2 (by rw [hct, h]; simp)
    rcases ih (fun x hx => hreal x (List.mem_cons_of_mem _ hx)) with h | ⟨c1, t1, hc1, h⟩
    · have hlen : (encReal true (encBase true 0) es).length = 1 := by
        have := congrArg List.length h
        simpa [enc] using this
      refine ⟨c, t, hc, ?_⟩
      simp only [enc, encReal, hlen] at h ⊢
      simp [h, hct]
    · have hlen : (encReal true (encBase true 0) es).length ≠ 1 := by
        have := congrArg List.length h
        simp only [enc, List.length_reverse, List.length_cons] at this
        omega
      refine ⟨c1, t1 ++ '/' :: e, hc1, ?_⟩
      simp only [enc, encReal] at h ⊢
      simp [hlen, h]

/-- A cleaned path does not begin with two slashes. -/
theorem Clean_not_slash_slash (p : GoString) : strings.HasPrefix (Clean p) ['/', '/'] = false := by
  rw [Clean_eq_cleanSpec]
  cases hR : IsAbs p with
  | false =>
    have h := IsAbs_cleanSpec p
    rw [hR] at h
    cases h2 : cleanSpec p with
    | nil => rfl
    | cons c t =>
      rw [h2] at h
      have hc : c ≠ '/' := by simpa [IsAbs] using h
      simp [strings.HasPrefix, List.isPrefixOf, Ne.symm hc]
  | true =>
    have hv := cleanState_valid p
    rw [hR] at hv
    have hb : (cleanState p).2 = 0 := hv.2 rfl
    have hst : cleanState p = ((cleanState p).1, 0) := by
      rw [← hb]
    have hrender : cleanSpec p = (enc true ((cleanState p).1, 0)).reverse := by
      rw [cleanSpec_eq, hR, render, hst]
      have hne : (enc true ((cleanState p).1, 0)).length ≠ 0 := by
        obtain ⟨t, ht⟩ := enc_true_reverse (cleanState p).1
        intro h0
        rw [List.length_eq_zero.mp h0] at ht
        simp at ht
      simp [hne]
    rw [hrender]
    rcases enc_true_shape (cleanState p).1 (fun e he => (hv.1 e he).1) with h | ⟨c, t, hc, h⟩
    · rw [h]; rfl
    · rw [h]
      simp [strings.HasPrefix, List.isPrefixOf, Ne.symm hc]

/-- Running the elements as a rooted path keeps the same elements as running
them as a relative path; only the leading `..` are dropped. -/
theorem cleanRun_true_false (es : List GoString) : ∀ (real : List GoString) (b : Nat),
    cleanRun true (real, 0) es = ((cleanRun false (real, b) es).1, 0) := by
  induction es with
  | nil => intro real b; rfl
  | cons e es ih =>
    intro real b
    simp only [cleanRun, List.foldl_cons]
    have hstep : ∃ b1, cleanStep false (real, b) e = ((cleanStep true (real, 0) e).1, b1)
        ∧ cleanStep true (real, 0) e = ((cleanStep true (real, 0) e).1, 0) := by
      unfold cleanStep
      split
      · exact ⟨b, rfl, rfl⟩
      · split
        · cases real with
          | nil => exact ⟨b + 1, rfl, rfl⟩
          | cons r rs => exact ⟨b, rfl, rfl⟩
        · exact ⟨b, rfl, rfl⟩
    obtain ⟨b1, h1, h2⟩ := hstep
    rw [h1, h2]
    exact ih _ b1

/-- Rooting a path absorbs a cleaning before it. -/
theorem Join_root_Clean (q : GoString) : Join [['/'], Clean q] = Join [['/'], q] := by
  rw [Join_pair _ _ (by simp), Join_pair _ _ (by simp), Clean_eq_cleanSpec (['/'] ++ _),
    Clean_eq_cleanSpec (['/'] ++ _)]
  have hs : ∀ x : GoString, cleanSpec (['/'] ++ '/' :: x)
      = render true (cleanRun true ([], 0) (segs x)) := by
    intro x
    simp [cleanSpec, IsAbs, segs, cleanRun, cleanStep_nil]
  rw [hs, hs, Clean_eq_cleanSpec]
  congr 1
  cases hR : IsAbs q with
  | true =>
    have h := cleanRun_segs_render true (cleanState q) (by rw [← hR]; exact cleanState_valid q)
    rw [cleanSpec_eq, hR, h, cleanState, hR]
  | false =>
    have h := cleanRun_segs_render false (cleanState q) (by rw [← hR]; exact cleanState_valid q)
    rw [cleanSpec_eq, hR, cleanRun_true_false _ [] 0, h, cleanRun_true_false _ [] 0,
      cleanState, hR]

theorem Join_root_slash (r : GoString) : Join [['/'], '/' :: r] = Join [['/'], r] := by
  rw [Join_pair _ _ (by simp), Join_pair _ _ (by simp), Clean_eq_cleanSpec (['/'] ++ _),
    Clean_eq_cleanSpec (['/'] ++ _)]
  simp [cleanSpec, IsAbs, segs, cleanRun, cleanStep_nil]

theorem Join_root_IsAbs (q : GoString) : ∃ P, Join [['/'], q] = '/' :: P := by
  have h : IsAbs (Join [['/'], q]) = true := by
    rw [Join_pair _ _ (by simp), IsAbs_Clean]
    rfl
  cases hj : Join [['/'], q] with
  | nil => rw [hj] at h; simp [IsAbs] at h
  | cons c P =>
    rw [hj] at h
    have : c = '/' := by simpa [IsAbs] using h
    exact ⟨P, by rw [this]⟩

theorem mem_Join_root (q : GoString) : ∀ c ∈ Join [['/'], q], c ∈ q ∨ c = '.' ∨ c = '/' := by
  intro c hc
  rw [Join_pair _ _ (by simp)] at hc
  rcases mem_Clean _ c hc with h | h | h
  · simp only [List.singleton_append, List.mem_cons] at h
    rcases h with h | h | h
    · exact Or.inr (Or.inr h)
    · exact Or.inr (Or.inr h)
    · exact Or.inl h
  · exact Or.inr (Or.inl h)
  · exact Or.inr (Or.inr h)

end path

/-! ## What `url.Parse` reads back -/

namespace strings

theorem Cut_not_mem (s : GoString) (sep : Char) (h : sep ∉ s) : Cut s sep = (s, [], false) := by
  have hd : s.dropWhile (fun c => !decide (c = sep)) = [] := by
    rw [List.dropWhile_eq_nil_iff]
    intro x hx
    have : x ≠ sep := fun h1 => h (h1 ▸ hx)
    simp [this]
  simp [Cut, hd]

theorem cutLast_not_mem (s : GoString) (sep : Char) (h : sep ∉ s) : cutLast s sep = none := by
  have hd : s.reverse.dropWhile (fun c => !decide (c = sep)) = [] := by
    rw [List.dropWhile_eq_nil_iff]
    intro x hx
    have : x ≠ sep := fun h1 => h (h1 ▸ List.mem_reverse.mp hx)
    simp [this]
  simp [cutLast, hd]

theorem takeWhile_append_sep (a b : GoString) (sep : Char) (h : sep ∉ a) :
    (a ++ sep :: b).takeWhile (fun c => !decide (c = sep)) = a := by
  induction a with
  | nil => simp [List.takeWhile]
  | cons c cs ih =>
    have hc : c ≠ sep := fun h1 => h (by simp [h1])
    have hcs : sep ∉ cs := fun h1 => h (List.mem_cons_of_mem _ h1)
    simp [List.takeWhile, hc, ih hcs]

theorem dropWhile_append_sep (a b : GoString) (sep : Char) (h : sep ∉ a) :
    (a ++ sep :: b).dropWhile (fun c => !decide (c = sep)) = sep :: b := by
  induction a with
  | nil => simp [List.dropWhile]
  | cons c cs ih =>
    have hc : c ≠ sep := fun h1 => h (by simp [h1])
    have hcs : sep ∉ cs := fun h1 => h (List.mem_cons_of_mem _ h1)
    simp [List.dropWhile, hc, ih hcs]

theorem cutLast_append_sep (a b : GoString) (sep : Char) (h : sep ∉ b) :
    cutLast (a ++ sep :: b) sep = some (a, b) := by
  have hr : (a ++ sep :: b).reverse = b.reverse ++ sep :: a.reverse := by simp
  have hb : sep ∉ b.reverse := fun h1 => h (List.mem_reverse.mp h1)
  simp only [cutLast, hr, dropWhile_append_sep _ _ _ hb, takeWhile_append_sep _ _ _ hb]
  simp

end strings

namespace url

theorem unescape_cons_ok (c : Char) (rest t : GoString) (mode : encoding) (hc : c ≠ '%')
    (hm : ¬ ((mode = .encodeHost ∨ mode = .encodeZone) ∧ c.toNat < 128 ∧ shouldEscapeHost c))
    (h : unescape rest mode = .ok t) : unescape (c :: rest) mode = .ok (c :: t) := by
  conv_lhs => unfold unescape
  simp only [if_neg hc, if_neg hm, h]

theorem unescape_path_id (s : GoString) (h : '%' ∉ s) : unescape s .encodePath = .ok s := by
  induction s with
  | nil => rfl
  | cons c cs ih =>
    have hc : c ≠ '%' := fun h1 => h (by simp [h1])
    have hcs : '%' ∉ cs := fun h1 => h (List.mem_cons_of_mem _ h1)
    exact unescape_cons_ok c cs cs _ hc (by simp) (ih hcs)

theorem unescape_host_id (s : GoString)
    (h : ∀ c ∈ s, c ≠ '%' ∧ shouldEscapeHost c = false) : unescape s .encodeHost = .ok s := by
  induction s with
  | nil => rfl
  | cons c cs ih =>
    have hc := h c (List.mem_cons_self _ _)
    have hcs := ih (fun x hx => h x (List.mem_cons_of_mem _ hx))
    exact unescape_cons_ok c cs cs _ hc.1 (by simp [hc.2]) hcs

theorem getSchemeLoop_no_colon (raw : GoString) : ∀ (l : GoString) (i : Nat),
    ':' ∉ l → getSchemeLoop raw i l = .ok ([], raw) := by
  intro l
  induction l with
  | nil => intro i _; rfl
  | cons c cs ih =>
    intro i h
    have hc : c ≠ ':' := fun h1 => h (by simp [h1])
    have hcs : ':' ∉ cs := fun h1 => h (List.mem_cons_of_mem _ h1)
    simp only [getSchemeLoop]
    split
    · exact ih _ hcs
    · split
      · split
        · rfl
        · exact ih _ hcs
      · simp only [if_neg hc]

theorem schemeByte_ne_colon (c : Char) (h : schemeByte c = true) : c ≠ ':' := by
  intro h1
  subst h1
  exact absurd h (by decide)

theorem getSchemeLoop_scheme (raw rest : GoString) : ∀ (s : GoString) (i : Nat),
    (∀ c ∈ s, schemeByte c = true) → (i = 0 → ∃ c cs, s = c :: cs ∧ isAlpha c = true) →
    getSchemeLoop raw i (s ++ ':' :: rest) = .ok (raw.take (i + s.length), rest) := by
  intro s
  induction s with
  | nil =>
    intro i _ h0
    have hi : i ≠ 0 := by
      intro hi
      obtain ⟨c, cs, h1, _⟩ := h0 hi
      simp at h1
    have h1 : ¬ (isAlpha ':' = true) := by decide
    have h2 : ¬ (isDigit ':' = true ∨ ':' = '+' ∨ ':' = '-' ∨ ':' = '.') := by decide
    simp only [List.nil_append, getSchemeLoop, if_neg h1, if_neg h2, if_neg hi, if_true,
      List.length_nil, Nat.add_zero]
  | cons c cs ih =>
    intro i hs h0
    have hcs : ∀ x ∈ cs, schemeByte x = true := fun x hx => hs x (List.mem_cons_of_mem _ hx)
    have hstep := ih (i + 1) hcs (by simp)
    have hlen : i + 1 + cs.length = i + (c :: cs).length := by simp; omega
    rw [hlen] at hstep
    simp only [List.cons_append, getSchemeLoop]
    split
    · exact hstep
    · rename_i ha
      have hi : i ≠ 0 := by
        intro hi
        obtain ⟨c1, cs1, h1, h2⟩ := h0 hi
        injection h1 with h3 _
        subst h3
        exact ha h2
      have hc := hs c (List.mem_cons_self _ _)
      have hcolon := schemeByte_ne_colon c hc
      split
      · exact hstep
      · rename_i hd
        exfalso
        simp only [schemeByte, Bool.or_eq_true, decide_eq_true_eq] at hc
        rcases hc with (((h | h) | h) | h) | h
        · exact ha h
        · exact hd (Or.inl h)
        · exact hd (Or.inr (Or.inl h))
        · exact hd (Or.inr (Or.inr (Or.inl h)))
        · exact hd (Or.inr (Or.inr (Or.inr h)))

end url

namespace url

theorem char_le_iff (a b : Char) : a ≤ b ↔ a.toNat ≤ b.toNat := Iff.rfl

theorem isAlpha_range (c : Char) (h : isAlpha c = true) : 65 ≤ c.toNat ∧ c.toNat ≤ 122 := by
  simp only [isAlpha, Bool.or_eq_true, Bool.and_eq_true, decide_eq_true_eq] at h
  have ha : 'a'.toNat = 97 := rfl
  have hz : 'z'.toNat = 122 := rfl
  have hA : 'A'.toNat = 65 := rfl
  have hZ : 'Z'.toNat = 90 := rfl
  rcases h with ⟨h1, h2⟩ | ⟨h1, h2⟩
  · have := (char_le_iff _ _).mp h1
    have := (char_le_iff _ _).mp h2
    omega
  · have := (char_le_iff _ _).mp h1
    have := (char_le_iff _ _).mp h2
    omega

theorem isDigit_range (c : Char) (h : isDigit c = true) : 48 ≤ c.toNat ∧ c.toNat ≤ 57 := by
  simp only [isDigit, Bool.and_eq_true, decide_eq_true_eq] at h
  have h0 : '0'.toNat = 48 := rfl
  have h9 : '9'.toNat = 57 := rfl
  have := (char_le_iff _ _).mp h.1
  have := (char_le_iff _ _).mp h.2
  omega

theorem ne_of_range (c d : Char) (lo hi : Nat) (h : lo ≤ c.toNat ∧ c.toNat ≤ hi)
    (hd : d.toNat < lo ∨ hi < d.toNat) : c ≠ d := by
  intro h1
  subst h1
  omega

theorem hostByte_cases (c : Char) (h : hostByte c = true) :
    (46 ≤ c.toNat ∧ c.toNat ≤ 122 ∧ c.toNat ≠ 47 ∧ c.toNat ≠ 63 ∧ c.toNat ≠ 64 ∧ c.toNat ≠ 91
        ∧ c.toNat ≠ 92)
      ∨ c = '-' := by
  simp only [hostByte, Bool.or_eq_true, decide_eq_true_eq] at h
  rcases h with (((h | h) | h) | h) | h
  · left
    simp only [isAlpha, Bool.or_eq_true, Bool.and_eq_true, decide_eq_true_eq] at h
    have ha : 'a'.toNat = 97 := rfl
    have hz : 'z'.toNat = 122 := rfl
    have hA : 'A'.toNat = 65 := rfl
    have hZ : 'Z'.toNat = 90 := rfl
    rcases h with ⟨h1, h2⟩ | ⟨h1, h2⟩
    · have := (char_le_iff _ _).mp h1
      have := (char_le_iff _ _).mp h2
      omega
    · have := (char_le_iff _ _).mp h1
      have := (char_le_iff _ _).mp h2
      omega
  · left
    have := isDigit_range c h
    omega
  · left; subst h; decide
  · right; exact h
  · left; subst h; decide

theorem hostByte_shouldEscape (c : Char) (h : hostByte c = true) :
    shouldEscapeHost c = false := by
  simp only [hostByte, Bool.or_eq_true, decide_eq_true_eq] at h
  rcases h with (((h | h) | h) | h) | h
  · simp [shouldEscapeHost, h]
  · simp [shouldEscapeHost, h]
  · subst h; decide
  · subst h; decide
  · subst h; decide

theorem hostByte_ne (c d : Char) (h : hostByte c = true)
    (hd : d.toNat < 45 ∨ d.toNat = 47 ∨ d.toNat = 63 ∨ d.toNat = 64 ∨ d.toNat = 91
      ∨ d.toNat = 92 ∨ 122 < d.toNat) : c ≠ d := by
  intro h1
  subst h1
  rcases hostByte_cases c h with h2 | h2
  · omega
  · subst h2
    have : '-'.toNat = 45 := rfl
    omega

theorem hostByte_plain (c : Char) (h : hostByte c = true) : plainByte c := by
  refine ⟨hostByte_ne c '#' h (by decide), hostByte_ne c '?' h (by decide), ?_, ?_⟩
  · rcases hostByte_cases c h with h2 | h2
    · omega
    · subst h2; decide
  · rcases hostByte_cases c h with h2 | h2
    · omega
    · subst h2; decide

theorem pathByteOK_plain (c : Char) (h : pathByteOK c = true) : plainByte c := by
  simp only [pathByteOK, Bool.and_eq_true, decide_eq_true_eq] at h
  obtain ⟨⟨⟨⟨_, h2⟩, h3⟩, h5⟩, h6⟩ := h
  exact ⟨by simpa using h3, by simpa using h2, h5, by simpa using h6⟩

theorem schemeByte_plain (c : Char) (h : schemeByte c = true) : plainByte c := by
  simp only [schemeByte, Bool.or_eq_true, decide_eq_true_eq] at h
  rcases h with (((h | h) | h) | h) | h
  · have := isAlpha_range c h
    exact ⟨ne_of_range c '#' _ _ this (by decide), ne_of_range c '?' _ _ this (by decide),
      by omega, by omega⟩
  · have := isDigit_range c h
    exact ⟨ne_of_range c '#' _ _ this (by decide), ne_of_range c '?' _ _ this (by decide),
      by omega, by omega⟩
  · subst h; exact ⟨by decide, by decide, by decide, by decide⟩
  · subst h; exact ⟨by decide, by decide, by decide, by decide⟩
  · subst h; exact ⟨by decide, by decide, by decide, by decide⟩

end url

namespace url

theorem noCTL_of_plain (l : GoString) (h : ∀ c ∈ l, plainByte c) :
    stringContainsCTLByte l = false := by
  simp only [stringContainsCTLByte, List.any_eq_false, Bool.or_eq_true, decide_eq_true_eq,
    not_or]
  intro x hx
  have := h x hx
  exact ⟨by have := this.2.2.1; omega, this.2.2.2⟩

theorem schemeOK_spec (s : GoString) (h : schemeOK s = true) :
    (∃ c cs, s = c :: cs ∧ isAlpha c = true) ∧ (∀ c ∈ s, schemeByte c = true)
      ∧ strings.ToLower s = s := by
  cases s with
  | nil => simp [schemeOK] at h
  | cons c cs =>
    simp only [schemeOK, Bool.and_eq_true, decide_eq_true_eq, List.all_eq_true, Bool.or_eq_true]
      at h
    obtain ⟨⟨h1, h2⟩, h3⟩ := h
    have hlow : ∀ x : Char, 'a' ≤ x → ¬ ('A' ≤ x ∧ x ≤ 'Z') := by
      intro x hx ⟨_, h5⟩
      have := (char_le_iff _ _).mp hx
      have := (char_le_iff _ _).mp h5
      have ha : 'a'.toNat = 97 := rfl
      have hZ : 'Z'.toNat = 90 := rfl
      omega
    refine ⟨⟨c, cs, rfl, by simp [isAlpha, h1, h2]⟩, ?_, ?_⟩
    · intro x hx
      rcases List.mem_cons.mp hx with hx | hx
      · subst hx
        simp [schemeByte, isAlpha, h1, h2]
      · have := h3 x hx
        simp only [schemeByte, isAlpha, Bool.or_eq_true, Bool.and_eq_true, decide_eq_true_eq]
        rcases this with (((h | h) | h) | h) | h
        · exact Or.inl (Or.inl (Or.inl (Or.inl (Or.inl h))))
        · exact Or.inl (Or.inl (Or.inl (Or.inr h)))
        · exact Or.inl (Or.inl (Or.inr h))
        · exact Or.inl (Or.inr h)
        · exact Or.inr h
    · simp only [strings.ToLower, List.map_cons]
      rw [if_neg (hlow c h1)]
      congr 1
      conv_rhs => rw [← List.map_id cs]
      apply List.map_congr_left
      intro x hx
      have := h3 x hx
      rw [if_neg]
      · rfl
      · intro h4
        have hA : 'A'.toNat = 65 := rfl
        have hZ : 'Z'.toNat = 90 := rfl
        have h5 := (char_le_iff _ _).mp h4.1
        have h6 := (char_le_iff _ _).mp h4.2
        rcases this with (((h | h) | h) | h) | h
        · exact hlow x h.1 h4
        · have := isDigit_range x h
          omega
        · subst h; revert h5; decide
        · subst h; revert h5; decide
        · subst h; revert h5; decide

end url

namespace url

theorem hostNameOK_hostByte (name : GoString) (h : hostNameOK name = true) :
    ∀ c ∈ name, hostByte c = true ∧ c ≠ ':' := by
  intro c hc
  simp only [hostNameOK, List.all_eq_true, Bool.or_eq_true, decide_eq_true_eq] at h
  have h1 := h c hc
  constructor
  · simp only [hostByte, Bool.or_eq_true, decide_eq_true_eq]
    exact Or.inl h1
  · intro h2
    subst h2
    revert h1
    decide

theorem port_hostByte (port : GoString) (h : validOptionalPort port = true) :
    ∀ c ∈ port, hostByte c = true := by
  cases port with
  | nil => simp
  | cons c ds =>
    simp only [validOptionalPort, Bool.and_eq_true, decide_eq_true_eq, List.all_eq_true] at h
    intro x hx
    rcases List.mem_cons.mp hx with hx | hx
    · subst hx
      rw [h.1]
      decide
    · simp [hostByte, h.2 x hx]

/-- A host name with an optional port is read back as it is. -/
theorem parseAuthority_host (name port : GoString) (hn : hostNameOK name = true)
    (hp : validOptionalPort port = true) :
    parseAuthority (name ++ port) = .ok (name ++ port) := by
  have hb : ∀ c ∈ name ++ port, hostByte c = true := by
    intro c hc
    rcases List.mem_append.mp hc with h | h
    · exact (hostNameOK_hostByte name hn c h).1
    · exact port_hostByte port hp c h
  have hat : '@' ∉ name ++ port := fun h => hostByte_ne _ '@' (hb _ h) (by decide) rfl
  have hesc : unescape (name ++ port) .encodeHost = .ok (name ++ port) := by
    apply unescape_host_id
    intro c hc
    exact ⟨hostByte_ne c '%' (hb c hc) (by decide), hostByte_shouldEscape c (hb c hc)⟩
  have hbr : strings.HasPrefix (name ++ port) ['['] = false := by
    cases h : name ++ port with
    | nil => rfl
    | cons c cs =>
      have hc : c ≠ '[' := hostByte_ne c '[' (hb c (by rw [h]; simp)) (by decide)
      simp [strings.HasPrefix, List.isPrefixOf, Ne.symm hc]
  have hhost : parseHost (name ++ port) = .ok (name ++ port) := by
    simp only [parseHost, hbr, Bool.false_eq_true, if_false]
    cases port with
    | nil =>
      have hcol : ':' ∉ name ++ [] := by
        intro h
        rw [List.append_nil] at h
        exact (hostNameOK_hostByte name hn ':' h).2 rfl
      rw [strings.cutLast_not_mem _ _ hcol]
      exact hesc
    | cons c ds =>
      have hp' := hp
      simp only [validOptionalPort, Bool.and_eq_true, decide_eq_true_eq, List.all_eq_true]
        at hp'
      obtain ⟨hc, hds⟩ := hp'
      subst hc
      have hcol : ':' ∉ ds := by
        intro h
        have := hds ':' h
        revert this
        decide
      rw [strings.cutLast_append_sep _ _ _ hcol]
      simp only [hp, not_true_eq_false, if_false]
      exact hesc
  simp only [parseAuthority, strings.cutLast_not_mem _ _ hat, hhost]

end url

namespace url

theorem pathOK_spec (q : GoString) (h : pathOK q = true) :
    (∀ c ∈ q, plainByte c) ∧ '%' ∉ q := by
  simp only [pathOK, List.all_eq_true] at h
  refine ⟨fun c hc => pathByteOK_plain c (h c hc), ?_⟩
  intro hm
  have := h _ hm
  revert this
  decide

theorem rest1_eq (rest0 : GoString) (h : '?' ∉ rest0) :
    (if rest0.getLast? = some '?' ∧ rest0.count '?' = 1 then rest0.dropLast
      else (strings.Cut rest0 '?').1) = rest0 := by
  have h1 : ¬ (rest0.getLast? = some '?' ∧ rest0.count '?' = 1) := by
    intro ⟨h2, _⟩
    exact h (List.mem_of_getLast?_eq_some h2)
  rw [if_neg h1, strings.Cut_not_mem _ _ h]

/-- Parsing `scheme://host/path`, for a well-formed scheme, a host that is
read back as it is, and a path of plain bytes. -/
theorem parse_scheme_url (s host P : GoString) (hs : schemeOK s = true)
    (hh : ∀ c ∈ host, hostByte c = true) (hauth : parseAuthority host = .ok host)
    (hP : pathOK ('/' :: P) = true) :
    Parse (s ++ ':' :: '/' :: '/' :: (host ++ '/' :: P))
      = .ok { Scheme := s, Host := host, Path := '/' :: P } := by
  obtain ⟨⟨c0, cs0, hs0, hc0⟩, hsb, hlow⟩ := schemeOK_spec s hs
  obtain ⟨hPp, hPpc⟩ := pathOK_spec _ hP
  have hrest : ∀ c ∈ '/' :: '/' :: (host ++ '/' :: P), plainByte c := by
    intro c hc
    simp only [List.mem_cons, List.mem_append] at hc
    rcases hc with h | h | h | h | h
    · exact hPp c (by simp [h])
    · exact hPp c (by simp [h])
    · exact hostByte_plain c (hh c h)
    · exact hPp c (by simp [h])
    · exact hPp c (List.mem_cons_of_mem _ h)
  have hplain : ∀ c ∈ s ++ ':' :: '/' :: '/' :: (host ++ '/' :: P), plainByte c := by
    intro c hc
    rcases List.mem_append.mp hc with h | h
    · exact schemeByte_plain c (hsb c h)
    · rcases List.mem_cons.mp h with h | h
      · subst h
        exact ⟨by decide, by decide, by decide, by decide⟩
      · exact hrest c h
  have hhash : '#' ∉ s ++ ':' :: '/' :: '/' :: (host ++ '/' :: P) :=
    fun h => (hplain _ h).1 rfl
  have hq : '?' ∉ '/' :: '/' :: (host ++ '/' :: P) := fun h => (hrest _ h).2.1 rfl
  have hctl := noCTL_of_plain _ hplain
  have hstar : s ++ ':' :: '/' :: '/' :: (host ++ '/' :: P) ≠ ['*'] := by
    intro h
    have := congrArg List.length h
    simp at this
    omega
  have hgs : getScheme (s ++ ':' :: '/' :: '/' :: (host ++ '/' :: P))
      = .ok (s, '/' :: '/' :: (host ++ '/' :: P)) := by
    have := getSchemeLoop_scheme (s ++ ':' :: '/' :: '/' :: (host ++ '/' :: P))
      ('/' :: '/' :: (host ++ '/' :: P)) s 0 hsb (fun _ => ⟨c0, cs0, hs0, hc0⟩)
    simpa [getScheme] using this
  have hsne : s ≠ [] := by rw [hs0]; simp
  have hslash : '/' ∉ host := fun h => hostByte_ne _ '/' (hh _ h) (by decide) rfl
  have hparse : parse (s ++ ':' :: '/' :: '/' :: (host ++ '/' :: P))
      = .ok { Scheme := s, Host := host, Path := '/' :: P } := by
    simp only [parse, hctl, Bool.false_eq_true, if_false, if_neg hstar, hgs, hlow,
      rest1_eq _ hq]
    have hp1 : strings.HasPrefix ('/' :: '/' :: (host ++ '/' :: P)) ['/'] = true := by
      simp [strings.HasPrefix, List.isPrefixOf]
    have hp2 : strings.HasPrefix ('/' :: '/' :: (host ++ '/' :: P)) ['/', '/'] = true := by
      simp [strings.HasPrefix, List.isPrefixOf]
    simp only [hp1, hp2, not_true_eq_false, false_and, if_false, ne_eq, hsne, not_false_eq_true,
      true_or, and_self, if_true, List.drop_succ_cons, List.drop_zero,
      strings.takeWhile_append_sep _ _ _ hslash, strings.dropWhile_append_sep _ _ _ hslash,
      hauth, unescape_path_id _ hPpc]
  simp only [Parse, strings.Cut_not_mem _ _ hhash, hparse, if_true]

end url

namespace url

/-- Parsing a bare path of plain bytes, without a colon and not beginning
with two slashes: the path itself, with no scheme and no host. -/
theorem parse_plain_path (q : GoString) (hq : pathOK q = true) (hcolon : ':' ∉ q)
    (hss : strings.HasPrefix q ['/', '/'] = false) :
    Parse q = .ok { Scheme := [], Host := [], Path := q } := by
  obtain ⟨hplain, hpc⟩ := pathOK_spec q hq
  have hhash : '#' ∉ q := fun h => (hplain _ h).1 rfl
  have hqm : '?' ∉ q := fun h => (hplain _ h).2.1 rfl
  have hctl := noCTL_of_plain _ hplain
  have hgs : getScheme q = .ok ([], q) := getSchemeLoop_no_colon q q 0 hcolon
  have hlow : strings.ToLower [] = [] := rfl
  have hseg : strings.ContainsByte (strings.Cut q '/').1 ':' = false := by
    have hsub : ∀ c ∈ (strings.Cut q '/').1, c ∈ q := by
      intro c hc
      simp only [strings.Cut] at hc
      split at hc
      · exact hc
      · exact (List.takeWhile_sublist _).subset hc
    simp only [strings.ContainsByte, List.elem_eq_mem, decide_eq_false_iff_not]
    exact fun h => hcolon (hsub _ h)
  have hparse : parse q = .ok { Scheme := [], Host := [], Path := q } := by
    by_cases hstar : q = ['*']
    · subst hstar
      rfl
    · simp only [parse, hctl, Bool.false_eq_true, if_false, if_neg hstar, hgs, hlow,
        rest1_eq _ hqm, ne_eq, not_true_eq_false, and_false, hseg, hss, unescape_path_id _ hpc]
  simp only [Parse, strings.Cut_not_mem _ _ hhash, hparse, if_true]

/-- Parsing `//host/path` for a non-empty host name and a path of plain
bytes. -/
theorem parse_host_url (name P : GoString) (hn : hostNameOK name = true) (hne : name ≠ [])
    (hP : pathOK ('/' :: P) = true) :
    Parse ('/' :: '/' :: (name ++ '/' :: P))
      = .ok { Scheme := [], Host := name, Path := '/' :: P } := by
  obtain ⟨hPp, hPpc⟩ := pathOK_spec _ hP
  have hh : ∀ c ∈ name, hostByte c = true := fun c hc => (hostNameOK_hostByte name hn c hc).1
  have hauth : parseAuthority name = .ok name := by
    have := parseAuthority_host name [] hn rfl
    simpa using this
  have hplain : ∀ c ∈ '/' :: '/' :: (name ++ '/' :: P), plainByte c := by
    intro c hc
    simp only [List.mem_cons, List.mem_append] at hc
    rcases hc with h | h | h | h | h
    · exact hPp c (by simp [h])
    · exact hPp c (by simp [h])
    · exact hostByte_plain c (hh c h)
    · exact hPp c (by simp [h])
    · exact hPp c (List.mem_cons_of_mem _ h)
  have hhash : '#' ∉ '/' :: '/' :: (name ++ '/' :: P) := fun h => (hplain _ h).1 rfl
  have hqm : '?' ∉ '/' :: '/' :: (name ++ '/' :: P) := fun h => (hplain _ h).2.1 rfl
  have hctl := noCTL_of_plain _ hplain
  have hstar : '/' :: '/' :: (name ++ '/' :: P) ≠ ['*'] := by simp
  have hgs : getScheme ('/' :: '/' :: (name ++ '/' :: P))
      = .ok ([], '/' :: '/' :: (name ++ '/' :: P)) := by
    have h1 : ¬ (isAlpha '/' = true) := by decide
    have h2 : ¬ (isDigit '/' = true ∨ '/' = '+' ∨ '/' = '-' ∨ '/' = '.') := by decide
    have h3 : ¬ ('/' = ':') := by decide
    simp only [getScheme, getSchemeLoop, if_neg h1, if_neg h2, if_neg h3]
  have hlow : strings.ToLower [] = [] := rfl
  have hslash : '/' ∉ name := fun h => hostByte_ne _ '/' (hh _ h) (by decide) rfl
  have hp1 : strings.HasPrefix ('/' :: '/' :: (name ++ '/' :: P)) ['/'] = true := by
    simp [strings.HasPrefix, List.isPrefixOf]
  have hp2 : strings.HasPrefix ('/' :: '/' :: (name ++ '/' :: P)) ['/', '/'] = true := by
    simp [strings.HasPrefix, List.isPrefixOf]
  have hp3 : strings.HasPrefix ('/' :: '/' :: (name ++ '/' :: P)) ['/', '/', '/'] = false := by
    cases name with
    | nil => exact absurd rfl hne
    | cons c cs =>
      have hc : c ≠ '/' := fun h => hslash (by simp [h])
      simp [strings.HasPrefix, List.isPrefixOf, Ne.symm hc]
  have hparse : parse ('/' :: '/' :: (name ++ '/' :: P))
      = .ok { Scheme := [], Host := name, Path := '/' :: P } := by
    simp only [parse, hctl, Bool.false_eq_true, if_false, if_neg hstar, hgs, hlow,
      rest1_eq _ hqm, hp1, hp2, hp3, not_true_eq_false, false_and, ne_eq, not_false_eq_true,
      or_true, and_self, if_true, List.drop_succ_cons, List.drop_zero,
      strings.takeWhile_append_sep _ _ _ hslash, strings.dropWhile_append_sep _ _ _ hslash,
      hauth, unescape_path_id _ hPpc]
  simp only [Parse, strings.Cut_not_mem _ _ hhash, hparse, if_true]

end url

/-! ## The Windows variant: volumes -/

namespace strings

theorem ReplaceAll_not_mem (s : GoString) (old new : Char) (h : old ∉ s) :
    ReplaceAll s old new = s := by
  simp only [ReplaceAll]
  conv_rhs => rw [← List.map_id s]
  apply List.map_congr_left
  intro c hc
  have : c ≠ old := fun h1 => h (h1 ▸ hc)
  simp [this]

end strings

namespace filepath

theorem VolumeName_no_colon (p : GoString) (h : ':' ∉ p) :
    strings.ContainsByte (VolumeName p) ':' = false := by
  simp only [strings.ContainsByte, List.elem_eq_mem, decide_eq_false_iff_not, VolumeName,
    FromSlash, strings.ReplaceAll, List.mem_map, not_exists, not_and]
  intro c hc
  have hcp : c ∈ p := List.mem_of_mem_take hc
  by_cases h1 : c = '/'
  · simp [h1]
  · simp only [if_neg h1]
    intro h2
    exact h (h2 ▸ hcp)

theorem volumeNameLen_scheme (c0 c1 : Char) (rest : GoString) (h0 : url.isAlpha c0 = true)
    (h1 : c1 ≠ ':') : volumeNameLen (c0 :: c1 :: rest) = 0 := by
  have hsep : IsPathSeparator c0 = false := by
    have hb : c0 ≠ '\\' := by
      intro h
      subst h
      revert h0
      decide
    have hs : c0 ≠ '/' := by
      intro h
      subst h
      revert h0
      decide
    simp [IsPathSeparator, hb, hs]
  have hc : ¬ ((c0 :: c1 :: rest).length ≥ 2 ∧ (c0 :: c1 :: rest).get? 1 = some ':') := by
    simp [h1]
  have hs : (c0 :: c1 :: rest).length = 0 ∨ ¬ (sepAt (c0 :: c1 :: rest) 0 = true) := by
    right
    simp [sepAt, hsep]
  rw [volumeNameLen, if_neg hc, if_pos hs]

end filepath

namespace urlpath

open url (URL)

theorem windows_fromString_no_colon (w : GoString) (hb : '\\' ∉ w) (hc : ':' ∉ w) :
    windows.fromString w = url.Parse w := by
  simp only [windows.fromString, strings.ReplaceAll_not_mem _ _ _ hb,
    filepath.VolumeName_no_colon _ hc, Bool.false_eq_true, if_false]

theorem windows_fromString_scheme (s rest : GoString) (hs : url.schemeOK s = true)
    (hlen : s.length ≠ 1) (hb : '\\' ∉ s ++ ':' :: rest) :
    windows.fromString (s ++ ':' :: rest) = url.Parse (s ++ ':' :: rest) := by
  obtain ⟨⟨c0, cs0, hs0, hc0⟩, hsb, _⟩ := url.schemeOK_spec s hs
  subst hs0
  cases cs0 with
  | nil => simp at hlen
  | cons c1 cs1 =>
    have h1 : c1 ≠ ':' := url.schemeByte_ne_colon c1 (hsb c1 (by simp))
    have hv : filepath.VolumeName (c0 :: c1 :: cs1 ++ ':' :: rest) = [] := by
      have := filepath.volumeNameLen_scheme c0 c1 (cs1 ++ ':' :: rest) hc0 h1
      simp only [List.cons_append] at this ⊢
      simp [filepath.VolumeName, this, filepath.FromSlash, strings.ReplaceAll]
    simp only [windows.fromString, strings.ReplaceAll_not_mem _ _ _ hb, hv]
    rfl

/-- The path the Windows `toString` joins to the root is the rooted path of
the structure, when a structure that carries a volume has a rooted path. -/
theorem windows_written_path (u : URL)
    (h : windows.volumeName u ≠ [] → path.IsAbs u.Path = true) :
    path.Join [['/'], (if windows.volumeName u ≠ [] then
        ({ u with Path := path.Clean (u.Path.drop 1) } : URL) else u).Path]
      = path.Join [['/'], u.Path] := by
  by_cases hv : windows.volumeName u ≠ []
  · rw [if_pos hv]
    have hr := h hv
    cases hq : u.Path with
    | nil => rw [hq] at hr; simp [path.IsAbs] at hr
    | cons c r =>
      rw [hq] at hr
      have hc : c = '/' := by simpa [path.IsAbs] using hr
      subst hc
      simp only [List.drop_succ_cons, List.drop_zero]
      rw [path.Join_root_Clean, path.Join_root_slash]
  · rw [if_neg hv]

theorem pathOK_Join_root (q : GoString) (hq : url.pathOK q = true) :
    url.pathOK (path.Join [['/'], q]) = true := by
  simp only [url.pathOK, List.all_eq_true] at hq ⊢
  intro c hc
  rcases path.mem_Join_root q c hc with h | h | h
  · exact hq c h
  · subst h; decide
  · subst h; decide

theorem pathOK_Clean (q : GoString) (hq : url.pathOK q = true) :
    url.pathOK (path.Clean q) = true := by
  simp only [url.pathOK, List.all_eq_true] at hq ⊢
  intro c hc
  rcases path.mem_Clean q c hc with h | h | h
  · exact hq c h
  · subst h; decide
  · subst h; decide

end urlpath

/-! ## The operations of `urlpath` -/

namespace urlpath

open url (URL)

theorem Clean_ok (os : GOOS) (x : GoString) (u : URL) (h : fromString os x = .ok u) :
    Clean os x = (toString os { u with Path := path.Clean u.Path }, none) := by
  simp [Clean, h]

theorem wd_default_parses (os : GOOS) (wd : GoString) (w : URL)
    (h : fromString os wd = .ok w) :
    ∃ w1, fromString os (if wd = [] then "/".toList else wd) = .ok w1 := by
  by_cases hwd : wd = []
  · rw [if_pos hwd]
    cases os
    · exact ⟨{ Scheme := [], Host := [], Path := ['/'] }, by decide⟩
    · exact ⟨{ Scheme := [], Host := [], Path := ['/'] }, by decide⟩
  · rw [if_neg hwd]
    exact ⟨w, h⟩

theorem normalize_qualified (os : GOOS) (u wd : URL) (hq : isQualified os u = true) :
    normalize os u wd = toString os { u with Path := path.Clean u.Path } := by
  cases os with
  | unix =>
    simp only [isQualified, decide_eq_true_eq] at hq
    simp only [normalize, unix.normalize, if_pos hq, toString]
  | windows =>
    simp only [isQualified, decide_eq_true_eq] at hq
    simp only [normalize, windows.normalize, if_pos hq, toString]

theorem normalize_unqualified (os : GOOS) (u wd : URL) (hq : isQualified os u = false) :
    normalize os u wd = toString os
      { Scheme := wd.Scheme, Host := wd.Host,
        Path := if path.IsAbs u.Path then path.Clean u.Path
          else path.Join [wd.Path, u.Path] } := by
  cases os with
  | unix =>
    simp only [isQualified, decide_eq_false_iff_not] at hq
    simp only [normalize, unix.normalize, if_neg hq, toString]
    cases path.IsAbs u.Path <;> simp
  | windows =>
    simp only [isQualified, decide_eq_false_iff_not] at hq
    simp only [normalize, windows.normalize, if_neg hq, toString]
    cases path.IsAbs u.Path <;> simp

theorem joinLoop_ok (os : GOOS) (es : List GoString) (us : List URL)
    (hs : List.Forall₂ (fun e u => fromString os e = .ok u) es us) :
    ∀ uf : URL, joinLoop os uf es = .ok
      { uf with Path := (us.map URL.Path).foldl (fun acc q => path.Join [acc, q]) uf.Path } := by
  induction hs with
  | nil => intro uf; rfl
  | cons h _ ih =>
    intro uf
    simp only [joinLoop, h, List.map_cons, List.foldl_cons]
    exact ih _

end urlpath

namespace urlpath

open url (URL)

/-! ## C1: idempotence of `Clean` -/

/-- C1, counterexample: `Clean` is not idempotent.  `Clean` writes the
unescaped path, so its output is read differently: on both variants
`Clean("%2541")` succeeds with `"%41"` and `Clean("%41")` is `"A"`; on unix
`Clean("./a:b")` is `"a:b"`, which parses as scheme `a` and cleans to
`"a:///"`, and `Clean("./1:b")` is `"1:b"`, which does not parse at all. -/
theorem C1_Clean_not_idempotent :
    (Clean .unix "%2541".toList = ("%41".toList, none)
      ∧ Clean .unix "%41".toList = ("A".toList, none)
      ∧ Clean .unix (Clean .unix "%2541".toList).1 ≠ Clean .unix "%2541".toList)
    ∧ (Clean .windows "%2541".toList = ("%41".toList, none)
      ∧ Clean .windows "%41".toList = ("A".toList, none)
      ∧ Clean .windows (Clean .windows "%2541".toList).1 ≠ Clean .windows "%2541".toList)
    ∧ (Clean .unix "./a:b".toList = ("a:b".toList, none)
      ∧ Clean .unix "a:b".toList = ("a:///".toList, none))
    ∧ (Clean .unix "./1:b".toList = ("1:b".toList, none)
      ∧ Clean .unix "1:b".toList = ([], some .firstPathSegmentColon)) :=
  ⟨⟨by decide, by decide, by decide⟩, ⟨by decide, by decide, by decide⟩,
    ⟨by decide, by decide⟩, ⟨by decide, by decide⟩⟩

/-! ## C2: `IsAbs(Abs(p, wd))` -/

/-- C2, the code at the failing input: with the relative working directory
`home/user`, `Abs("test.txt", "home/user")` is the relative path
`home/user/test.txt`, and `IsAbs` of it is false, on both variants. -/
theorem C2_Abs_relative_wd_not_absolute :
    Abs .unix "test.txt".toList "home/user".toList = ("home/user/test.txt".toList, none)
    ∧ IsAbs .unix "home/user/test.txt".toList = (false, none)
    ∧ Abs .windows "test.txt".toList "home/user".toList = ("home/user/test.txt".toList, none)
    ∧ IsAbs .windows "home/user/test.txt".toList = (false, none) := by
  decide

/-! ## C3: a qualified path ignores the working directory -/

/-- C3: when `p` parses to a qualified structure (non-empty scheme or host,
or on Windows a volume), `Abs(p, wd)` is `Clean(p)` for every working
directory that parses, so any two working directories give the same
result. -/
theorem C3_Abs_qualified_ignores_wd (os : GOOS) (p wd1 wd2 : GoString) (u w1 w2 : URL)
    (hp : fromString os p = .ok u) (hq : isQualified os u = true)
    (h1 : fromString os wd1 = .ok w1) (h2 : fromString os wd2 = .ok w2) :
    Abs os p wd1 = Abs os p wd2 ∧ Abs os p wd2 = Clean os p := by
  obtain ⟨a1, ha1⟩ := wd_default_parses os wd1 w1 h1
  obtain ⟨a2, ha2⟩ := wd_default_parses os wd2 w2 h2
  have e1 : Abs os p wd1 = Clean os p := by
    simp only [Abs, hp, ha1, normalize_qualified os u _ hq, Clean]
  have e2 : Abs os p wd2 = Clean os p := by
    simp only [Abs, hp, ha2, normalize_qualified os u _ hq, Clean]
  exact ⟨e1.trans e2.symm, e2⟩

/-- C3, witness: `file:///home/user` under `mem:///test` and under the empty
working directory, and the Windows volume path `C:/home/user/test.txt`. -/
theorem C3_Abs_qualified_ignores_wd_witness :
    (Abs .unix "file:///home/user".toList "mem:///test".toList
        = Abs .unix "file:///home/user".toList []
      ∧ Abs .unix "file:///home/user".toList [] = Clean .unix "file:///home/user".toList)
    ∧ (Abs .windows "C:/home/user/test.txt".toList "mem:///home/user".toList
        = Abs .windows "C:/home/user/test.txt".toList "file://127.0.0.1/home/user".toList
      ∧ Abs .windows "C:/home/user/test.txt".toList "file://127.0.0.1/home/user".toList
        = Clean .windows "C:/home/user/test.txt".toList) :=
  ⟨C3_Abs_qualified_ignores_wd .unix "file:///home/user".toList "mem:///test".toList []
      { Scheme := "file".toList, Host := [], Path := "/home/user".toList }
      { Scheme := "mem".toList, Host := [], Path := "/test".toList }
      { Scheme := [], Host := [], Path := [] }
      (by decide) (by decide) (by decide) (by decide),
   C3_Abs_qualified_ignores_wd .windows "C:/home/user/test.txt".toList
      "mem:///home/user".toList "file://127.0.0.1/home/user".toList
      { Scheme := [], Host := [], Path := "/C:/home/user/test.txt".toList }
      { Scheme := "mem".toList, Host := [], Path := "/home/user".toList }
      { Scheme := "file".toList, Host := "127.0.0.1".toList, Path := "/home/user".toList }
      (by decide) (by decide) (by decide) (by decide)⟩

/-! ## C4: an unqualified path adopts the working directory -/

/-- When `p` parses to a structure that `normalize` takes for unqualified
(empty scheme and host, and on Windows `volumeName(u) = ""`) with path `q`
and the working directory (the empty string standing for `/`) parses to
scheme `s`, host `h` and path `w`, `Abs(p, wd)` is the serialization of
`(s, h, q')` with `q' = path.Clean(q)` if `q` begins with a slash and
`q' = path.Join(w, q)` otherwise. -/
theorem Abs_unqualified (os : GOOS) (p wd : GoString) (u w : URL)
    (hp : fromString os p = .ok u) (hq : isQualified os u = false)
    (hw : fromString os (if wd = [] then "/".toList else wd) = .ok w) :
    Abs os p wd = (toString os
      { Scheme := w.Scheme, Host := w.Host,
        Path := if path.IsAbs u.Path then path.Clean u.Path
          else path.Join [w.Path, u.Path] }, none) := by
  simp only [Abs, hp, hw, normalize_unqualified os u w hq]

/-- C4, the code at the failing input: on Windows `x//a/b` parses to a structure
with empty scheme, empty host and the relative path `x//a/b`, which
carries no volume (it has no colon and does not begin with a separator), and
`mem:///wd` parses to scheme `mem` and path `/wd`; the claim gives the
serialization of `(mem, "", path.Join("/wd", "x//a/b"))`, which is
`mem:///wd/x/a/b`.  But `volumeName` reads the path from its second byte on,
`//a/b`, takes it for a UNC volume, and `normalize` treats the structure as
qualified: `Abs("x//a/b", "mem:///wd")` is `x/a/b`, without the working
directory.  On unix the result is `mem:///wd/x/a/b`.  The three examples of
the claim hold. -/
theorem C4_windows_Abs_ignores_wd :
    fromString .windows "x//a/b".toList
        = .ok { Scheme := [], Host := [], Path := "x//a/b".toList }
    ∧ fromString .windows "mem:///wd".toList
        = .ok { Scheme := "mem".toList, Host := [], Path := "/wd".toList }
    ∧ ':' ∉ "x//a/b".toList
    ∧ path.IsAbs "x//a/b".toList = false
    ∧ toString .windows (URL.mk "mem".toList [] (path.Join ["/wd".toList, "x//a/b".toList]))
        = "mem:///wd/x/a/b".toList
    ∧ Abs .windows "x//a/b".toList "mem:///wd".toList = ("x/a/b".toList, none)
    ∧ Abs .unix "x//a/b".toList "mem:///wd".toList = ("mem:///wd/x/a/b".toList, none)
    ∧ (Abs .unix "test.txt".toList "mem:///home/user".toList
          = ("mem:///home/user/test.txt".toList, none)
      ∧ Abs .windows "test.txt".toList "mem:///home/user".toList
          = ("mem:///home/user/test.txt".toList, none))
    ∧ (Abs .unix "/home/user".toList "mem:///test".toList = ("mem:///home/user".toList, none)
      ∧ Abs .windows "/home/user".toList "mem:///test".toList
          = ("mem:///home/user".toList, none))
    ∧ (Abs .unix "test.txt".toList [] = ("/test.txt".toList, none)
      ∧ Abs .windows "test.txt".toList [] = ("/test.txt".toList, none)) :=
  ⟨by decide, by decide, by decide, by decide, by decide, by decide, by decide,
   ⟨by decide, by decide⟩, ⟨by decide, by decide⟩, ⟨by decide, by decide⟩⟩

/-! ## C5: the scheme and host prefix of a serialization -/

/-- C5, the code at the failing input: the unix `toString` has no branch for
a host without a scheme, so `Clean("//127.0.0.1/home/user/../test.txt")` is
`/home/test.txt` there; the Windows `toString` has the branch and gives
`//127.0.0.1/home/test.txt`. -/
theorem C5_unix_toString_drops_host :
    Clean .unix "//127.0.0.1/home/user/../test.txt".toList = ("/home/test.txt".toList, none)
    ∧ Clean .windows "//127.0.0.1/home/user/../test.txt".toList
        = ("//127.0.0.1/home/test.txt".toList, none)
    ∧ unix.toString { Scheme := [], Host := "127.0.0.1".toList, Path := "/home/test.txt".toList }
        = "/home/test.txt".toList := by
  decide

/-! ## C6: `Join` -/

/-- C6: for elements `e1 .. en` that all parse, `Join(e1, ..., en)` is the
serialization of the structure with the scheme and host of `e1` and the
paths of `e1 .. en` joined left to right with `path.Join`; of `e2 .. en`
only the paths enter the result. -/
theorem C6_Join_spec (os : GOOS) (e1 : GoString) (es : List GoString) (u1 : URL)
    (us : List URL) (h1 : fromString os e1 = .ok u1)
    (hs : List.Forall₂ (fun e u => fromString os e = .ok u) es us) :
    Join os (e1 :: es) = some (toString os
      { Scheme := u1.Scheme, Host := u1.Host,
        Path := (us.map URL.Path).foldl (fun acc q => path.Join [acc, q]) u1.Path }, none) := by
  simp only [Join, h1, joinLoop_ok os es us hs u1]

/-- C6, witness: the two examples of the claim. -/
theorem C6_Join_spec_witness :
    Join .unix ["mem:///home/user".toList, "mem:///test.txt".toList]
        = some ("mem:///home/user/test.txt".toList, none)
    ∧ Join .windows ["/home/user".toList, "mem:///test.txt".toList]
        = some ("/home/user/test.txt".toList, none) :=
  ⟨(C6_Join_spec .unix "mem:///home/user".toList ["mem:///test.txt".toList]
      { Scheme := "mem".toList, Host := [], Path := "/home/user".toList }
      [{ Scheme := "mem".toList, Host := [], Path := "/test.txt".toList }]
      (by decide) (List.Forall₂.cons (by decide) List.Forall₂.nil)).trans (by decide),
   (C6_Join_spec .windows "/home/user".toList ["mem:///test.txt".toList]
      { Scheme := [], Host := [], Path := "/home/user".toList }
      [{ Scheme := "mem".toList, Host := [], Path := "/test.txt".toList }]
      (by decide) (List.Forall₂.cons (by decide) List.Forall₂.nil)).trans (by decide)⟩

end urlpath

namespace path

theorem extLoop_skip (l rest acc : GoString) (h1 : '/' ∉ l) (h2 : '.' ∉ l) :
    extLoop (l ++ rest) acc = extLoop rest (l.reverse ++ acc) := by
  induction l generalizing acc with
  | nil => rfl
  | cons c cs ih =>
    have hc1 : c ≠ '/' := fun h => h1 (by simp [h])
    have hc2 : c ≠ '.' := fun h => h2 (by simp [h])
    have hcs1 : '/' ∉ cs := fun h => h1 (List.mem_cons_of_mem _ h)
    have hcs2 : '.' ∉ cs := fun h => h2 (List.mem_cons_of_mem _ h)
    simp only [List.cons_append, extLoop, if_neg hc1, if_neg hc2]
    change extLoop (cs ++ rest) (c :: acc) = _
    rw [ih (c :: acc) hcs1 hcs2]
    simp

theorem extLoop_stop (d : GoString) (acc : GoString) (h : d = [] ∨ ∃ d1, d = d1 ++ ['/']) :
    extLoop d.reverse acc = [] := by
  rcases h with h | ⟨d1, h⟩
  · subst h; rfl
  · subst h; simp [extLoop]

/-- The function `path.Ext` on the final element of a path: nothing when the element has
no dot, else the text from its last dot on. -/
theorem Ext_spec (p : GoString) :
    ('.' ∉ (Split p).2 → Ext p = [])
    ∧ (∀ pre suf, (Split p).2 = pre ++ '.' :: suf → '.' ∉ suf → Ext p = '.' :: suf) := by
  obtain ⟨h1, h2, h3⟩ := Split_spec p
  have hrev : p.reverse = (Split p).2.reverse ++ (Split p).1.reverse := by
    conv_lhs => rw [← h1]
    simp
  constructor
  · intro hdot
    rw [Ext, hrev, extLoop_skip _ _ _ (by simpa using h2) (by simpa using hdot)]
    exact extLoop_stop _ _ h3
  · intro pre suf hf hsuf
    have hs : '/' ∉ suf := fun h => h2 (by rw [hf]; simp [h])
    rw [Ext, hrev, hf]
    have : (pre ++ '.' :: suf).reverse ++ (Split p).1.reverse
        = suf.reverse ++ ('.' :: (pre.reverse ++ (Split p).1.reverse)) := by simp
    rw [this, extLoop_skip _ _ _ (by simpa using hs) (by simpa using hsuf)]
    simp [extLoop]

end path

namespace urlpath

open url (URL)

/-! ## C7: associativity of `Join` -/

/-- C7, counterexample: `Join` is not associative on plain paths.  The join
of two empty paths serialises as `.`, which makes the rooted third element
relative: `Join("", "")` is `.`, `Join(".", "/x")` is `x`, but
`Join("", "", "/x")` is `/x`, on both variants.  On unix `Join("./a:b", "")`
is `a:b`, which parses as a URL with scheme `a`. -/
theorem C7_Join_not_associative :
    (Join .unix [[], []] = some (".".toList, none)
      ∧ Join .unix [".".toList, "/x".toList] = some ("x".toList, none)
      ∧ Join .unix [[], [], "/x".toList] = some ("/x".toList, none)
      ∧ Join .unix [".".toList, "/x".toList] ≠ Join .unix [[], [], "/x".toList])
    ∧ (Join .windows [[], []] = some (".".toList, none)
      ∧ Join .windows [".".toList, "/x".toList] = some ("x".toList, none)
      ∧ Join .windows [[], [], "/x".toList] = some ("/x".toList, none)
      ∧ Join .windows [".".toList, "/x".toList] ≠ Join .windows [[], [], "/x".toList])
    ∧ (Join .unix ["./a:b".toList, []] = some ("a:b".toList, none)
      ∧ Join .unix ["a:b".toList, "c".toList] = some ("a:///c".toList, none)
      ∧ Join .unix ["./a:b".toList, [], "c".toList] = some ("a:b/c".toList, none)) :=
  ⟨⟨by decide, by decide, by decide, by decide⟩,
    ⟨by decide, by decide, by decide, by decide⟩, ⟨by decide, by decide, by decide⟩⟩

/-! ## C8: `Split` and `Join` -/

/-- C8, counterexample: rejoining the two results of `Split` does not give
`Clean(p)` when the file part parses as something else than itself.  On unix
`Split("/a/b:c")` is `("/a", "b:c")`, `b:c` parses as a URL with scheme `b`
and an empty path, and `Join("/a", "b:c")` is `/a`; on both variants
`Split("/a/%2541")` is `("/a", "%41")` and `Join("/a", "%41")` is `/a/A`. -/
theorem C8_Split_Join_not_consistent :
    (Split .unix "/a/b:c".toList = ("/a".toList, "b:c".toList, none)
      ∧ Join .unix ["/a".toList, "b:c".toList] = some ("/a".toList, none)
      ∧ Clean .unix "/a/b:c".toList = ("/a/b:c".toList, none))
    ∧ (Split .unix "/a/%2541".toList = ("/a".toList, "%41".toList, none)
      ∧ Join .unix ["/a".toList, "%41".toList] = some ("/a/A".toList, none)
      ∧ Clean .unix "/a/%2541".toList = ("/a/%41".toList, none)
      ∧ Join .unix [(Split .unix "/a/%2541".toList).1, (Split .unix "/a/%2541".toList).2.1]
          ≠ some (Clean .unix "/a/%2541".toList))
    ∧ (Split .windows "/a/%2541".toList = ("/a".toList, "%41".toList, none)
      ∧ Join .windows ["/a".toList, "%41".toList] = some ("/a/A".toList, none)
      ∧ Clean .windows "/a/%2541".toList = ("/a/%41".toList, none)
      ∧ Join .windows [(Split .windows "/a/%2541".toList).1,
            (Split .windows "/a/%2541".toList).2.1]
          ≠ some (Clean .windows "/a/%2541".toList)) :=
  ⟨⟨by decide, by decide, by decide⟩, ⟨by decide, by decide, by decide, by decide⟩,
    ⟨by decide, by decide, by decide, by decide⟩⟩

/-! ## C10: `Ext` -/

/-- C10, counterexample: a dot that is the first character of the final
segment does start an extension: `Ext(".bashrc")` is `.bashrc`, not the
empty string, on both variants. -/
theorem C10_Ext_leading_dot :
    Ext .unix ".bashrc".toList = (".bashrc".toList, none)
    ∧ Ext .windows ".bashrc".toList = (".bashrc".toList, none)
    ∧ Ext .unix "/home/user/.bashrc".toList = (".bashrc".toList, none)
    ∧ (Ext .unix ".bashrc".toList).1 ≠ []
    ∧ (Ext .windows ".bashrc".toList).1 ≠ [] :=
  ⟨by decide, by decide, by decide, by decide, by decide⟩

/-- C10, amended: for every `p` that parses, `Ext(p)` succeeds and is the
part of the final segment of the path (the text after its last slash) from
the last dot of the segment to the end, dot included, and it is empty
exactly when the segment has no dot; a dot that starts the segment counts. -/
theorem C10_Ext_spec (os : GOOS) (p : GoString) (u : URL) (hp : fromString os p = .ok u) :
    (Ext os p).2 = none
    ∧ ('.' ∉ (path.Split u.Path).2 → (Ext os p).1 = [])
    ∧ (∀ pre suf, (path.Split u.Path).2 = pre ++ '.' :: suf → '.' ∉ suf →
        (Ext os p).1 = '.' :: suf) := by
  have h : Ext os p = (path.Ext u.Path, none) := by simp [Ext, hp]
  rw [h]
  exact ⟨rfl, (path.Ext_spec u.Path).1, (path.Ext_spec u.Path).2⟩

/-- C10, witness: `mem:///home/user/test.txt` has extension `.txt`. -/
theorem C10_Ext_spec_witness :
    (Ext .unix "mem:///home/user/test.txt".toList).1 = ".txt".toList :=
  (C10_Ext_spec .unix "mem:///home/user/test.txt".toList
    { Scheme := "mem".toList, Host := [], Path := "/home/user/test.txt".toList }
    (by decide)).2.2 "test".toList "txt".toList (by decide) (by decide)

end urlpath

namespace urlpath

open url (URL)

theorem windows_toString_eq (u : URL) :
    windows.toString u =
      if u.Scheme ≠ [] then
        u.Scheme ++ [':', '/', '/'] ++ u.Host ++ path.Join [['/'], (if windows.volumeName u ≠ []
          then ({ u with Path := path.Clean (u.Path.drop 1) } : URL) else u).Path]
      else if u.Host ≠ [] then
        ['/', '/'] ++ u.Host ++ path.Join [['/'], (if windows.volumeName u ≠ []
          then ({ u with Path := path.Clean (u.Path.drop 1) } : URL) else u).Path]
      else path.Clean (if windows.volumeName u ≠ []
          then ({ u with Path := path.Clean (u.Path.drop 1) } : URL) else u).Path := by
  by_cases hv : windows.volumeName u ≠ []
  · simp only [windows.toString, if_pos hv]
    rfl
  · simp only [windows.toString, if_neg hv]
    rfl

theorem not_mem_Join_root (q : GoString) (c : Char) (hq : c ∉ q) (h1 : c ≠ '.') (h2 : c ≠ '/') :
    c ∉ path.Join [['/'], q] := by
  intro h
  rcases path.mem_Join_root q c h with h3 | h3 | h3
  · exact hq h3
  · exact h1 h3
  · exact h2 h3

theorem not_mem_Clean (q : GoString) (c : Char) (hq : c ∉ q) (h1 : c ≠ '.') (h2 : c ≠ '/') :
    c ∉ path.Clean q := by
  intro h
  rcases path.mem_Clean q c h with h3 | h3 | h3
  · exact hq h3
  · exact h1 h3
  · exact h2 h3

/-! ## C9: parsing a serialization -/

/-- C9, counterexample: the structure parsed from `http://localhost:8118`
has an empty path, so no `.` or `..` segment and no redundant slash; its
serialization is `http://localhost:8118/`, which parses to the path `/`,
while `path.Clean("")` is `.`.  The same holds on both variants. -/
theorem C9_roundtrip_path_differs :
    (fromString .unix "http://localhost:8118".toList
        = .ok { Scheme := "http".toList, Host := "localhost:8118".toList, Path := [] }
      ∧ toString .unix { Scheme := "http".toList, Host := "localhost:8118".toList, Path := [] }
        = "http://localhost:8118/".toList
      ∧ fromString .unix "http://localhost:8118/".toList
        = .ok { Scheme := "http".toList, Host := "localhost:8118".toList, Path := "/".toList }
      ∧ path.Clean [] = ".".toList
      ∧ fromString .unix (toString .unix
            { Scheme := "http".toList, Host := "localhost:8118".toList, Path := [] })
          ≠ .ok { Scheme := "http".toList, Host := "localhost:8118".toList,
                  Path := path.Clean [] })
    ∧ (toString .windows { Scheme := "http".toList, Host := "localhost:8118".toList, Path := [] }
        = "http://localhost:8118/".toList
      ∧ fromString .windows "http://localhost:8118/".toList
        = .ok { Scheme := "http".toList, Host := "localhost:8118".toList, Path := "/".toList }
      ∧ fromString .windows (toString .windows
            { Scheme := "http".toList, Host := "localhost:8118".toList, Path := [] })
          ≠ .ok { Scheme := "http".toList, Host := "localhost:8118".toList,
                  Path := path.Clean [] }) :=
  ⟨⟨by decide, by decide, by decide, by decide, by decide⟩,
    ⟨by decide, by decide, by decide⟩⟩

end urlpath

/-! ## The function `path.Base` and the rooted cleaned path -/

namespace path

theorem segs_replicate_slash (n : Nat) :
    segs (List.replicate n '/') = List.replicate (n + 1) [] := by
  induction n with
  | zero => simp [segs]
  | succ k ih => rw [List.replicate_succ, segs_slash, ih]; rfl

theorem filter_segs_append_slashes (a : GoString) (n : Nat) :
    (segs (a ++ List.replicate n '/')).filter (fun e => !decide (e = []))
      = (segs a).filter (fun e => !decide (e = [])) := by
  cases n with
  | zero => simp
  | succ k =>
    rw [List.replicate_succ, segs_append_slash, segs_replicate_slash, List.filter_append]
    have : (List.replicate (k + 1) ([] : GoString)).filter (fun e => !decide (e = [])) = [] := by
      rw [List.filter_eq_nil_iff]
      intro x hx
      simp [List.eq_of_mem_replicate hx]
    rw [this, List.append_nil]

/-- Stripping the trailing slashes. -/
theorem strip_trailing (q : GoString) :
    ∃ n, q = (q.reverse.dropWhile (fun c => decide (c = '/'))).reverse ++ List.replicate n '/' := by
  refine ⟨(q.reverse.takeWhile (fun c => decide (c = '/'))).length, ?_⟩
  have h1 : q.reverse.takeWhile (fun c => decide (c = '/'))
      = List.replicate (q.reverse.takeWhile (fun c => decide (c = '/'))).length '/' := by
    rw [List.eq_replicate_iff]
    refine ⟨rfl, ?_⟩
    intro b hb
    simpa using List.mem_takeWhile_imp hb
  have h2 := List.takeWhile_append_dropWhile (fun c => decide (c = '/')) q.reverse
  have h3 : q = (q.reverse.dropWhile (fun c => decide (c = '/'))).reverse
      ++ (q.reverse.takeWhile (fun c => decide (c = '/'))).reverse := by
    rw [← List.reverse_append, h2, List.reverse_reverse]
  rw [h1, List.reverse_replicate] at h3
  exact h3

theorem strip_trailing_last (q before : GoString)
    (h : (q.reverse.dropWhile (fun c => decide (c = '/'))).reverse = before ++ ['/']) : False := by
  have h1 : q.reverse.dropWhile (fun c => decide (c = '/')) = '/' :: before.reverse := by
    have := congrArg List.reverse h
    simpa using this
  have h2 := List.head_dropWhile_not (fun c => decide (c = '/')) q.reverse (by simp [h1])
  simp [h1] at h2

/-- The function `path.Base` on elements: `.` for the empty path, the last
non-empty element of the path, and `/` when there is none. -/
theorem Base_spec (q : GoString) :
    Base q = if q = [] then ['.'] else
      match ((segs q).filter (fun e => !decide (e = []))).getLast? with
      | none => ['/']
      | some e => e := by
  by_cases hq : q = []
  · simp [Base, hq]
  · obtain ⟨n, hn⟩ := strip_trailing q
    rw [if_neg hq]
    simp only [Base, if_neg hq]
    generalize hp1 : (q.reverse.dropWhile (fun c => decide (c = '/'))).reverse = p1 at hn
    have hf := filter_segs_append_slashes p1 n
    rw [← hn] at hf
    rw [hf]
    cases hc : strings.cutLast p1 '/' with
    | none =>
      have hm := strings.cutLast_none _ _ hc
      rw [segs_of_not_mem _ hm]
      by_cases h1 : p1 = []
      · simp [h1]
      · simp [h1]
    | some ba =>
      obtain ⟨before, after⟩ := ba
      obtain ⟨h1, h2⟩ := strings.cutLast_some _ _ _ _ hc
      have ha : after ≠ [] := by
        intro ha
        rw [ha] at h1
        rw [h1] at hp1
        exact strip_trailing_last q before hp1
      rw [h1, segs_append_slash, segs_of_not_mem _ h2, List.filter_append]
      simp [ha]

theorem Base_all_slashes (q : GoString) (hq : q ≠ []) (h : ∀ c ∈ q, c = '/') :
    Base q = ['/'] := by
  have hd : q.reverse.dropWhile (fun c => decide (c = '/')) = [] := by
    rw [List.dropWhile_eq_nil_iff]
    intro x hx
    simp [h x (List.mem_reverse.mp hx)]
  simp only [Base, if_neg hq, hd]
  decide

theorem mem_segs_of_mem (q : GoString) (c : Char) (hc : c ∈ q) (hs : c ≠ '/') :
    ∃ e ∈ segs q, c ∈ e := by
  induction q with
  | nil => simp at hc
  | cons d ds ih =>
    by_cases hd : d = '/'
    · subst hd
      rw [segs_slash]
      have hc2 : c ∈ ds := by
        rcases List.mem_cons.mp hc with h | h
        · exact absurd h hs
        · exact h
      obtain ⟨e, he, hce⟩ := ih hc2
      exact ⟨e, List.mem_cons_of_mem _ he, hce⟩
    · simp only [segs, if_neg hd]
      cases hsg : segs ds with
      | nil => exact absurd hsg (segs_ne_nil ds)
      | cons s ss =>
        rcases List.mem_cons.mp hc with h | h
        · exact ⟨d :: s, by simp, by simp [h]⟩
        · obtain ⟨e, he, hce⟩ := ih h
          rw [hsg] at he
          rcases List.mem_cons.mp he with h1 | h1
          · exact ⟨d :: s, by simp, by simp [← h1, hce]⟩
          · exact ⟨e, by simp [h1], hce⟩

end path

namespace path

theorem segs_ne_singleton_nil_of_elems (r : GoString) (es : List GoString)
    (h : segs r = es) (hne : es ≠ []) (he : ∀ e ∈ es, e ≠ []) : r ≠ [] := by
  intro hr
  subst hr
  simp only [segs] at h
  subst h
  exact he [] (by simp) rfl

/-- The buffer of a rooted state: the root slash, then the elements joined
by single slashes. -/
theorem enc_true_segs : ∀ (real : List GoString), (∀ e ∈ real, IsElem e) →
    ∃ r, (enc true (real, 0)).reverse = '/' :: r
      ∧ (real = [] → r = []) ∧ (real ≠ [] → segs r = real.reverse) := by
  intro real
  induction real with
  | nil => intro _; exact ⟨[], rfl, fun _ => rfl, fun h => absurd rfl h⟩
  | cons e es ih =>
    intro hreal
    obtain ⟨r1, h1, h2, h3⟩ := ih (fun x hx => hreal x (List.mem_cons_of_mem _ hx))
    have he := hreal e (List.mem_cons_self _ _)
    have hlen : (encReal true (encBase true 0) es).length = r1.length + 1 := by
      have := congrArg List.length h1
      simpa [enc] using this
    simp only [enc] at h1
    by_cases hes : es = []
    · subst hes
      refine ⟨e, ?_, fun h => absurd h (by simp), fun _ => ?_⟩
      · simp [enc, encReal, encBase]
      · rw [segs_of_not_mem e he.2]; rfl
    · have hr1 : r1 ≠ [] :=
        segs_ne_singleton_nil_of_elems r1 es.reverse (h3 hes) (by simpa using hes)
          (fun x hx => (hreal x (List.mem_cons_of_mem _ (List.mem_reverse.mp hx))).1)
      have hl1 : r1.length ≠ 0 := fun h => hr1 (List.length_eq_zero.mp h)
      refine ⟨r1 ++ '/' :: e, ?_, fun h => absurd h (by simp), fun _ => ?_⟩
      · simp only [enc, encReal, hlen]
        have : (True ∧ r1.length + 1 ≠ 1) ∨ (¬ True ∧ r1.length + 1 ≠ 0) :=
          Or.inl ⟨trivial, by omega⟩
        rw [if_pos this]
        simp [h1]
      · rw [segs_append_slash, h3 hes, segs_of_not_mem e he.2]
        simp

/-- The rooted cleaned path `path.Join("/", q)`: a slash, followed by
nothing or by proper path elements joined by single slashes. -/
theorem Join_root_shape (q : GoString) :
    ∃ r, Join [['/'], q] = '/' :: r
      ∧ (r = [] ∨ ∀ e ∈ segs r, IsElem e ∧ e ≠ ['.'] ∧ e ≠ ['.', '.']) := by
  rw [Join_pair _ _ (by simp), Clean_eq_cleanSpec, cleanSpec_eq]
  have hI : IsAbs (['/'] ++ '/' :: q) = true := rfl
  have hv := cleanState_valid (['/'] ++ '/' :: q)
  rw [hI] at hv ⊢
  generalize cleanState (['/'] ++ '/' :: q) = st at hv
  obtain ⟨real, base⟩ := st
  have hb : base = 0 := hv.2 rfl
  subst hb
  obtain ⟨r, h1, h2, h3⟩ := enc_true_segs real (fun e he => (hv.1 e he).1)
  have hlen : (enc true (real, 0)).length ≠ 0 := by
    have := congrArg List.length h1
    simp at this
    omega
  refine ⟨r, by simp only [render, if_neg hlen, h1], ?_⟩
  by_cases hr : real = []
  · exact Or.inl (h2 hr)
  · right
    intro e he
    rw [h3 hr] at he
    exact hv.1 e (List.mem_reverse.mp he)

theorem segs_head_slash (r : GoString) (h : r.head? = some '/') : [] ∈ segs r := by
  cases r with
  | nil => simp at h
  | cons c cs =>
    simp only [List.head?_cons, Option.some.injEq] at h
    subst h
    simp [segs]

theorem segs_last_slash (r : GoString) (h : r.getLast? = some '/') : [] ∈ segs r := by
  obtain ⟨a, ha⟩ : ∃ a, r = a ++ ['/'] := by
    rcases List.eq_nil_or_concat r with h1 | ⟨a, b, h1⟩
    · simp [h1] at h
    · rw [h1] at h
      simp at h
      exact ⟨a, by rw [h1, h]; simp⟩
  rw [ha, segs_append_slash]
  simp [segs]

end path

namespace path

/-! ## `path.Match`: the error depends on the pattern alone -/

theorem utf8_size_pos (c : Char) (rest : GoString) :
    1 ≤ (utf8.DecodeRuneInString (c :: rest)).2 := by
  unfold utf8.DecodeRuneInString
  simp only []
  repeat' split
  all_goals simp

theorem utf8_ascii (c : Char) (rest : GoString) (h : c.toNat < 128) :
    utf8.DecodeRuneInString (c :: rest) = (c.toNat, 1) := by
  have h1 : utf8.first c.toNat = 0xF0 := by
    unfold utf8.first
    rw [if_pos h]
  unfold utf8.DecodeRuneInString
  simp only [h1]
  rfl

theorem getEsc_length (chunk : GoString) (r : Nat) (nchunk : GoString)
    (h : getEsc chunk = .ok (r, nchunk)) : nchunk.length < chunk.length := by
  unfold getEsc at h
  cases chunk with
  | nil => simp at h
  | cons c rest =>
    simp only at h
    split at h
    · simp at h
    · split at h
      · simp at h
      · rename_i c1 rest1 heq
        split at h
        · simp at h
        · simp only [Except.ok.injEq, Prod.mk.injEq] at h
          obtain ⟨_, h2⟩ := h
          subst h2
          have hpos := utf8_size_pos c1 rest1
          have hl := congrArg List.length heq
          rw [List.length_drop]
          split at hl <;> simp at hl ⊢ <;> omega

theorem classLoop_succ (fuel : Nat) (chunk : GoString) (r : Nat) (m : Bool) (nrange : Nat) :
    classLoop (fuel + 1) chunk r m nrange =
      if chunk.head? = some ']' ∧ nrange > 0 then .ok (m, chunk.tail)
      else
        match getEsc chunk with
        | .error e => .error e
        | .ok (lo, chunk1) =>
          if chunk1.head? = some '-' then
            match getEsc chunk1.tail with
            | .error e => .error e
            | .ok (hi, chunk2) =>
              classLoop fuel chunk2 r (m || (decide (lo ≤ r) && decide (r ≤ hi))) (nrange + 1)
          else
            classLoop fuel chunk1 r (m || (decide (lo ≤ r) && decide (r ≤ lo))) (nrange + 1) := rfl

/-- The class loop reads the pattern alone: the error and the rest of the
chunk do not depend on the rune or on the match found so far. -/
theorem classLoop_indep : ∀ (fuel : Nat) (chunk : GoString) (r r2 : Nat) (m m2 : Bool)
    (nrange : Nat),
    (∀ e, classLoop fuel chunk r m nrange = .error e →
        classLoop fuel chunk r2 m2 nrange = .error e)
    ∧ (∀ m1 c1, classLoop fuel chunk r m nrange = .ok (m1, c1) →
        ∃ m3, classLoop fuel chunk r2 m2 nrange = .ok (m3, c1)) := by
  intro fuel
  induction fuel with
  | zero =>
    intro chunk r r2 m m2 nrange
    exact ⟨fun e h => h, fun m1 c1 h => by simp [classLoop] at h⟩
  | succ fuel ih =>
    intro chunk r r2 m m2 nrange
    rw [classLoop_succ, classLoop_succ]
    by_cases h1 : chunk.head? = some ']' ∧ nrange > 0
    · rw [if_pos h1, if_pos h1]
      exact ⟨fun e h => by simp at h, fun m1 c1 h => by
        simp only [Except.ok.injEq, Prod.mk.injEq] at h
        exact ⟨m2, by rw [h.2]⟩⟩
    · rw [if_neg h1, if_neg h1]
      cases hg : getEsc chunk with
      | error e0 => exact ⟨fun e h => h, fun m1 c1 h => by simp at h⟩
      | ok lc =>
        obtain ⟨lo, chunk1⟩ := lc
        simp only []
        by_cases h2 : chunk1.head? = some '-'
        · rw [if_pos h2, if_pos h2]
          cases hg2 : getEsc chunk1.tail with
          | error e0 => exact ⟨fun e h => h, fun m1 c1 h => by simp at h⟩
          | ok hc =>
            obtain ⟨hi, chunk2⟩ := hc
            exact ih chunk2 r r2 _ _ (nrange + 1)
        · rw [if_neg h2, if_neg h2]
          exact ih chunk1 r r2 _ _ (nrange + 1)

theorem classLoop_length : ∀ (fuel : Nat) (chunk : GoString) (r : Nat) (m : Bool)
    (nrange : Nat) (m1 : Bool) (c1 : GoString),
    classLoop fuel chunk r m nrange = .ok (m1, c1) → c1.length < chunk.length := by
  intro fuel
  induction fuel with
  | zero => intro chunk r m nrange m1 c1 h; simp [classLoop] at h
  | succ fuel ih =>
    intro chunk r m nrange m1 c1 h
    rw [classLoop_succ] at h
    by_cases h1 : chunk.head? = some ']' ∧ nrange > 0
    · rw [if_pos h1] at h
      simp only [Except.ok.injEq, Prod.mk.injEq] at h
      rw [← h.2]
      cases chunk with
      | nil => simp at h1
      | cons c cs => simp
    · rw [if_neg h1] at h
      cases hg : getEsc chunk with
      | error e0 => rw [hg] at h; simp at h
      | ok lc =>
        obtain ⟨lo, chunk1⟩ := lc
        rw [hg] at h
        simp only [] at h
        have hl1 := getEsc_length _ _ _ hg
        by_cases h2 : chunk1.head? = some '-'
        · rw [if_pos h2] at h
          cases hg2 : getEsc chunk1.tail with
          | error e0 => rw [hg2] at h; simp at h
          | ok hc =>
            obtain ⟨hi, chunk2⟩ := hc
            rw [hg2] at h
            simp only [] at h
            have hl2 := getEsc_length _ _ _ hg2
            have := ih _ _ _ _ _ _ h
            simp at hl2
            omega
        · rw [if_neg h2] at h
          have := ih _ _ _ _ _ _ h
          omega

/-- Enough fuel: the class loop gives the same result with any fuel above
the length of the chunk. -/
theorem classLoop_fuel : ∀ (fuel fuel2 : Nat) (chunk : GoString) (r : Nat) (m : Bool)
    (nrange : Nat), chunk.length < fuel → chunk.length < fuel2 →
    classLoop fuel chunk r m nrange = classLoop fuel2 chunk r m nrange := by
  intro fuel
  induction fuel with
  | zero => intro fuel2 chunk r m nrange h; omega
  | succ fuel ih =>
    intro fuel2 chunk r m nrange hf hf2
    cases fuel2 with
    | zero => omega
    | succ fuel2 =>
      rw [classLoop_succ, classLoop_succ]
      by_cases h1 : chunk.head? = some ']' ∧ nrange > 0
      · rw [if_pos h1, if_pos h1]
      · rw [if_neg h1, if_neg h1]
        cases hg : getEsc chunk with
        | error e0 => rfl
        | ok lc =>
          obtain ⟨lo, chunk1⟩ := lc
          simp only []
          have hl1 := getEsc_length _ _ _ hg
          by_cases h2 : chunk1.head? = some '-'
          · rw [if_pos h2, if_pos h2]
            cases hg2 : getEsc chunk1.tail with
            | error e0 => rfl
            | ok hc =>
              obtain ⟨hi, chunk2⟩ := hc
              simp only []
              have hl2 := getEsc_length _ _ _ hg2
              simp at hl2
              exact ih fuel2 chunk2 r _ _ (by omega) (by omega)
          · rw [if_neg h2, if_neg h2]
            exact ih fuel2 chunk1 r _ _ (by omega) (by omega)

end path

namespace path

theorem matchChunkLoop_nil (fuel : Nat) (s : GoString) (failed : Bool) :
    matchChunkLoop (fuel + 1) [] s failed = if failed then .ok none else .ok (some s) := rfl

theorem matchChunkLoop_class (fuel : Nat) (chunk1 s : GoString) (failed0 : Bool) :
    matchChunkLoop (fuel + 1) ('[' :: chunk1) s failed0 =
      match classLoop fuel (if (decide (chunk1.head? = some '^')) = true then chunk1.tail else chunk1)
          (if (failed0 || s.isEmpty) = true then 0 else (utf8.DecodeRuneInString s).1)
          false 0 with
      | .error e => .error e
      | .ok (m, chunk3) =>
        matchChunkLoop fuel chunk3
          (if (failed0 || s.isEmpty) = true then s else s.drop (utf8.DecodeRuneInString s).2)
          ((failed0 || s.isEmpty) || (m == decide (chunk1.head? = some '^'))) := rfl

theorem matchChunkLoop_any (fuel : Nat) (chunk1 s : GoString) (failed0 : Bool) :
    matchChunkLoop (fuel + 1) ('?' :: chunk1) s failed0 =
      if (failed0 || s.isEmpty) = true then matchChunkLoop fuel chunk1 s (failed0 || s.isEmpty)
      else matchChunkLoop fuel chunk1 (s.drop (utf8.DecodeRuneInString s).2)
        (decide (s.head? = some '/')) := rfl

theorem matchChunkLoop_esc_nil (fuel : Nat) (s : GoString) (failed0 : Bool) :
    matchChunkLoop (fuel + 1) ['\\'] s failed0 = .error .errBadPattern := rfl

theorem matchChunkLoop_esc (fuel : Nat) (c2 : Char) (chunk2 s : GoString) (failed0 : Bool) :
    matchChunkLoop (fuel + 1) ('\\' :: c2 :: chunk2) s failed0 =
      if (failed0 || s.isEmpty) = true then matchChunkLoop fuel chunk2 s (failed0 || s.isEmpty)
      else matchChunkLoop fuel chunk2 s.tail (decide (s.head? ≠ some c2)) := rfl

theorem matchChunkLoop_lit (fuel : Nat) (c : Char) (chunk1 s : GoString) (failed0 : Bool)
    (h1 : c ≠ '[') (h2 : c ≠ '?') (h3 : c ≠ '\\') :
    matchChunkLoop (fuel + 1) (c :: chunk1) s failed0 =
      if (failed0 || s.isEmpty) = true then matchChunkLoop fuel chunk1 s (failed0 || s.isEmpty)
      else matchChunkLoop fuel chunk1 s.tail (decide (s.head? ≠ some c)) := by
  conv_lhs => unfold matchChunkLoop
  simp only [if_neg h1, if_neg h2, if_neg h3]

/-- The chunk matcher reports a malformed chunk whatever the text is. -/
theorem matchChunkLoop_indep : ∀ (fuel : Nat) (chunk s s2 : GoString) (f f2 : Bool) (e : Error),
    matchChunkLoop fuel chunk s f = .error e → matchChunkLoop fuel chunk s2 f2 = .error e := by
  intro fuel
  induction fuel with
  | zero => intro chunk s s2 f f2 e h; exact h
  | succ fuel ih =>
    intro chunk s s2 f f2 e h
    cases chunk with
    | nil =>
      rw [matchChunkLoop_nil] at h
      split at h <;> simp at h
    | cons c chunk1 =>
      by_cases h1 : c = '['
      · subst h1
        rw [matchChunkLoop_class] at h ⊢
        generalize (if (decide (chunk1.head? = some '^')) = true then chunk1.tail else chunk1)
          = chunk2 at h ⊢
        cases hc : classLoop fuel chunk2
            (if (f || s.isEmpty) = true then 0 else (utf8.DecodeRuneInString s).1) false 0 with
        | error e0 =>
          rw [hc] at h
          simp only [Except.error.injEq] at h
          subst h
          rw [(classLoop_indep fuel chunk2 _ _ false false 0).1 e0 hc]
        | ok mc =>
          obtain ⟨m, chunk3⟩ := mc
          rw [hc] at h
          simp only [] at h
          obtain ⟨m3, hm3⟩ := (classLoop_indep fuel chunk2 _
            (if (f2 || s2.isEmpty) = true then 0 else (utf8.DecodeRuneInString s2).1)
            false false 0).2 m chunk3 hc
          rw [hm3]
          exact ih _ _ _ _ _ e h
      · by_cases h2 : c = '?'
        · subst h2
          rw [matchChunkLoop_any] at h ⊢
          split at h <;> split <;> exact ih _ _ _ _ _ e h
        · by_cases h3 : c = '\\'
          · subst h3
            cases chunk1 with
            | nil =>
              rw [matchChunkLoop_esc_nil] at h ⊢
              exact h
            | cons c2 chunk2 =>
              rw [matchChunkLoop_esc] at h ⊢
              split at h <;> split <;> exact ih _ _ _ _ _ e h
          · rw [matchChunkLoop_lit _ _ _ _ _ h1 h2 h3] at h ⊢
            split at h <;> split <;> exact ih _ _ _ _ _ e h

/-- Enough fuel: the chunk matcher gives the same result with any fuel above
the length of the chunk. -/
theorem matchChunkLoop_fuel : ∀ (fuel fuel2 : Nat) (chunk s : GoString) (f : Bool),
    chunk.length < fuel → chunk.length < fuel2 →
    matchChunkLoop fuel chunk s f = matchChunkLoop fuel2 chunk s f := by
  intro fuel
  induction fuel with
  | zero => intro fuel2 chunk s f h; omega
  | succ fuel ih =>
    intro fuel2 chunk s f hf hf2
    cases fuel2 with
    | zero => omega
    | succ fuel2 =>
      cases chunk with
      | nil => rfl
      | cons c chunk1 =>
        simp only [List.length_cons] at hf hf2
        by_cases h1 : c = '['
        · subst h1
          rw [matchChunkLoop_class, matchChunkLoop_class]
          have hl : (if (decide (chunk1.head? = some '^')) = true then chunk1.tail else chunk1).length
              ≤ chunk1.length := by
            split
            · simp
            · exact Nat.le_refl _
          generalize (if (decide (chunk1.head? = some '^')) = true then chunk1.tail else chunk1)
            = chunk2 at hl ⊢
          rw [classLoop_fuel fuel fuel2 chunk2 _ _ _ (by omega) (by omega)]
          cases hc : classLoop fuel2 chunk2
              (if (f || s.isEmpty) = true then 0 else (utf8.DecodeRuneInString s).1) false 0 with
          | error e0 => rfl
          | ok mc =>
            obtain ⟨m, chunk3⟩ := mc
            simp only []
            have := classLoop_length _ _ _ _ _ _ _ hc
            exact ih fuel2 chunk3 _ _ (by omega) (by omega)
        · by_cases h2 : c = '?'
          · subst h2
            rw [matchChunkLoop_any, matchChunkLoop_any]
            split <;> exact ih fuel2 chunk1 _ _ (by omega) (by omega)
          · by_cases h3 : c = '\\'
            · subst h3
              cases chunk1 with
              | nil => rfl
              | cons c2 chunk2 =>
                simp only [List.length_cons] at hf hf2
                rw [matchChunkLoop_esc, matchChunkLoop_esc]
                split <;> exact ih fuel2 chunk2 _ _ (by omega) (by omega)
            · rw [matchChunkLoop_lit _ _ _ _ _ h1 h2 h3, matchChunkLoop_lit _ _ _ _ _ h1 h2 h3]
              split <;> exact ih fuel2 chunk1 _ _ (by omega) (by omega)

theorem matchChunk_indep (chunk s s2 : GoString) (e : Error)
    (h : matchChunk chunk s = .error e) : matchChunk chunk s2 = .error e :=
  matchChunkLoop_indep _ _ _ _ _ _ e h

theorem matchChunk_ok_indep (chunk s s2 : GoString) (r : Option GoString)
    (h : matchChunk chunk s = .ok r) : ∃ r2, matchChunk chunk s2 = .ok r2 := by
  cases h2 : matchChunk chunk s2 with
  | ok r2 => exact ⟨r2, rfl⟩
  | error e =>
    have := matchChunk_indep chunk s2 s e h2
    rw [h] at this
    simp at this

theorem starLoop_ok (chunk : GoString) (last : Bool) (s0 : GoString) (r0 : Option GoString)
    (h : matchChunk chunk s0 = .ok r0) :
    ∀ name, ∃ r, starLoop chunk last name = .ok r := by
  intro name
  induction name with
  | nil => exact ⟨none, rfl⟩
  | cons c tail ih =>
    simp only [starLoop]
    split
    · exact ⟨none, rfl⟩
    · obtain ⟨r2, hr2⟩ := matchChunk_ok_indep chunk s0 tail r0 h
      rw [hr2]
      cases r2 with
      | none => exact ih
      | some t =>
        simp only []
        split
        · exact ih
        · exact ⟨some t, rfl⟩

end path

namespace path

theorem scanLoop_pos (c : Char) (rest : GoString) (hc : c ≠ '*') :
    0 < scanLoop (c :: rest) false := by
  unfold scanLoop
  split
  · cases rest <;> simp
  · split
    · omega
    · split
      · omega
      · omega

theorem dropWhile_star_head (pattern : GoString) (c : Char) (rest : GoString)
    (h : pattern.dropWhile (fun c => decide (c = '*')) = c :: rest) : c ≠ '*' := by
  have h1 := List.head_dropWhile_not (fun c => decide (c = '*')) pattern (by simp [h])
  simpa [h] using h1

/-- Every round of the pattern loop consumes a part of the pattern. -/
theorem scanChunk_rest_length (pattern : GoString) (hp : pattern ≠ []) :
    (scanChunk pattern).2.2.length < pattern.length := by
  simp only [scanChunk, List.length_drop]
  cases hd : pattern.dropWhile (fun c => decide (c = '*')) with
  | nil =>
    have : 0 < pattern.length := List.length_pos.mpr hp
    simp
    exact this
  | cons c rest =>
    have hc := dropWhile_star_head pattern c rest hd
    have h1 := scanLoop_pos c rest hc
    have h2 : (c :: rest).length ≤ pattern.length := by
      rw [← hd]
      exact (List.dropWhile_sublist _).length_le
    have h3 : 0 < (c :: rest).length := by simp
    omega

/-- An empty chunk ends the pattern. -/
theorem scanChunk_chunk_nil (pattern : GoString) (h : (scanChunk pattern).2.1 = []) :
    (scanChunk pattern).2.2 = [] := by
  simp only [scanChunk] at h ⊢
  cases hd : pattern.dropWhile (fun c => decide (c = '*')) with
  | nil => simp
  | cons c rest =>
    rw [hd] at h
    have hc := dropWhile_star_head pattern c rest hd
    have h1 := scanLoop_pos c rest hc
    rw [List.take_eq_nil_iff] at h
    rcases h with h | h
    · omega
    · simp at h

theorem checkRest_succ (fuel : Nat) (pattern : GoString) :
    checkRest (fuel + 1) pattern =
      if pattern = [] then none
      else
        match matchChunk (scanChunk pattern).2.1 [] with
        | .error e => some e
        | .ok _ => checkRest fuel (scanChunk pattern).2.2 := rfl

theorem matchLoop_succ (fuel : Nat) (pattern name : GoString) :
    matchLoop (fuel + 1) pattern name =
      if pattern = [] then (decide (name = []), none)
      else
        if (scanChunk pattern).1 = true ∧ (scanChunk pattern).2.1 = [] then
          (decide ('/' ∉ name), none)
        else
          match matchChunk (scanChunk pattern).2.1 name with
          | .error e => (false, some e)
          | .ok r =>
            match (match r with
                | some t => if t = [] ∨ (scanChunk pattern).2.2 ≠ [] then some t else none
                | none => none) with
            | some t => matchLoop fuel (scanChunk pattern).2.2 t
            | none =>
              match (if (scanChunk pattern).1 = true then
                  starLoop (scanChunk pattern).2.1 (decide ((scanChunk pattern).2.2 = [])) name
                  else .ok none) with
              | .error e => (false, some e)
              | .ok (some t) => matchLoop fuel (scanChunk pattern).2.2 t
              | .ok none => (false, checkRest fuel (scanChunk pattern).2.2) := rfl

/-- Enough fuel for the syntax check of the rest of the pattern. -/
theorem checkRest_fuel : ∀ (fuel fuel2 : Nat) (pattern : GoString),
    pattern.length < fuel → pattern.length < fuel2 →
    checkRest fuel pattern = checkRest fuel2 pattern := by
  intro fuel
  induction fuel with
  | zero => intro fuel2 pattern h; omega
  | succ fuel ih =>
    intro fuel2 pattern hf hf2
    cases fuel2 with
    | zero => omega
    | succ fuel2 =>
      rw [checkRest_succ, checkRest_succ]
      by_cases hp : pattern = []
      · rw [if_pos hp, if_pos hp]
      · rw [if_neg hp, if_neg hp]
        have hl := scanChunk_rest_length pattern hp
        cases matchChunk (scanChunk pattern).2.1 [] with
        | error e => rfl
        | ok r => exact ih fuel2 _ (by omega) (by omega)

/-- Enough fuel: the pattern loop gives the same result with any fuel above
the length of the pattern, so `Match` never stops for lack of fuel. -/
theorem matchLoop_fuel : ∀ (fuel fuel2 : Nat) (pattern name : GoString),
    pattern.length < fuel → pattern.length < fuel2 →
    matchLoop fuel pattern name = matchLoop fuel2 pattern name := by
  intro fuel
  induction fuel with
  | zero => intro fuel2 pattern name h; omega
  | succ fuel ih =>
    intro fuel2 pattern name hf hf2
    cases fuel2 with
    | zero => omega
    | succ fuel2 =>
      rw [matchLoop_succ, matchLoop_succ]
      by_cases hp : pattern = []
      · rw [if_pos hp, if_pos hp]
      · rw [if_neg hp, if_neg hp]
        have hl := scanChunk_rest_length pattern hp
        have hrec : ∀ t, matchLoop fuel (scanChunk pattern).2.2 t
            = matchLoop fuel2 (scanChunk pattern).2.2 t :=
          fun t => ih fuel2 _ t (by omega) (by omega)
        have hchk : checkRest fuel (scanChunk pattern).2.2
            = checkRest fuel2 (scanChunk pattern).2.2 :=
          checkRest_fuel fuel fuel2 _ (by omega) (by omega)
        simp only [hrec, hchk]

/-- The error of the pattern loop is the one the syntax check of the pattern
finds: it does not depend on the name. -/
theorem matchLoop_err : ∀ (fuel : Nat) (pattern name : GoString),
    (matchLoop fuel pattern name).2 = checkRest fuel pattern := by
  intro fuel
  induction fuel with
  | zero => intro pattern name; rfl
  | succ fuel ih =>
    intro pattern name
    rw [matchLoop_succ, checkRest_succ]
    by_cases hp : pattern = []
    · rw [if_pos hp, if_pos hp]
    · rw [if_neg hp, if_neg hp]
      by_cases hs : (scanChunk pattern).1 = true ∧ (scanChunk pattern).2.1 = []
      · rw [if_pos hs, hs.2, scanChunk_chunk_nil pattern hs.2]
        have : matchChunk [] [] = .ok (some []) := rfl
        rw [this]
        cases fuel <;> rfl
      · rw [if_neg hs]
        cases hm : matchChunk (scanChunk pattern).2.1 name with
        | error e =>
          rw [matchChunk_indep _ _ [] e hm]
        | ok r =>
          obtain ⟨r2, hr2⟩ := matchChunk_ok_indep _ _ [] r hm
          rw [hr2]
          simp only []
          split
          · exact ih _ _
          · obtain ⟨r3, hr3⟩ := starLoop_ok (scanChunk pattern).2.1
              (decide ((scanChunk pattern).2.2 = [])) name r hm name
            by_cases hst : (scanChunk pattern).1 = true
            · rw [if_pos hst, hr3]
              cases r3 with
              | none => rfl
              | some t => exact ih _ _
            · rw [if_neg hst]

/-- With an error the pattern loop reports no match. -/
theorem matchLoop_err_false : ∀ (fuel : Nat) (pattern name : GoString),
    (matchLoop fuel pattern name).2 ≠ none → (matchLoop fuel pattern name).1 = false := by
  intro fuel
  induction fuel with
  | zero => intro pattern name h; rfl
  | succ fuel ih =>
    intro pattern name
    rw [matchLoop_succ]
    by_cases hp : pattern = []
    · rw [if_pos hp]; intro h; exact absurd rfl h
    · rw [if_neg hp]
      by_cases hs : (scanChunk pattern).1 = true ∧ (scanChunk pattern).2.1 = []
      · rw [if_pos hs]; intro h; exact absurd rfl h
      · rw [if_neg hs]
        cases hm : matchChunk (scanChunk pattern).2.1 name with
        | error e => intro _; rfl
        | ok r =>
          simp only []
          split
          · exact ih _ _
          · split
            · intro _; rfl
            · exact ih _ _
            · intro _; rfl

end path

namespace path

/-! ## Glob matching -/

theorem Glob_nil_iff (s : GoString) : Glob [] s ↔ s = [] := by
  constructor
  · intro h; cases h; rfl
  · intro h; subst h; exact Glob.nil

theorem Glob_star_iff (is : List Item) (s : GoString) :
    Glob (.star :: is) s ↔ ∃ a b, s = a ++ b ∧ '/' ∉ a ∧ Glob is b := by
  constructor
  · intro h
    cases h with
    | star a s is ha hg => exact ⟨a, s, rfl, ha, hg⟩
    | one i d s is hacc hg => simp [Item.accepts] at hacc
  · rintro ⟨a, b, rfl, ha, hg⟩
    exact Glob.star a b is ha hg

theorem Glob_one_iff (i : Item) (is : List Item) (s : GoString) (hi : i ≠ .star) :
    Glob (i :: is) s ↔ ∃ d t, s = d :: t ∧ i.accepts d = true ∧ Glob is t := by
  constructor
  · intro h
    cases h with
    | star a s is ha hg => exact absurd rfl hi
    | one i d s is hacc hg => exact ⟨d, s, rfl, hacc, hg⟩
  · rintro ⟨d, t, rfl, hacc, hg⟩
    exact Glob.one i d t is hacc hg

/-- A star takes up any run without a slash in front of what it matches. -/
theorem Glob_absorb (is : List Item) (s x : GoString) (h : Glob (.star :: is) s)
    (hx : '/' ∉ x) : Glob (.star :: is) (x ++ s) := by
  obtain ⟨a, b, rfl, ha, hg⟩ := (Glob_star_iff is s).mp h
  rw [← List.append_assoc]
  exact Glob.star (x ++ a) b is (by simp [hx, ha]) hg

theorem Glob_stars (k : Nat) (is : List Item) (s : GoString) :
    Glob (List.replicate (k + 1) .star ++ is) s ↔ Glob (.star :: is) s := by
  induction k generalizing s with
  | zero => rfl
  | succ k ih =>
    rw [List.replicate_succ, List.cons_append]
    rw [Glob_star_iff]
    constructor
    · rintro ⟨a, b, rfl, ha, hg⟩
      exact Glob_absorb is b a ((ih b).mp hg) ha
    · intro h
      exact ⟨[], s, rfl, by simp, (ih s).mpr h⟩

theorem Glob_only_star (s : GoString) : Glob [.star] s ↔ '/' ∉ s := by
  rw [Glob_star_iff]
  constructor
  · rintro ⟨a, b, rfl, ha, hg⟩
    rw [(Glob_nil_iff b).mp hg]
    simpa using ha
  · intro h
    exact ⟨s, [], by simp, h, Glob.nil⟩

/-- Items without a star match at one place only, byte by byte: the items
match the text when they accept the first bytes one by one and the rest of
the items matches the text left. -/
theorem Glob_chunk (cis : List Item) (hc : ∀ i ∈ cis, i ≠ .star) (ris : List Item) :
    ∀ s, Glob (cis ++ ris) s ↔
      ∃ m t, s = m ++ t ∧ List.Forall₂ (fun i d => i.accepts d = true) cis m ∧ Glob ris t := by
  induction cis with
  | nil =>
    intro s
    constructor
    · intro h
      exact ⟨[], s, rfl, List.Forall₂.nil, h⟩
    · rintro ⟨m, t, rfl, hm, hg⟩
      cases hm
      exact hg
  | cons i is ih =>
    intro s
    have hi : i ≠ .star := hc i (List.mem_cons_self _ _)
    have hc2 : ∀ j ∈ is, j ≠ .star := fun j hj => hc j (List.mem_cons_of_mem _ hj)
    rw [List.cons_append, Glob_one_iff i _ s hi]
    constructor
    · rintro ⟨d, t, rfl, hacc, hg⟩
      obtain ⟨m, t2, rfl, hm, hg2⟩ := (ih hc2 t).mp hg
      exact ⟨d :: m, t2, rfl, List.Forall₂.cons hacc hm, hg2⟩
    · rintro ⟨m, t, rfl, hm, hg⟩
      cases hm with
      | cons hacc hm2 =>
        rename_i d m2
        exact ⟨d, m2 ++ t, rfl, hacc, (ih hc2 _).mpr ⟨m2, t, rfl, hm2, hg⟩⟩

/-- Moving a run of items to an earlier place, over a run without a slash,
leaves that much more text without a slash. -/
theorem accepts_shift (cis : List Item)
    (hS : ∀ i ∈ cis, i.accepts '/' = true → ∃ c, i = .lit c) :
    ∀ (y m1 m2 t1 t2 : GoString), '/' ∉ y →
      List.Forall₂ (fun i d => i.accepts d = true) cis m1 →
      List.Forall₂ (fun i d => i.accepts d = true) cis m2 →
      y ++ (m2 ++ t2) = m1 ++ t1 → ∃ x, t1 = x ++ t2 ∧ '/' ∉ x := by
  induction cis with
  | nil =>
    intro y m1 m2 t1 t2 hy h1 h2 heq
    cases h1
    cases h2
    exact ⟨y, by simpa using heq.symm, hy⟩
  | cons i is ih =>
    intro y m1 m2 t1 t2 hy h1 h2 heq
    have hS2 : ∀ j ∈ is, j.accepts '/' = true → ∃ c, j = .lit c :=
      fun j hj => hS j (List.mem_cons_of_mem _ hj)
    cases h1 with
    | cons hacc1 h1' =>
      rename_i e1 m1'
      cases h2 with
      | cons hacc2 h2' =>
        rename_i d m2'
        cases y with
        | nil =>
          simp only [List.nil_append, List.cons_append, List.cons.injEq] at heq
          exact ih hS2 [] m1' m2' t1 t2 (by simp) h1' h2' (by simpa using heq.2)
        | cons e y1 =>
          simp only [List.cons_append, List.cons.injEq] at heq
          obtain ⟨he, heq2⟩ := heq
          subst he
          have hne : e ≠ '/' := fun h => hy (by simp [h])
          have hy1 : '/' ∉ y1 := fun h => hy (List.mem_cons_of_mem _ h)
          have hd : d ≠ '/' := by
            intro hd
            subst hd
            obtain ⟨c, hc⟩ := hS i (List.mem_cons_self _ _) hacc2
            subst hc
            simp only [Item.accepts, decide_eq_true_eq] at hacc1 hacc2
            exact hne (hacc1.trans hacc2.symm)
          have heq3 : (y1 ++ [d]) ++ (m2' ++ t2) = m1' ++ t1 := by
            simpa using heq2
          exact ih hS2 (y1 ++ [d]) m1' m2' t1 t2 (by simp [hy1, Ne.symm hd]) h1' h2' heq3

end path

namespace path

/-! ## `path.Match` on well-formed patterns -/

/-! ### Character classes -/

theorem ClassChar_ne_nil (t : GoString) (r : Nat) (h : ClassChar t r) :
    ∃ c rest, t = c :: rest ∧ c ≠ '-' ∧ c ≠ ']' := by
  cases h with
  | plain c h1 h2 _ _ => exact ⟨c, [], rfl, h1, h2⟩
  | esc c _ => exact ⟨'\\', [c], rfl, by decide, by decide⟩

theorem ClassRange_ne_nil (t : GoString) (rg : Nat × Nat) (h : ClassRange t rg) :
    ∃ c rest, t = c :: rest ∧ c ≠ '-' ∧ c ≠ ']' := by
  cases h with
  | one t r h1 => exact ClassChar_ne_nil t r h1
  | range t1 lo t2 hi h1 _ =>
    obtain ⟨c, rest, rfl, hc1, hc2⟩ := ClassChar_ne_nil t1 lo h1
    exact ⟨c, rest ++ '-' :: t2, rfl, hc1, hc2⟩

theorem ClassRanges_ne_nil (t : GoString) (rgs : List (Nat × Nat)) (h : ClassRanges t rgs) :
    ∃ c rest, t = c :: rest ∧ c ≠ '-' ∧ c ≠ ']' := by
  cases h with
  | one t rg h1 => exact ClassRange_ne_nil t rg h1
  | cons t rg ts rgs h1 _ =>
    obtain ⟨c, rest, rfl, hc1, hc2⟩ := ClassRange_ne_nil t rg h1
    exact ⟨c, rest ++ ts, rfl, hc1, hc2⟩

theorem getEsc_classChar (t : GoString) (r : Nat) (h : ClassChar t r) (more : GoString)
    (hm : more ≠ []) : getEsc (t ++ more) = .ok (r, more) := by
  cases h with
  | plain c h1 h2 h3 h4 =>
    have hd := utf8_ascii c more h4
    have hr : ¬ (c.toNat = utf8.RuneError) := by
      intro h
      have : utf8.RuneError = 0xFFFD := rfl
      omega
    simp [getEsc, h1, h2, h3, hd, hm, hr]
  | esc c h4 =>
    have hd := utf8_ascii c more h4
    have hr : ¬ (c.toNat = utf8.RuneError) := by
      intro h
      have : utf8.RuneError = 0xFFFD := rfl
      omega
    simp [getEsc, hd, hm, hr]

/-- One round of the class loop reads one range. -/
theorem classLoop_range (t : GoString) (rg : Nat × Nat) (h : ClassRange t rg)
    (more : GoString) (hm : more ≠ []) (hd : more.head? ≠ some '-')
    (fuel : Nat) (r : Nat) (m : Bool) (nrange : Nat) :
    classLoop (fuel + 1) (t ++ more) r m nrange
      = classLoop fuel more r (m || (decide (rg.1 ≤ r) && decide (r ≤ rg.2))) (nrange + 1) := by
  obtain ⟨c, rest, ht, hc1, hc2⟩ := ClassRange_ne_nil t rg h
  have hexit : ¬ ((t ++ more).head? = some ']' ∧ nrange > 0) := by
    rw [ht]
    simp [hc2]
  rw [classLoop_succ, if_neg hexit]
  cases h with
  | one t r0 h1 =>
    rw [getEsc_classChar t r0 h1 more hm]
    simp only []
    rw [if_neg hd]
  | range t1 lo t2 hi h1 h2 =>
    have e1 : (t1 ++ '-' :: t2) ++ more = t1 ++ ('-' :: (t2 ++ more)) := by simp
    rw [e1, getEsc_classChar t1 lo h1 _ (by simp)]
    simp only [List.head?_cons, if_true, List.tail_cons]
    rw [getEsc_classChar t2 hi h2 more hm]

/-- The class loop on the text of a class: whether the rune is in one of the
ranges, and the chunk after the closing bracket. -/
theorem classLoop_ranges (body : GoString) (rgs : List (Nat × Nat)) (h : ClassRanges body rgs) :
    ∀ (tail : GoString) (fuel : Nat) (r : Nat) (m : Bool) (nrange : Nat),
      body.length < fuel →
      classLoop fuel (body ++ ']' :: tail) r m nrange = .ok (m || inRanges rgs r, tail) := by
  induction h with
  | one t rg h1 =>
    intro tail fuel r m nrange hf
    obtain ⟨c, rest, ht, _, _⟩ := ClassRange_ne_nil t rg h1
    have hl : 1 ≤ t.length := by rw [ht]; simp
    obtain ⟨f1, rfl⟩ : ∃ f1, fuel = f1 + 1 := ⟨fuel - 1, by omega⟩
    obtain ⟨f2, rfl⟩ : ∃ f2, f1 = f2 + 1 := ⟨f1 - 1, by omega⟩
    rw [classLoop_range t rg h1 _ (by simp) (by simp), classLoop_succ]
    simp [inRanges]
  | cons t rg ts rgs h1 h2 ih =>
    intro tail fuel r m nrange hf
    obtain ⟨c, rest, ht, _, _⟩ := ClassRange_ne_nil t rg h1
    obtain ⟨c2, rest2, hts, hc21, _⟩ := ClassRanges_ne_nil ts rgs h2
    have hl : 1 ≤ t.length := by rw [ht]; simp
    simp only [List.length_append] at hf
    obtain ⟨f1, rfl⟩ : ∃ f1, fuel = f1 + 1 := ⟨fuel - 1, by omega⟩
    have e1 : (t ++ ts) ++ ']' :: tail = t ++ (ts ++ ']' :: tail) := by simp
    rw [e1, classLoop_range t rg h1 _ (by simp) (by rw [hts]; simp [hc21]),
      ih tail f1 r _ _ (by omega)]
    simp [inRanges, Bool.or_assoc]

/-! ### Scanning a chunk -/

theorem scanLoop_cons_true (c : Char) (rest : GoString) (h1 : c ≠ '\\') (h2 : c ≠ ']') :
    scanLoop (c :: rest) true = 1 + scanLoop rest true := by
  conv_lhs => unfold scanLoop
  rw [if_neg h1]
  by_cases h3 : c = '['
  · rw [if_pos h3]
  · rw [if_neg h3, if_neg h2]
    by_cases h4 : c = '*'
    · rw [if_pos h4]; rfl
    · rw [if_neg h4]

theorem scanLoop_esc (c : Char) (rest : GoString) (b : Bool) :
    scanLoop ('\\' :: c :: rest) b = 2 + scanLoop rest b := by
  conv_lhs => unfold scanLoop
  simp

theorem scanLoop_classChar (t : GoString) (r : Nat) (h : ClassChar t r) (more : GoString) :
    scanLoop (t ++ more) true = t.length + scanLoop more true := by
  cases h with
  | plain c h1 h2 h3 _ =>
    simp only [List.singleton_append, List.length_singleton]
    exact scanLoop_cons_true c more h3 h2
  | esc c _ =>
    simp only [List.cons_append, List.nil_append, List.length_cons, List.length_nil]
    exact scanLoop_esc c more true

theorem scanLoop_classRange (t : GoString) (rg : Nat × Nat) (h : ClassRange t rg)
    (more : GoString) : scanLoop (t ++ more) true = t.length + scanLoop more true := by
  cases h with
  | one t r h1 => exact scanLoop_classChar t r h1 more
  | range t1 lo t2 hi h1 h2 =>
    have e1 : (t1 ++ '-' :: t2) ++ more = t1 ++ ('-' :: (t2 ++ more)) := by simp
    rw [e1, scanLoop_classChar t1 lo h1, scanLoop_cons_true '-' _ (by decide) (by decide),
      scanLoop_classChar t2 hi h2]
    simp only [List.length_append, List.length_cons]
    omega

theorem scanLoop_classRanges (body : GoString) (rgs : List (Nat × Nat))
    (h : ClassRanges body rgs) (more : GoString) :
    scanLoop (body ++ more) true = body.length + scanLoop more true := by
  induction h with
  | one t rg h1 => exact scanLoop_classRange t rg h1 more
  | cons t rg ts rgs h1 _ ih =>
    rw [List.append_assoc, scanLoop_classRange t rg h1, ih]
    simp only [List.length_append]
    omega

theorem scanLoop_close (rest : GoString) (b : Bool) :
    scanLoop (']' :: rest) b = 1 + scanLoop rest false := by
  conv_lhs => unfold scanLoop
  simp

theorem scanLoop_open (rest : GoString) (b : Bool) :
    scanLoop ('[' :: rest) b = 1 + scanLoop rest true := by
  conv_lhs => unfold scanLoop
  simp

theorem scanLoop_plain (c : Char) (rest : GoString) (h1 : c ≠ '\\') (h2 : c ≠ '[')
    (h3 : c ≠ '*') : scanLoop (c :: rest) false = 1 + scanLoop rest false := by
  conv_lhs => unfold scanLoop
  rw [if_neg h1, if_neg h2]
  by_cases h4 : c = ']'
  · rw [if_pos h4]
  · rw [if_neg h4, if_neg h3]

theorem scanLoop_stop (rest : GoString) (h : rest = [] ∨ ∃ r, rest = '*' :: r) :
    scanLoop rest false = 0 := by
  rcases h with h | ⟨r, h⟩
  · subst h; rfl
  · subst h
    unfold scanLoop
    simp

/-- The scan of a pattern stops at the end of a run of items without a star
that is followed by a star or by the end of the pattern. -/
theorem scanLoop_chunk (chunk : GoString) (cis : List Item) (h : Parses chunk cis)
    (hc : ∀ i ∈ cis, i ≠ .star) (rest : GoString) (hr : rest = [] ∨ ∃ r, rest = '*' :: r) :
    scanLoop (chunk ++ rest) false = chunk.length := by
  induction h with
  | nil => simpa using scanLoop_stop rest hr
  | star p is _ _ => exact absurd rfl (hc .star (List.mem_cons_self _ _))
  | any p is _ ih =>
    have := ih (fun i hi => hc i (List.mem_cons_of_mem _ hi))
    rw [List.cons_append, scanLoop_plain '?' _ (by decide) (by decide) (by decide), this]
    simp only [List.length_cons]
    omega
  | esc c p is _ ih =>
    have := ih (fun i hi => hc i (List.mem_cons_of_mem _ hi))
    rw [List.cons_append, List.cons_append, scanLoop_esc, this]
    simp only [List.length_cons]
    omega
  | lit c p is h1 h2 h3 h4 _ ih =>
    have := ih (fun i hi => hc i (List.mem_cons_of_mem _ hi))
    rw [List.cons_append, scanLoop_plain c _ h3 h4 h1, this]
    simp only [List.length_cons]
    omega
  | cls body rgs p is hb hrg _ ih =>
    have := ih (fun i hi => hc i (List.mem_cons_of_mem _ hi))
    have e1 : ('[' :: (body ++ ']' :: p)) ++ rest = '[' :: (body ++ (']' :: (p ++ rest))) := by
      simp
    rw [e1, scanLoop_open, scanLoop_classRanges body rgs hrg, scanLoop_close, this]
    simp only [List.length_cons, List.length_append]
    omega
  | ncls body rgs p is hrg _ ih =>
    have := ih (fun i hi => hc i (List.mem_cons_of_mem _ hi))
    have e1 : ('[' :: '^' :: (body ++ ']' :: p)) ++ rest
        = '[' :: '^' :: (body ++ (']' :: (p ++ rest))) := by simp
    rw [e1, scanLoop_open, scanLoop_cons_true '^' _ (by decide) (by decide),
      scanLoop_classRanges body rgs hrg, scanLoop_close, this]
    simp only [List.length_cons, List.length_append]
    omega

end path

namespace path

/-! ### Matching a chunk -/

theorem head_body (body : GoString) (rgs : List (Nat × Nat)) (h : ClassRanges body rgs)
    (more : GoString) : (body ++ more).head? = body.head? := by
  obtain ⟨c, rest, ht, _, _⟩ := ClassRanges_ne_nil body rgs h
  rw [ht]
  rfl

theorem matchChunkLoop_cls (fuel : Nat) (body : GoString) (rgs : List (Nat × Nat))
    (p s : GoString) (failed0 : Bool) (hb : body.head? ≠ some '^')
    (h : ClassRanges body rgs) (hf : body.length < fuel) :
    matchChunkLoop (fuel + 1) ('[' :: (body ++ ']' :: p)) s failed0 =
      matchChunkLoop fuel p
        (if (failed0 || s.isEmpty) = true then s else s.drop (utf8.DecodeRuneInString s).2)
        ((failed0 || s.isEmpty) || !(inRanges rgs
          (if (failed0 || s.isEmpty) = true then 0 else (utf8.DecodeRuneInString s).1))) := by
  rw [matchChunkLoop_class]
  have hneg : decide ((body ++ ']' :: p).head? = some '^') = false := by
    rw [head_body body rgs h]
    simpa using hb
  simp only [hneg, Bool.false_eq_true, if_false]
  rw [classLoop_ranges body rgs h p fuel _ false 0 hf]
  simp only [Bool.false_or]
  congr 1
  cases inRanges rgs _ <;> rfl

theorem matchChunkLoop_ncls (fuel : Nat) (body : GoString) (rgs : List (Nat × Nat))
    (p s : GoString) (failed0 : Bool)
    (h : ClassRanges body rgs) (hf : body.length < fuel) :
    matchChunkLoop (fuel + 1) ('[' :: '^' :: (body ++ ']' :: p)) s failed0 =
      matchChunkLoop fuel p
        (if (failed0 || s.isEmpty) = true then s else s.drop (utf8.DecodeRuneInString s).2)
        ((failed0 || s.isEmpty) || (inRanges rgs
          (if (failed0 || s.isEmpty) = true then 0 else (utf8.DecodeRuneInString s).1))) := by
  rw [matchChunkLoop_class]
  simp only [List.head?_cons, decide_True, if_true, List.tail_cons]
  rw [classLoop_ranges body rgs h p fuel _ false 0 hf]
  simp only [Bool.false_or]
  congr 1
  cases inRanges rgs _ <;> rfl

/-- After a failure the chunk matcher only checks the chunk; a well-formed
chunk gives no error. -/
theorem matchChunkLoop_parses_failed (chunk : GoString) (cis : List Item)
    (h : Parses chunk cis) (hc : ∀ i ∈ cis, i ≠ .star) :
    ∀ (s : GoString) (fuel : Nat), chunk.length < fuel →
      matchChunkLoop fuel chunk s true = .ok none := by
  induction h with
  | nil =>
    intro s fuel hf
    obtain ⟨f1, rfl⟩ : ∃ f1, fuel = f1 + 1 := ⟨fuel - 1, by simp at hf; omega⟩
    rfl
  | star p is _ _ => exact absurd rfl (hc .star (List.mem_cons_self _ _))
  | any p is _ ih =>
    intro s fuel hf
    simp only [List.length_cons] at hf
    obtain ⟨f1, rfl⟩ : ∃ f1, fuel = f1 + 1 := ⟨fuel - 1, by omega⟩
    rw [matchChunkLoop_any]
    simp only [Bool.true_or, if_true]
    exact ih (fun i hi => hc i (List.mem_cons_of_mem _ hi)) s f1 (by omega)
  | esc c p is _ ih =>
    intro s fuel hf
    simp only [List.length_cons] at hf
    obtain ⟨f1, rfl⟩ : ∃ f1, fuel = f1 + 1 := ⟨fuel - 1, by omega⟩
    rw [matchChunkLoop_esc]
    simp only [Bool.true_or, if_true]
    exact ih (fun i hi => hc i (List.mem_cons_of_mem _ hi)) s f1 (by omega)
  | lit c p is h1 h2 h3 h4 _ ih =>
    intro s fuel hf
    simp only [List.length_cons] at hf
    obtain ⟨f1, rfl⟩ : ∃ f1, fuel = f1 + 1 := ⟨fuel - 1, by omega⟩
    rw [matchChunkLoop_lit _ _ _ _ _ h4 h2 h3]
    simp only [Bool.true_or, if_true]
    exact ih (fun i hi => hc i (List.mem_cons_of_mem _ hi)) s f1 (by omega)
  | cls body rgs p is hb hrg _ ih =>
    intro s fuel hf
    simp only [List.length_cons, List.length_append] at hf
    obtain ⟨f1, rfl⟩ : ∃ f1, fuel = f1 + 1 := ⟨fuel - 1, by omega⟩
    rw [matchChunkLoop_cls f1 body rgs p s true hb hrg (by omega)]
    simp only [Bool.true_or, if_true]
    exact ih (fun i hi => hc i (List.mem_cons_of_mem _ hi)) s f1 (by omega)
  | ncls body rgs p is hrg _ ih =>
    intro s fuel hf
    simp only [List.length_cons, List.length_append] at hf
    obtain ⟨f1, rfl⟩ : ∃ f1, fuel = f1 + 1 := ⟨fuel - 1, by omega⟩
    rw [matchChunkLoop_ncls f1 body rgs p s true hrg (by omega)]
    simp only [Bool.true_or, if_true]
    exact ih (fun i hi => hc i (List.mem_cons_of_mem _ hi)) s f1 (by omega)

theorem item_step_nil (i : Item) (is : List Item) (res : Except Error (Option GoString))
    (h0 : res = .ok none) :
    ∃ r, res = .ok r
      ∧ ∀ t, r = some t ↔
          ∃ m, ([] : GoString) = m ++ t
            ∧ List.Forall₂ (fun i d => i.accepts d = true) (i :: is) m := by
  refine ⟨none, h0, ?_⟩
  intro t
  constructor
  · intro h; simp at h
  · rintro ⟨m, hm, hf⟩
    cases hf
    simp at hm

/-- One item of a chunk that stands for one byte: the chunk matcher goes on
with the rest of the chunk and of the text, failed when the item does not
accept the byte. -/
theorem item_step_cons (i : Item) (is : List Item) (p : GoString) (d : Char) (s1 : GoString)
    (fuel : Nat) (hp : matchChunkLoop fuel p s1 true = .ok none)
    (hq : ∃ r, matchChunkLoop fuel p s1 false = .ok r
      ∧ ∀ t, r = some t ↔ ∃ m, s1 = m ++ t ∧ List.Forall₂ (fun i d => i.accepts d = true) is m)
    (res : Except Error (Option GoString))
    (h1 : res = matchChunkLoop fuel p s1 (!(i.accepts d))) :
    ∃ r, res = .ok r
      ∧ ∀ t, r = some t ↔
          ∃ m, d :: s1 = m ++ t
            ∧ List.Forall₂ (fun i d => i.accepts d = true) (i :: is) m := by
  rw [h1]
  cases hacc : i.accepts d with
  | false =>
    refine ⟨none, by simpa using hp, ?_⟩
    intro t
    constructor
    · intro h; simp at h
    · rintro ⟨m, hm, hf⟩
      cases hf with
      | cons ha _ =>
        simp only [List.cons_append, List.cons.injEq] at hm
        rw [← hm.1, hacc] at ha
        simp at ha
  | true =>
    obtain ⟨r, hr1, hr2⟩ := hq
    refine ⟨r, by simpa using hr1, ?_⟩
    intro t
    rw [hr2 t]
    constructor
    · rintro ⟨m, hm, hf⟩
      exact ⟨d :: m, by simp [hm], List.Forall₂.cons hacc hf⟩
    · rintro ⟨m, hm, hf⟩
      cases hf with
      | cons ha hf2 =>
        rename_i d2 m2
        simp only [List.cons_append, List.cons.injEq] at hm
        exact ⟨m2, hm.2, hf2⟩

/-- The chunk matcher on a well-formed chunk: no error, and the text left
is `t` exactly when the items accept, byte by byte, the text before `t`.
The text is ASCII, or the chunk has literals only. -/
theorem matchChunkLoop_parses (chunk : GoString) (cis : List Item)
    (h : Parses chunk cis) (hc : ∀ i ∈ cis, i ≠ .star) :
    ∀ (s : GoString) (fuel : Nat), chunk.length < fuel →
      ((∀ c ∈ s, c.toNat < 128) ∨ (∀ i ∈ cis, ∃ c, i = .lit c)) →
      ∃ r, matchChunkLoop fuel chunk s false = .ok r
        ∧ ∀ t, r = some t ↔
            ∃ m, s = m ++ t ∧ List.Forall₂ (fun i d => i.accepts d = true) cis m := by
  induction h with
  | nil =>
    intro s fuel hf _
    obtain ⟨f1, rfl⟩ : ∃ f1, fuel = f1 + 1 := ⟨fuel - 1, by simp at hf; omega⟩
    refine ⟨some s, rfl, ?_⟩
    intro t
    constructor
    · intro h
      simp only [Option.some.injEq] at h
      exact ⟨[], by simp [h], List.Forall₂.nil⟩
    · rintro ⟨m, hm, hf⟩
      cases hf
      simp [hm]
  | star p is _ _ => exact absurd rfl (hc .star (List.mem_cons_self _ _))
  | any p is hp ih =>
    intro s fuel hf hH
    have hc2 : ∀ i ∈ is, i ≠ .star := fun i hi => hc i (List.mem_cons_of_mem _ hi)
    simp only [List.length_cons] at hf
    obtain ⟨f1, rfl⟩ : ∃ f1, fuel = f1 + 1 := ⟨fuel - 1, by omega⟩
    have hA : ∀ c ∈ s, c.toNat < 128 := by
      rcases hH with hH | hH
      · exact hH
      · obtain ⟨c, hc⟩ := hH .any (List.mem_cons_self _ _)
        cases hc
    cases s with
    | nil =>
      apply item_step_nil
      rw [matchChunkLoop_any]
      simp only [Bool.false_or, List.isEmpty_nil, if_true]
      exact matchChunkLoop_parses_failed p is hp hc2 [] f1 (by omega)
    | cons d s1 =>
      have hd : d.toNat < 128 := hA d (List.mem_cons_self _ _)
      apply item_step_cons .any is p d s1 f1
        (matchChunkLoop_parses_failed p is hp hc2 s1 f1 (by omega))
        (ih hc2 s1 f1 (by omega) (Or.inl (fun c hc => hA c (List.mem_cons_of_mem _ hc))))
      rw [matchChunkLoop_any, utf8_ascii d s1 hd]
      simp [Item.accepts]
  | esc c p is hp ih =>
    intro s fuel hf hH
    have hc2 : ∀ i ∈ is, i ≠ .star := fun i hi => hc i (List.mem_cons_of_mem _ hi)
    simp only [List.length_cons] at hf
    obtain ⟨f1, rfl⟩ : ∃ f1, fuel = f1 + 1 := ⟨fuel - 1, by omega⟩
    cases s with
    | nil =>
      apply item_step_nil
      rw [matchChunkLoop_esc]
      simp only [Bool.false_or, List.isEmpty_nil, if_true]
      exact matchChunkLoop_parses_failed p is hp hc2 [] f1 (by omega)
    | cons d s1 =>
      have hH1 : (∀ c ∈ s1, c.toNat < 128) ∨ (∀ i ∈ is, ∃ c, i = .lit c) := by
        rcases hH with hH | hH
        · exact Or.inl (fun c hc => hH c (List.mem_cons_of_mem _ hc))
        · exact Or.inr (fun i hi => hH i (List.mem_cons_of_mem _ hi))
      apply item_step_cons (.lit c) is p d s1 f1
        (matchChunkLoop_parses_failed p is hp hc2 s1 f1 (by omega))
        (ih hc2 s1 f1 (by omega) hH1)
      rw [matchChunkLoop_esc]
      simp [Item.accepts]
  | lit c p is h1 h2 h3 h4 hp ih =>
    intro s fuel hf hH
    have hc2 : ∀ i ∈ is, i ≠ .star := fun i hi => hc i (List.mem_cons_of_mem _ hi)
    simp only [List.length_cons] at hf
    obtain ⟨f1, rfl⟩ : ∃ f1, fuel = f1 + 1 := ⟨fuel - 1, by omega⟩
    cases s with
    | nil =>
      apply item_step_nil
      rw [matchChunkLoop_lit _ _ _ _ _ h4 h2 h3]
      simp only [Bool.false_or, List.isEmpty_nil, if_true]
      exact matchChunkLoop_parses_failed p is hp hc2 [] f1 (by omega)
    | cons d s1 =>
      have hH1 : (∀ c ∈ s1, c.toNat < 128) ∨ (∀ i ∈ is, ∃ c, i = .lit c) := by
        rcases hH with hH | hH
        · exact Or.inl (fun c hc => hH c (List.mem_cons_of_mem _ hc))
        · exact Or.inr (fun i hi => hH i (List.mem_cons_of_mem _ hi))
      apply item_step_cons (.lit c) is p d s1 f1
        (matchChunkLoop_parses_failed p is hp hc2 s1 f1 (by omega))
        (ih hc2 s1 f1 (by omega) hH1)
      rw [matchChunkLoop_lit _ _ _ _ _ h4 h2 h3]
      simp [Item.accepts]
  | cls body rgs p is hb hrg hp ih =>
    intro s fuel hf hH
    have hc2 : ∀ i ∈ is, i ≠ .star := fun i hi => hc i (List.mem_cons_of_mem _ hi)
    simp only [List.length_cons, List.length_append] at hf
    obtain ⟨f1, rfl⟩ : ∃ f1, fuel = f1 + 1 := ⟨fuel - 1, by omega⟩
    have hA : ∀ c ∈ s, c.toNat < 128 := by
      rcases hH with hH | hH
      · exact hH
      · obtain ⟨c, hc⟩ := hH (.cls false rgs) (List.mem_cons_self _ _)
        cases hc
    cases s with
    | nil =>
      apply item_step_nil
      rw [matchChunkLoop_cls f1 body rgs p [] false hb hrg (by omega)]
      simp only [Bool.false_or, List.isEmpty_nil, if_true, Bool.true_or]
      exact matchChunkLoop_parses_failed p is hp hc2 [] f1 (by omega)
    | cons d s1 =>
      have hd : d.toNat < 128 := hA d (List.mem_cons_self _ _)
      apply item_step_cons (.cls false rgs) is p d s1 f1
        (matchChunkLoop_parses_failed p is hp hc2 s1 f1 (by omega))
        (ih hc2 s1 f1 (by omega) (Or.inl (fun c hc => hA c (List.mem_cons_of_mem _ hc))))
      rw [matchChunkLoop_cls f1 body rgs p _ false hb hrg (by omega), utf8_ascii d s1 hd]
      simp [Item.accepts]
  | ncls body rgs p is hrg hp ih =>
    intro s fuel hf hH
    have hc2 : ∀ i ∈ is, i ≠ .star := fun i hi => hc i (List.mem_cons_of_mem _ hi)
    simp only [List.length_cons, List.length_append] at hf
    obtain ⟨f1, rfl⟩ : ∃ f1, fuel = f1 + 1 := ⟨fuel - 1, by omega⟩
    have hA : ∀ c ∈ s, c.toNat < 128 := by
      rcases hH with hH | hH
      · exact hH
      · obtain ⟨c, hc⟩ := hH (.cls true rgs) (List.mem_cons_self _ _)
        cases hc
    cases s with
    | nil =>
      apply item_step_nil
      rw [matchChunkLoop_ncls f1 body rgs p [] false hrg (by omega)]
      simp only [Bool.false_or, List.isEmpty_nil, if_true, Bool.true_or]
      exact matchChunkLoop_parses_failed p is hp hc2 [] f1 (by omega)
    | cons d s1 =>
      have hd : d.toNat < 128 := hA d (List.mem_cons_self _ _)
      apply item_step_cons (.cls true rgs) is p d s1 f1
        (matchChunkLoop_parses_failed p is hp hc2 s1 f1 (by omega))
        (ih hc2 s1 f1 (by omega) (Or.inl (fun c hc => hA c (List.mem_cons_of_mem _ hc))))
      rw [matchChunkLoop_ncls f1 body rgs p _ false hrg (by omega), utf8_ascii d s1 hd]
      simp [Item.accepts]

end path

namespace path

/-! ### The chunks of a well-formed pattern -/

/-- A well-formed pattern is a run of items without a star, followed by
nothing or by a star and a well-formed pattern. -/
theorem Parses_split (p : GoString) (is : List Item) (h : Parses p is) :
    ∃ chunk cis rest ris, p = chunk ++ rest ∧ is = cis ++ ris ∧ Parses chunk cis
      ∧ (∀ i ∈ cis, i ≠ .star) ∧ Parses rest ris
      ∧ ((rest = [] ∧ ris = []) ∨ ∃ r rs, rest = '*' :: r ∧ ris = .star :: rs) := by
  induction h with
  | nil => exact ⟨[], [], [], [], rfl, rfl, Parses.nil, by simp, Parses.nil, Or.inl ⟨rfl, rfl⟩⟩
  | star p is hp _ =>
    exact ⟨[], [], '*' :: p, .star :: is, rfl, rfl, Parses.nil, by simp, Parses.star p is hp,
      Or.inr ⟨p, is, rfl, rfl⟩⟩
  | any p is _ ih =>
    obtain ⟨chunk, cis, rest, ris, h1, h2, h3, h4, h5, h6⟩ := ih
    refine ⟨'?' :: chunk, .any :: cis, rest, ris, by simp [h1], by simp [h2],
      Parses.any chunk cis h3, ?_, h5, h6⟩
    intro i hi
    rcases List.mem_cons.mp hi with h | h
    · subst h; simp
    · exact h4 i h
  | esc c p is _ ih =>
    obtain ⟨chunk, cis, rest, ris, h1, h2, h3, h4, h5, h6⟩ := ih
    refine ⟨'\\' :: c :: chunk, .lit c :: cis, rest, ris, by simp [h1], by simp [h2],
      Parses.esc c chunk cis h3, ?_, h5, h6⟩
    intro i hi
    rcases List.mem_cons.mp hi with h | h
    · subst h; simp
    · exact h4 i h
  | lit c p is c1 c2 c3 c4 _ ih =>
    obtain ⟨chunk, cis, rest, ris, h1, h2, h3, h4, h5, h6⟩ := ih
    refine ⟨c :: chunk, .lit c :: cis, rest, ris, by simp [h1], by simp [h2],
      Parses.lit c chunk cis c1 c2 c3 c4 h3, ?_, h5, h6⟩
    intro i hi
    rcases List.mem_cons.mp hi with h | h
    · subst h; simp
    · exact h4 i h
  | cls body rgs p is hb hrg _ ih =>
    obtain ⟨chunk, cis, rest, ris, h1, h2, h3, h4, h5, h6⟩ := ih
    refine ⟨'[' :: (body ++ ']' :: chunk), .cls false rgs :: cis, rest, ris, by simp [h1],
      by simp [h2], Parses.cls body rgs chunk cis hb hrg h3, ?_, h5, h6⟩
    intro i hi
    rcases List.mem_cons.mp hi with h | h
    · subst h; simp
    · exact h4 i h
  | ncls body rgs p is hrg _ ih =>
    obtain ⟨chunk, cis, rest, ris, h1, h2, h3, h4, h5, h6⟩ := ih
    refine ⟨'[' :: '^' :: (body ++ ']' :: chunk), .cls true rgs :: cis, rest, ris, by simp [h1],
      by simp [h2], Parses.ncls body rgs chunk cis hrg h3, ?_, h5, h6⟩
    intro i hi
    rcases List.mem_cons.mp hi with h | h
    · subst h; simp
    · exact h4 i h

/-- The stars a pattern begins with. -/
theorem Parses_dropStars (p : GoString) (is : List Item) (h : Parses p is) :
    ∃ k is1, is = List.replicate k .star ++ is1
      ∧ Parses (p.dropWhile (fun c => decide (c = '*'))) is1
      ∧ (p.dropWhile (fun c => decide (c = '*'))).head? ≠ some '*'
      ∧ (p.head? = some '*' ↔ 0 < k) := by
  induction h with
  | nil => exact ⟨0, [], rfl, Parses.nil, by simp, by simp⟩
  | star p is _ ih =>
    obtain ⟨k, is1, h1, h2, h3, _⟩ := ih
    exact ⟨k + 1, is1, by simp [h1, List.replicate_succ], by simpa using h2, by simpa using h3,
      by simp⟩
  | any p is hp _ =>
    exact ⟨0, .any :: is, rfl, by simpa using Parses.any p is hp, by simp, by simp⟩
  | esc c p is hp _ =>
    exact ⟨0, .lit c :: is, rfl, by simpa using Parses.esc c p is hp, by simp, by simp⟩
  | lit c p is c1 c2 c3 c4 hp _ =>
    exact ⟨0, .lit c :: is, rfl, by simpa [c1] using Parses.lit c p is c1 c2 c3 c4 hp,
      by simp [c1], by simp [c1]⟩
  | cls body rgs p is hb hrg hp _ =>
    exact ⟨0, .cls false rgs :: is, rfl, by simpa using Parses.cls body rgs p is hb hrg hp,
      by simp, by simp⟩
  | ncls body rgs p is hrg hp _ =>
    exact ⟨0, .cls true rgs :: is, rfl, by simpa using Parses.ncls body rgs p is hrg hp,
      by simp, by simp⟩

/-- The function `scanChunk` on a well-formed pattern: the items are the
leading stars, the items of the chunk, which have no star, and the items of
the rest; the rest is empty or begins with a star. -/
theorem scanChunk_parses (pattern : GoString) (items : List Item) (h : Parses pattern items) :
    ∃ k cis ris, items = List.replicate k .star ++ (cis ++ ris)
      ∧ ((scanChunk pattern).1 = true ↔ 0 < k)
      ∧ Parses (scanChunk pattern).2.1 cis
      ∧ (∀ i ∈ cis, i ≠ .star)
      ∧ Parses (scanChunk pattern).2.2 ris
      ∧ (((scanChunk pattern).2.2 = [] ∧ ris = []) ∨ ∃ rs, ris = .star :: rs) := by
  obtain ⟨k, is1, h1, h2, h3, h4⟩ := Parses_dropStars pattern items h
  obtain ⟨chunk, cis, rest, ris, e1, e2, p1, p2, p3, p4⟩ := Parses_split _ _ h2
  have hr : rest = [] ∨ ∃ r, rest = '*' :: r := by
    rcases p4 with p4 | ⟨r, rs, p4, _⟩
    · exact Or.inl p4.1
    · exact Or.inr ⟨r, p4⟩
  have hscan := scanLoop_chunk chunk cis p1 p2 rest hr
  have hchunk : (scanChunk pattern).2.1 = chunk := by
    simp only [scanChunk, e1, hscan]
    simp
  have hrest : (scanChunk pattern).2.2 = rest := by
    simp only [scanChunk, e1, hscan]
    simp
  refine ⟨k, cis, ris, by rw [h1, e2], ?_, by rw [hchunk]; exact p1, p2,
    by rw [hrest]; exact p3, ?_⟩
  · rw [← h4]
    cases pattern with
    | nil => simp [scanChunk]
    | cons c cs => simp [scanChunk]
  · rw [hrest]
    rcases p4 with p4 | ⟨r, rs, _, p4⟩
    · exact Or.inl p4
    · exact Or.inr ⟨rs, p4⟩

/-- A well-formed pattern passes the syntax check. -/
theorem checkRest_parses : ∀ (fuel : Nat) (pattern : GoString) (items : List Item),
    Parses pattern items → checkRest fuel pattern = none := by
  intro fuel
  induction fuel with
  | zero => intro pattern items _; rfl
  | succ fuel ih =>
    intro pattern items hp
    rw [checkRest_succ]
    by_cases h : pattern = []
    · rw [if_pos h]
    · rw [if_neg h]
      obtain ⟨k, cis, ris, _, _, h3, h4, h5, _⟩ := scanChunk_parses pattern items hp
      have := matchChunkLoop_parses_failed _ cis h3 h4 [] _ (Nat.lt_succ_self _)
      have hok : ∃ r, matchChunk (scanChunk pattern).2.1 [] = .ok r := by
        cases hm : matchChunk (scanChunk pattern).2.1 [] with
        | ok r => exact ⟨r, rfl⟩
        | error e =>
          have h6 := matchChunkLoop_indep _ _ _ [] false true e hm
          rw [this] at h6
          simp at h6
      obtain ⟨r, hr⟩ := hok
      rw [hr]
      exact ih _ ris h5

end path

namespace path

/-! ### The search of `path.Match` -/

theorem starLoop_cons (chunk : GoString) (last : Bool) (c : Char) (tail : GoString) :
    starLoop chunk last (c :: tail) =
      if c = '/' then .ok none
      else
        match matchChunk chunk tail with
        | .error e => .error e
        | .ok (some t) => if last = true ∧ t ≠ [] then starLoop chunk last tail else .ok (some t)
        | .ok none => starLoop chunk last tail := rfl

theorem Parses_nil_left (is : List Item) (h : Parses [] is) : is = [] := by
  cases h
  rfl

theorem Parses_nil_right (p : GoString) (h : Parses p []) : p = [] := by
  cases h
  rfl

theorem accepts_unique (cis : List Item) (m1 m2 t1 t2 : GoString)
    (h1 : List.Forall₂ (fun i d => i.accepts d = true) cis m1)
    (h2 : List.Forall₂ (fun i d => i.accepts d = true) cis m2)
    (h : m1 ++ t1 = m2 ++ t2) : m1 = m2 ∧ t1 = t2 :=
  List.append_inj h (h1.length_eq.symm.trans h2.length_eq)

theorem matchChunk_parses (chunk : GoString) (cis : List Item) (h : Parses chunk cis)
    (hc : ∀ i ∈ cis, i ≠ .star) (s : GoString)
    (hH : (∀ c ∈ s, c.toNat < 128) ∨ (∀ i ∈ cis, ∃ c, i = .lit c)) :
    ∃ r, matchChunk chunk s = .ok r
      ∧ ∀ t, r = some t ↔
          ∃ m, s = m ++ t ∧ List.Forall₂ (fun i d => i.accepts d = true) cis m :=
  matchChunkLoop_parses chunk cis h hc s _ (Nat.lt_succ_self _) hH

/-- The search after a star: it stops at the first place, after a run
without a slash, where the chunk matches (and, for the last chunk, uses up
the text); the rest of the pattern matches the text left there exactly when
the chunk and the rest match at some place after such a run. -/
theorem starLoop_glob (chunk : GoString) (cis : List Item) (hp : Parses chunk cis)
    (hc : ∀ i ∈ cis, i ≠ .star)
    (hS : ∀ i ∈ cis, i.accepts '/' = true → ∃ c, i = .lit c)
    (rest : GoString) (ris : List Item) (hne : rest = [] ↔ ris = [])
    (hrest : ris = [] ∨ ∃ rs, ris = .star :: rs) :
    ∀ name, ((∀ c ∈ name, c.toNat < 128) ∨ (∀ i ∈ cis, ∃ c, i = .lit c)) →
      ∃ r, starLoop chunk (decide (rest = [])) name = .ok r
        ∧ (∀ t, r = some t → ∃ pre, name = pre ++ t)
        ∧ ((∃ t, r = some t ∧ Glob ris t) ↔
            ∃ a b, a ≠ [] ∧ name = a ++ b ∧ '/' ∉ a
              ∧ ∃ m t, b = m ++ t ∧ List.Forall₂ (fun i d => i.accepts d = true) cis m
                ∧ Glob ris t) := by
  intro name
  induction name with
  | nil =>
    intro _
    refine ⟨none, rfl, by simp, ?_⟩
    constructor
    · rintro ⟨t, h, _⟩; simp at h
    · rintro ⟨a, b, ha, h, _⟩
      have : a = [] := by
        have := congrArg List.length h
        simp at this
        exact List.length_eq_zero.mp (by omega)
      exact absurd this ha
  | cons c tail ih =>
    intro hH
    have hHt : (∀ c ∈ tail, c.toNat < 128) ∨ (∀ i ∈ cis, ∃ c, i = .lit c) := by
      rcases hH with hH | hH
      · exact Or.inl (fun x hx => hH x (List.mem_cons_of_mem _ hx))
      · exact Or.inr hH
    rw [starLoop_cons]
    by_cases hcs : c = '/'
    · rw [if_pos hcs]
      refine ⟨none, rfl, by simp, ?_⟩
      constructor
      · rintro ⟨t, h, _⟩; simp at h
      · rintro ⟨a, b, ha, h, hs, _⟩
        cases a with
        | nil => exact absurd rfl ha
        | cons e a1 =>
          simp only [List.cons_append, List.cons.injEq] at h
          exact absurd (by simp [← h.1, hcs]) hs
    · rw [if_neg hcs]
      obtain ⟨r0, hr0, hspec⟩ := matchChunk_parses chunk cis hp hc tail hHt
      rw [hr0]
      -- the places after `c` are the places of `tail` after a non-empty run
      have hshift : (¬ ∃ m t, tail = m ++ t
            ∧ List.Forall₂ (fun i d => i.accepts d = true) cis m ∧ Glob ris t) →
          ((∃ a b, a ≠ [] ∧ c :: tail = a ++ b ∧ '/' ∉ a
              ∧ ∃ m t, b = m ++ t ∧ List.Forall₂ (fun i d => i.accepts d = true) cis m
                ∧ Glob ris t) ↔
            ∃ a b, a ≠ [] ∧ tail = a ++ b ∧ '/' ∉ a
              ∧ ∃ m t, b = m ++ t ∧ List.Forall₂ (fun i d => i.accepts d = true) cis m
                ∧ Glob ris t) := by
        intro hno
        constructor
        · rintro ⟨a, b, ha, h, hs, m, t, hb, hm, hg⟩
          cases a with
          | nil => exact absurd rfl ha
          | cons e a1 =>
            simp only [List.cons_append, List.cons.injEq] at h
            have hs1 : '/' ∉ a1 := fun h1 => hs (List.mem_cons_of_mem _ h1)
            by_cases ha1 : a1 = []
            · subst ha1
              simp only [List.nil_append] at h
              exact absurd ⟨m, t, by rw [h.2]; exact hb, hm, hg⟩ hno
            · exact ⟨a1, b, ha1, h.2, hs1, m, t, hb, hm, hg⟩
        · rintro ⟨a, b, ha, h, hs, m, t, hb, hm, hg⟩
          refine ⟨c :: a, b, by simp, by simp [h], ?_, m, t, hb, hm, hg⟩
          simp only [List.mem_cons, not_or]
          exact ⟨fun h1 => hcs h1.symm, hs⟩
      cases r0 with
      | none =>
        simp only []
        obtain ⟨r, hr1, hsuf, hr2⟩ := ih hHt
        refine ⟨r, hr1, ?_, ?_⟩
        · intro t ht
          obtain ⟨pre, hpre⟩ := hsuf t ht
          exact ⟨c :: pre, by simp [hpre]⟩
        rw [hr2, hshift]
        rintro ⟨m, t, h, hm, _⟩
        have := (hspec t).mpr ⟨m, h, hm⟩
        simp at this
      | some t =>
        simp only []
        obtain ⟨m0, ht0, hm0⟩ := (hspec t).mp rfl
        by_cases hl : decide (rest = []) = true ∧ t ≠ []
        · rw [if_pos hl]
          obtain ⟨r, hr1, hsuf, hr2⟩ := ih hHt
          refine ⟨r, hr1, ?_, ?_⟩
          · intro t2 ht2
            obtain ⟨pre, hpre⟩ := hsuf t2 ht2
            exact ⟨c :: pre, by simp [hpre]⟩
          rw [hr2, hshift]
          rintro ⟨m, t1, h, hm, hg⟩
          have hu := accepts_unique cis m0 m t t1 hm0 hm (ht0.symm.trans h)
          have hr : ris = [] := hne.mp (by simpa using hl.1)
          rw [hr, Glob_nil_iff] at hg
          exact hl.2 (hu.2.trans hg)
        · rw [if_neg hl]
          refine ⟨some t, rfl, ?_, ?_⟩
          · intro t2 ht2
            simp only [Option.some.injEq] at ht2
            subst ht2
            exact ⟨c :: m0, by simp [ht0]⟩
          constructor
          · rintro ⟨t1, h, hg⟩
            simp only [Option.some.injEq] at h
            subst h
            refine ⟨[c], tail, by simp, by simp, ?_, m0, t, ht0, hm0, hg⟩
            simp only [List.mem_singleton]
            exact fun h1 => hcs h1.symm
          · rintro ⟨a, b, ha, h, hs, m, t1, hb, hm, hg⟩
            refine ⟨t, rfl, ?_⟩
            cases a with
            | nil => exact absurd rfl ha
            | cons e a1 =>
              simp only [List.cons_append, List.cons.injEq] at h
              have hs1 : '/' ∉ a1 := fun h1 => hs (List.mem_cons_of_mem _ h1)
              have heq : a1 ++ (m ++ t1) = m0 ++ t := by
                rw [← hb, ← h.2, ht0]
              obtain ⟨x, hx1, hx2⟩ := accepts_shift cis hS a1 m0 m t t1 hs1 hm0 hm heq
              rcases hrest with hr | ⟨rs, hr⟩
              · have ht : t = [] := by
                  by_contra hne2
                  exact hl ⟨by simpa using hne.mpr hr, hne2⟩
                rw [hr, ht]
                exact Glob.nil
              · rw [hr, hx1]
                rw [hr] at hg
                exact Glob_absorb rs t1 x hg hx2

end path

namespace path

/-- On a well-formed pattern none of whose classes accepts a slash,
`path.Match` returns no error and reports a match exactly when the items of
the pattern match the whole name.  The name is ASCII, or the pattern has
stars and literals only. -/
theorem matchLoop_glob : ∀ (fuel : Nat) (pattern : GoString) (items : List Item)
    (name : GoString), Parses pattern items →
    (∀ i ∈ items, i.accepts '/' = true → ∃ c, i = .lit c) →
    ((∀ c ∈ name, c.toNat < 128) ∨ (∀ i ∈ items, i = .star ∨ ∃ c, i = .lit c)) →
    pattern.length < fuel →
    ∃ b, matchLoop fuel pattern name = (b, none) ∧ (b = true ↔ Glob items name) := by
  intro fuel
  induction fuel with
  | zero => intro pattern items name _ _ _ h; omega
  | succ fuel ih =>
    intro pattern items name hp hS hH hf
    rw [matchLoop_succ]
    by_cases hnil : pattern = []
    · rw [if_pos hnil]
      refine ⟨decide (name = []), rfl, ?_⟩
      subst hnil
      rw [Parses_nil_left items hp, Glob_nil_iff]
      simp
    · rw [if_neg hnil]
      have hlen := scanChunk_rest_length pattern hnil
      have hcn := scanChunk_chunk_nil pattern
      obtain ⟨k, cis, ris, hk, hstar, hpc, hc, hpr, hrest⟩ := scanChunk_parses pattern items hp
      generalize (scanChunk pattern).1 = star at hstar ⊢
      generalize (scanChunk pattern).2.1 = chunk at hpc hcn ⊢
      generalize (scanChunk pattern).2.2 = rest at hpr hlen hcn hrest ⊢
      have hne : rest = [] ↔ ris = [] := by
        constructor
        · intro h; subst h; exact Parses_nil_left ris hpr
        · intro h; subst h; exact Parses_nil_right rest hpr
      have hrest2 : ris = [] ∨ ∃ rs, ris = .star :: rs := by
        rcases hrest with h | h
        · exact Or.inl h.2
        · exact Or.inr h
      have hSc : ∀ i ∈ cis, i.accepts '/' = true → ∃ c, i = .lit c :=
        fun i hi => hS i (by rw [hk]; simp [hi])
      have hSr : ∀ i ∈ ris, i.accepts '/' = true → ∃ c, i = .lit c :=
        fun i hi => hS i (by rw [hk]; simp [hi])
      have hHc : ∀ s : GoString, (∀ c ∈ s, c ∈ name) →
          ((∀ c ∈ s, c.toNat < 128) ∨ (∀ i ∈ cis, ∃ c, i = .lit c)) := by
        intro s hs
        rcases hH with hH | hH
        · exact Or.inl (fun c hc => hH c (hs c hc))
        · right
          intro i hi
          rcases hH i (by rw [hk]; simp [hi]) with h | h
          · exact absurd h (hc i hi)
          · exact h
      have hHr : ∀ s : GoString, (∀ c ∈ s, c ∈ name) →
          ((∀ c ∈ s, c.toNat < 128) ∨ (∀ i ∈ ris, i = .star ∨ ∃ c, i = .lit c)) := by
        intro s hs
        rcases hH with hH | hH
        · exact Or.inl (fun c hc => hH c (hs c hc))
        · exact Or.inr (fun i hi => hH i (by rw [hk]; simp [hi]))
      have hrec : ∀ t, (∀ c ∈ t, c ∈ name) →
          ∃ b, matchLoop fuel rest t = (b, none) ∧ (b = true ↔ Glob ris t) :=
        fun t ht => ih rest ris t hpr hSr (hHr t ht) (by omega)
      -- the pattern as a glob
      have hglob0 : k = 0 →
          (Glob items name ↔ ∃ m t, name = m ++ t
            ∧ List.Forall₂ (fun i d => i.accepts d = true) cis m ∧ Glob ris t) := by
        intro hk0
        rw [hk, hk0]
        exact Glob_chunk cis hc ris name
      have hglob1 : 0 < k →
          (Glob items name ↔ ∃ a b, name = a ++ b ∧ '/' ∉ a
            ∧ ∃ m t, b = m ++ t ∧ List.Forall₂ (fun i d => i.accepts d = true) cis m
              ∧ Glob ris t) := by
        intro hk1
        obtain ⟨k1, rfl⟩ : ∃ k1, k = k1 + 1 := ⟨k - 1, by omega⟩
        rw [hk, Glob_stars, Glob_star_iff]
        constructor
        · rintro ⟨a, b, h1, h2, h3⟩
          exact ⟨a, b, h1, h2, (Glob_chunk cis hc ris b).mp h3⟩
        · rintro ⟨a, b, h1, h2, h3⟩
          exact ⟨a, b, h1, h2, (Glob_chunk cis hc ris b).mpr h3⟩
      by_cases hs : star = true ∧ chunk = []
      · rw [if_pos hs]
        refine ⟨decide ('/' ∉ name), rfl, ?_⟩
        have hr : rest = [] := hcn hs.2
        have hcis : cis = [] := by
          have := hs.2
          subst this
          exact Parses_nil_left cis hpc
        have hris : ris = [] := hne.mp hr
        obtain ⟨k1, rfl⟩ : ∃ k1, k = k1 + 1 := ⟨k - 1, by have := hstar.mp hs.1; omega⟩
        rw [hk, hcis, hris, List.nil_append, Glob_stars, Glob_only_star]
        simp
      · rw [if_neg hs]
        obtain ⟨r0, hr0, hspec⟩ := matchChunk_parses chunk cis hpc hc name (hHc name (fun c h => h))
        rw [hr0]
        simp only []
        have htail : (¬ ∃ m t, name = m ++ t
              ∧ List.Forall₂ (fun i d => i.accepts d = true) cis m ∧ Glob ris t) →
            ∃ b, (match (if star = true then starLoop chunk (decide (rest = [])) name
                    else .ok none) with
                | .error e => (false, some e)
                | .ok (some t) => matchLoop fuel rest t
                | .ok none => (false, checkRest fuel rest)) = (b, none)
              ∧ (b = true ↔ Glob items name) := by
          intro hno
          by_cases hst : star = true
          · rw [if_pos hst]
            have hk1 : 0 < k := hstar.mp hst
            obtain ⟨r, hr1, hsuf, hr2⟩ := starLoop_glob chunk cis hpc hc hSc rest ris hne hrest2
              name (hHc name (fun c h => h))
            rw [hr1]
            have hg : Glob items name ↔ ∃ t, r = some t ∧ Glob ris t := by
              rw [hglob1 hk1, hr2]
              constructor
              · rintro ⟨a, b1, h1, h2, m, t0, hb, hm, hg⟩
                have ha : a ≠ [] := by
                  intro ha
                  subst ha
                  simp only [List.nil_append] at h1
                  subst h1
                  exact hno ⟨m, t0, hb, hm, hg⟩
                exact ⟨a, b1, ha, h1, h2, m, t0, hb, hm, hg⟩
              · rintro ⟨a, b1, _, h1, h2, m, t0, hb, hm, hg⟩
                exact ⟨a, b1, h1, h2, m, t0, hb, hm, hg⟩
            cases r with
            | none =>
              refine ⟨false, by simp only [checkRest_parses fuel rest ris hpr], ?_⟩
              rw [hg]
              simp
            | some t =>
              obtain ⟨pre, hpre⟩ := hsuf t rfl
              obtain ⟨b, hb1, hb2⟩ := hrec t (fun c hc => by rw [hpre]; simp [hc])
              refine ⟨b, hb1, ?_⟩
              rw [hb2, hg]
              simp
          · rw [if_neg hst]
            have hk0 : k = 0 := by
              by_contra hne2
              exact hst (hstar.mpr (by omega))
            refine ⟨false, by simp only [checkRest_parses fuel rest ris hpr], ?_⟩
            rw [hglob0 hk0]
            simp only [Bool.false_eq_true, false_iff]
            exact hno
        -- the match at the current place
        cases r0 with
        | some t =>
          obtain ⟨m0, ht0, hm0⟩ := (hspec t).mp rfl
          by_cases hcont : t = [] ∨ rest ≠ []
          · simp only [if_pos hcont]
            obtain ⟨b, hb1, hb2⟩ := hrec t (fun c hc => by rw [ht0]; simp [hc])
            refine ⟨b, hb1, ?_⟩
            rw [hb2]
            by_cases hk0 : k = 0
            · rw [hglob0 hk0]
              constructor
              · intro hg
                exact ⟨m0, t, ht0, hm0, hg⟩
              · rintro ⟨m, t1, h1, hm, hg⟩
                have hu := accepts_unique cis m0 m t t1 hm0 hm (ht0.symm.trans h1)
                rw [hu.2]
                exact hg
            · rw [hglob1 (by omega)]
              constructor
              · intro hg
                exact ⟨[], name, rfl, by simp, m0, t, ht0, hm0, hg⟩
              · rintro ⟨a, b1, h1, h2, m, t1, hb, hm, hg⟩
                have heq : a ++ (m ++ t1) = m0 ++ t := by
                  rw [← hb, ← h1, ht0]
                obtain ⟨x, hx1, hx2⟩ := accepts_shift cis hSc a m0 m t t1 h2 hm0 hm heq
                rcases hrest2 with hr | ⟨rs, hr⟩
                · rcases hcont with ht | hne2
                  · rw [hr, ht]; exact Glob.nil
                  · exact absurd (hne.mpr hr) hne2
                · rw [hr, hx1]
                  rw [hr] at hg
                  exact Glob_absorb rs t1 x hg hx2
          · simp only [if_neg hcont]
            have hr : rest = [] := by
              by_contra hne2
              exact hcont (Or.inr hne2)
            have ht : t ≠ [] := fun h => hcont (Or.inl h)
            have hno : ¬ ∃ m t1, name = m ++ t1
                ∧ List.Forall₂ (fun i d => i.accepts d = true) cis m ∧ Glob ris t1 := by
              rintro ⟨m, t1, h1, hm, hg⟩
              have hu := accepts_unique cis m0 m t t1 hm0 hm (ht0.symm.trans h1)
              rw [hne.mp hr, Glob_nil_iff] at hg
              exact ht (hu.2.trans hg)
            exact htail hno
        | none =>
          simp only []
          have hno : ¬ ∃ m t1, name = m ++ t1
              ∧ List.Forall₂ (fun i d => i.accepts d = true) cis m ∧ Glob ris t1 := by
            rintro ⟨m, t1, h1, hm, _⟩
            have := (hspec t1).mpr ⟨m, h1, hm⟩
            simp at this
          exact htail hno

end path

namespace path

/-- A pattern without `[` and without a backslash is well formed; its items
are its bytes. -/
theorem Parses_plainItems (pattern : GoString) (h : ∀ c ∈ pattern, c ≠ '[' ∧ c ≠ '\\') :
    Parses pattern (plainItems pattern) := by
  induction pattern with
  | nil => exact Parses.nil
  | cons c cs ih =>
    have hc := h c (List.mem_cons_self _ _)
    have ih1 := ih (fun x hx => h x (List.mem_cons_of_mem _ hx))
    by_cases h1 : c = '*'
    · subst h1
      exact Parses.star cs _ ih1
    · by_cases h2 : c = '?'
      · subst h2
        exact Parses.any cs _ ih1
      · have : plainItems (c :: cs) = .lit c :: plainItems cs := by
          simp [plainItems, h1, h2]
        rw [this]
        exact Parses.lit c cs _ h1 h2 hc.2 hc.1 ih1

theorem plainItems_slash (pattern : GoString) :
    ∀ i ∈ plainItems pattern, i.accepts '/' = true → ∃ c, i = .lit c := by
  intro i hi hacc
  simp only [plainItems, List.mem_map] at hi
  obtain ⟨c, _, hc⟩ := hi
  by_cases h1 : c = '*'
  · simp only [h1, if_true] at hc
    subst hc
    simp [Item.accepts] at hacc
  · by_cases h2 : c = '?'
    · simp only [h2, if_true] at hc
      rw [if_neg (by decide)] at hc
      subst hc
      simp [Item.accepts] at hacc
    · simp only [if_neg h1, if_neg h2] at hc
      exact ⟨c, hc.symm⟩

/-- The function `path.Match` on a well-formed pattern none of whose classes
accepts a slash. -/
theorem Match_glob (pattern : GoString) (items : List Item) (name : GoString)
    (hp : Parses pattern items)
    (hS : ∀ i ∈ items, i.accepts '/' = true → ∃ c, i = .lit c)
    (hH : (∀ c ∈ name, c.toNat < 128) ∨ (∀ i ∈ items, i = .star ∨ ∃ c, i = .lit c)) :
    (Match pattern name).2 = none ∧ ((Match pattern name).1 = true ↔ Glob items name) := by
  obtain ⟨b, hb1, hb2⟩ := matchLoop_glob (pattern.length + 1) pattern items name hp hS hH
    (Nat.lt_succ_self _)
  simp only [Match, hb1]
  exact ⟨trivial, hb2⟩

/-- A well-formed pattern is not a bad pattern, whatever the name. -/
theorem Match_parses_ok (pattern : GoString) (items : List Item) (name : GoString)
    (hp : Parses pattern items) : (Match pattern name).2 = none := by
  simp only [Match, matchLoop_err]
  exact checkRest_parses _ pattern items hp

end path

/-! ## Reading back a serialization -/

namespace strings

theorem Cut_fst (s : GoString) (sep : Char) :
    (Cut s sep).1 = s.takeWhile (fun c => !decide (c = sep)) := by
  simp only [Cut]
  split
  · rename_i h
    have h2 := List.takeWhile_append_dropWhile (fun c => !decide (c = sep)) s
    rw [h, List.append_nil] at h2
    exact h2.symm
  · rfl

end strings

namespace url

theorem getSchemeLoop_first_seg (raw : GoString) : ∀ (l : GoString) (i : Nat),
    ':' ∉ l.takeWhile (fun c => !decide (c = '/')) → getSchemeLoop raw i l = .ok ([], raw) := by
  intro l
  induction l with
  | nil => intro i _; rfl
  | cons c cs ih =>
    intro i h
    by_cases hs : c = '/'
    · subst hs
      have h1 : ¬ (isAlpha '/' = true) := by decide
      have h2 : ¬ (isDigit '/' = true ∨ '/' = '+' ∨ '/' = '-' ∨ '/' = '.') := by decide
      have h3 : ¬ ('/' = ':') := by decide
      simp only [getSchemeLoop, if_neg h1, if_neg h2, if_neg h3]
    · have htw : (c :: cs).takeWhile (fun c => !decide (c = '/'))
          = c :: cs.takeWhile (fun c => !decide (c = '/')) := by
        simp [List.takeWhile_cons, hs]
      rw [htw] at h
      have hc : c ≠ ':' := fun h1 => h (by simp [h1])
      have hcs : ':' ∉ cs.takeWhile (fun c => !decide (c = '/')) :=
        fun h1 => h (List.mem_cons_of_mem _ h1)
      simp only [getSchemeLoop]
      split
      · exact ih _ hcs
      · split
        · split
          · rfl
          · exact ih _ hcs
        · simp only [if_neg hc]

/-- Parsing a bare path of plain bytes whose first element has no colon and
which does not begin with two slashes: the path itself, with no scheme and
no host. -/
theorem parse_path (q : GoString) (hq : pathOK q = true)
    (hcolon : ':' ∉ q.takeWhile (fun c => !decide (c = '/')))
    (hss : strings.HasPrefix q ['/', '/'] = false) :
    Parse q = .ok { Scheme := [], Host := [], Path := q } := by
  obtain ⟨hplain, hpc⟩ := pathOK_spec q hq
  have hhash : '#' ∉ q := fun h => (hplain _ h).1 rfl
  have hqm : '?' ∉ q := fun h => (hplain _ h).2.1 rfl
  have hctl := noCTL_of_plain _ hplain
  have hgs : getScheme q = .ok ([], q) := getSchemeLoop_first_seg q q 0 hcolon
  have hlow : strings.ToLower [] = [] := rfl
  have hseg : strings.ContainsByte (strings.Cut q '/').1 ':' = false := by
    rw [strings.Cut_fst]
    simp only [strings.ContainsByte, List.elem_eq_mem, decide_eq_false_iff_not]
    exact hcolon
  have hparse : parse q = .ok { Scheme := [], Host := [], Path := q } := by
    by_cases hstar : q = ['*']
    · subst hstar
      rfl
    · simp only [parse, hctl, Bool.false_eq_true, if_false, if_neg hstar, hgs, hlow,
        rest1_eq _ hqm, ne_eq, not_true_eq_false, and_false, hseg, hss, unescape_path_id _ hpc]
  simp only [Parse, strings.Cut_not_mem _ _ hhash, hparse, if_true]

end url

namespace filepath

theorem IsPathSeparator_iff (c : Char) : IsPathSeparator c = true ↔ c = '\\' ∨ c = '/' := by
  simp [IsPathSeparator]

/-- A path without a backslash that does not begin with two slashes and
whose second byte is neither a colon nor a question mark has no volume. -/
theorem volumeNameLen_plain (o : GoString) (hb : '\\' ∉ o)
    (hss : strings.HasPrefix o ['/', '/'] = false)
    (h1 : o.get? 1 ≠ some ':') (h2 : o.get? 1 ≠ some '?') : volumeNameLen o = 0 := by
  cases o with
  | nil => simp [volumeNameLen]
  | cons c0 r0 =>
    have hc0 : c0 ≠ '\\' := fun h => hb (by simp [h])
    cases r0 with
    | nil =>
      by_cases hs : c0 = '/'
      · subst hs
        decide
      · have : IsPathSeparator c0 = false := by simp [IsPathSeparator, hc0, hs]
        simp [volumeNameLen, sepAt, this]
    | cons c1 r1 =>
      have hc1 : c1 ≠ '\\' := fun h => hb (by simp [h])
      have h1' : c1 ≠ ':' := by simpa using h1
      have h2' : c1 ≠ '?' := by simpa using h2
      have hA : ¬ ((c0 :: c1 :: r1).length ≥ 2 ∧ (c0 :: c1 :: r1).get? 1 = some ':') := by
        simp [h1']
      by_cases hs : c0 = '/'
      · subst hs
        have hs1 : c1 ≠ '/' := by
          intro h
          subst h
          simp [strings.HasPrefix, List.isPrefixOf] at hss
        have hsep1 : IsPathSeparator c1 = false := by simp [IsPathSeparator, hc1, hs1]
        have hB : ¬ ((('/' : Char) :: c1 :: r1).length = 0 ∨ ¬ sepAt ('/' :: c1 :: r1) 0 = true) := by
          simp [sepAt, IsPathSeparator]
        have hq : toUpper '?' = '?' := by decide
        have hC1 : pathHasPrefixFold ('/' :: c1 :: r1) "\\\\.\\UNC".toList = false := by
          simp [pathHasPrefixFold, stripPrefixFold, IsPathSeparator, hsep1, hc1, hs1]
        have hC2 : pathHasPrefixFold ('/' :: c1 :: r1) "\\\\.".toList = false := by
          simp [pathHasPrefixFold, stripPrefixFold, IsPathSeparator, hsep1, hc1, hs1]
        have hC3 : pathHasPrefixFold ('/' :: c1 :: r1) "\\\\?".toList = false := by
          simp [pathHasPrefixFold, stripPrefixFold, IsPathSeparator, hsep1, hc1, hs1]
        have hC4 : pathHasPrefixFold ('/' :: c1 :: r1) "\\??".toList = false := by
          have hu : toUpper '?' ≠ toUpper c1 := by
            rw [hq]
            intro h
            simp only [toUpper] at h
            split at h
            · rename_i hr
              have ha := (url.char_le_iff _ _).mp hr.1
              have hz := (url.char_le_iff _ _).mp hr.2
              have ha' : 'a'.toNat = 97 := rfl
              have hz' : 'z'.toNat = 122 := rfl
              have key : ∀ n, 97 ≤ n → n ≤ 122 → '?' ≠ Char.ofNat (n - 32) := by
                intro n h3 h4
                interval_cases n <;> decide
              exact key c1.toNat (by omega) (by omega) h
            · exact h2' h.symm
          simp [pathHasPrefixFold, stripPrefixFold, IsPathSeparator, hu]
        have hD : ¬ ((('/' : Char) :: c1 :: r1).length ≥ 2 ∧ sepAt ('/' :: c1 :: r1) 1 = true) := by
          simp [sepAt, hsep1]
        rw [volumeNameLen, if_neg hA, if_neg hB]
        simp only [hC1, hC2, hC3, hC4, Bool.false_eq_true, if_false, Bool.or_self, if_neg hD]
      · have : IsPathSeparator c0 = false := by simp [IsPathSeparator, hc0, hs]
        have hB : (c0 :: c1 :: r1).length = 0 ∨ ¬ sepAt (c0 :: c1 :: r1) 0 = true := by
          right
          simp [sepAt, this]
        rw [volumeNameLen, if_neg hA, if_pos hB]

end filepath

namespace urlpath

open url (URL)

/-- The Windows parser on a text without a volume: `url.Parse`. -/
theorem windows_fromString_plain (o : GoString) (hb : '\\' ∉ o)
    (hss : strings.HasPrefix o ['/', '/'] = false)
    (h1 : o.get? 1 ≠ some ':') (h2 : o.get? 1 ≠ some '?') :
    windows.fromString o = url.Parse o := by
  have hv : filepath.VolumeName o = [] := by
    simp [filepath.VolumeName, filepath.volumeNameLen_plain o hb hss h1 h2, filepath.FromSlash,
      strings.ReplaceAll]
  simp only [windows.fromString, strings.ReplaceAll_not_mem _ _ _ hb, hv]
  rfl

/-- The Windows parser on a drive-letter path: the path with a slash in
front, no scheme and no host. -/
theorem windows_fromString_drive (c : Char) (r : GoString) (hb : '\\' ∉ c :: ':' :: r) :
    windows.fromString (c :: ':' :: r)
      = .ok { Scheme := [], Host := [], Path := '/' :: c :: ':' :: r } := by
  have hlen : filepath.volumeNameLen (c :: ':' :: r) = 2 := by
    simp [filepath.volumeNameLen]
  have hv : strings.ContainsByte (filepath.VolumeName (c :: ':' :: r)) ':' = true := by
    simp [filepath.VolumeName, hlen, filepath.FromSlash, strings.ReplaceAll,
      strings.ContainsByte]
  simp only [windows.fromString, strings.ReplaceAll_not_mem _ _ _ hb, hv, if_true]

/-- The volume of a stored drive-letter path. -/
theorem volumeName_drive (s h : GoString) (c0 c : Char) (r : GoString) :
    windows.volumeName { Scheme := s, Host := h, Path := c0 :: c :: ':' :: r } ≠ [] := by
  have hlen : filepath.volumeNameLen (c :: ':' :: r) = 2 := by
    simp [filepath.volumeNameLen]
  simp [windows.volumeName, filepath.VolumeName, hlen, filepath.FromSlash, strings.ReplaceAll]

end urlpath

namespace path

theorem encReal_true_false (real : List GoString) :
    encReal true ['/'] real = encReal false [] real ++ ['/'] := by
  induction real with
  | nil => rfl
  | cons e es ih =>
    simp only [encReal, ih, List.length_append, List.length_singleton]
    by_cases hl : (encReal false [] es).length = 0
    · simp [hl]
    · simp [hl]

theorem encReal_false_prefix (b : List Char) (real : List GoString) :
    ∃ t, (encReal false b real).reverse = b.reverse ++ t := by
  induction real with
  | nil => exact ⟨[], by simp [encReal]⟩
  | cons e es ih =>
    obtain ⟨t, ht⟩ := ih
    simp only [encReal]
    split
    · exact ⟨t ++ '/' :: e, by simp [ht]⟩
    · exact ⟨t ++ e, by simp [ht]⟩

theorem encBase_false_succ (n : Nat) :
    ∃ t, (encBase false (n + 1)).reverse = '.' :: '.' :: t := by
  induction n with
  | zero => exact ⟨[], by decide⟩
  | succ n ih =>
    obtain ⟨t, ht⟩ := ih
    have hl : (encBase false (n + 1)).length > 0 := by
      have := congrArg List.length ht
      simp at this
      omega
    rw [encBase]
    simp only [hl, if_true]
    exact ⟨t ++ ['/', '.', '.'], by simp [ht]⟩

/-- A relative path whose cleaned form begins with a proper element keeps
it behind a root: `Clean("/" + x) = "/" + Clean(x)`. -/
theorem Clean_root_cons (x : GoString) (c : Char) (r : GoString) (hc : c ≠ '/')
    (h : Clean x = c :: ':' :: r) : Clean ('/' :: x) = '/' :: Clean x := by
  have hrel : IsAbs x = false := by
    have := IsAbs_Clean x
    rw [h] at this
    rw [← this]
    simp [IsAbs, hc]
  have hv := cleanState_valid x
  rw [Clean_eq_cleanSpec] at h
  rw [Clean_eq_cleanSpec, Clean_eq_cleanSpec x]
  have e1 : cleanSpec ('/' :: x)
      = render true ((cleanRun false ([], 0) (segs x)).1, 0) := by
    have hI : IsAbs ('/' :: x) = true := rfl
    rw [cleanSpec, hI, segs_slash]
    simp only [cleanRun, List.foldl_cons, cleanStep_nil]
    exact congrArg (render true) (cleanRun_true_false (segs x) [] 0)
  have e2 : cleanSpec x = render false (cleanRun false ([], 0) (segs x)) := by
    rw [cleanSpec, hrel]
  rw [e1, e2]
  rw [e2] at h
  simp only [cleanState, hrel] at hv
  generalize cleanRun false ([], 0) (segs x) = st at hv h ⊢
  obtain ⟨real, base⟩ := st
  simp only
  -- no leading `..`
  have hbase : base = 0 := by
    cases base with
    | zero => rfl
    | succ n =>
      exfalso
      obtain ⟨t1, ht1⟩ := encBase_false_succ n
      obtain ⟨t2, ht2⟩ := encReal_false_prefix (encBase false (n + 1)) real
      have hne : (encReal false (encBase false (n + 1)) real).length ≠ 0 := by
        have := congrArg List.length ht2
        have h3 := congrArg List.length ht1
        simp at this h3
        omega
      simp only [render, enc] at h
      rw [if_neg hne, ht2, ht1] at h
      simp only [List.cons_append, List.cons.injEq] at h
      exact absurd h.2.1 (by decide)
  subst hbase
  cases real with
  | nil => simp [render, enc, encReal, encBase] at h
  | cons e es =>
    have hne : e ≠ [] := (hv.1 e (List.mem_cons_self _ _)).1.1
    have hl : (enc false (e :: es, 0)).length ≠ 0 := by
      simp only [enc, encReal]
      cases e with
      | nil => exact absurd rfl hne
      | cons a as => simp
    have hl2 : (enc true (e :: es, 0)).length ≠ 0 := by
      simp only [enc, encBase, if_true]
      rw [encReal_true_false]
      simp
    simp only [render, if_neg hl, if_neg hl2]
    simp only [enc, encBase, if_true]
    rw [encReal_true_false]
    simp

end path

namespace urlpath

open url (URL)

theorem get?_one_ne_of_not_mem (o : GoString) (c : Char) (h : c ∉ o) : o.get? 1 ≠ some c := by
  intro h1
  exact h (List.get?_mem h1)

/-- Parsing the serialization of a writable structure gives the structure
with its path cleaned, and rooted when there is a scheme or a host. -/
theorem roundtrip (os : GOOS) (u : URL) (hw : Writable os u) :
    fromString os (toString os u) = .ok (canon u) := by
  obtain ⟨⟨name, port, hhost, hn, hport, hport0⟩, hpath, hscheme, hbareOK, hhostonly, hwin⟩ := hw
  obtain ⟨s, h, q⟩ := u
  simp only at hhost hpath hscheme hbareOK hhostonly hwin hport0
  simp only [canon]
  subst hhost
  have hroot : "/".toList = ['/'] := rfl
  rw [hroot]
  obtain ⟨hqplain, hqpc⟩ := url.pathOK_spec q hpath
  have hqq : '?' ∉ q := fun h => (hqplain _ h).2.1 rfl
  obtain ⟨P, hP⟩ := path.Join_root_IsAbs q
  have hPok : url.pathOK ('/' :: P) = true := by
    rw [← hP]; exact pathOK_Join_root q hpath
  have hPb : '\\' ∉ q → '\\' ∉ '/' :: P := by
    intro hqb
    rw [← hP]; exact not_mem_Join_root q _ hqb (by decide) (by decide)
  have hhb : ∀ c ∈ name ++ port, url.hostByte c = true := by
    intro c hc
    rcases List.mem_append.mp hc with h1 | h1
    · exact (url.hostNameOK_hostByte name hn c h1).1
    · exact url.port_hostByte port hport c h1
  have hhostb : '\\' ∉ name ++ port :=
    fun h1 => url.hostByte_ne _ '\\' (hhb _ h1) (by decide) rfl
  by_cases hs : s = []
  · -- no scheme
    subst hs
    have hp0 := hport0 rfl
    subst hp0
    simp only [List.append_nil] at hhb hhostb hwin ⊢
    by_cases hname : name = []
    · -- a bare path
      subst hname
      have hbare := hbareOK rfl (by simp)
      cases os with
      | unix =>
        have hparse := url.parse_path (path.Clean q) (pathOK_Clean q hpath) hbare
          (path.Clean_not_slash_slash q)
        simp only [toString, unix.toString, fromString, unix.fromString, ne_eq,
          not_true_eq_false, if_false, and_self, if_true]
        exact hparse
      | windows =>
        have hqb : '\\' ∉ q := (hwin rfl).2.1
        simp only [bareOK] at hbare
        by_cases hv : windows.volumeName { Scheme := [], Host := [], Path := q } = []
        · rw [if_pos hv] at hbare
          have hbC : '\\' ∉ path.Clean q := not_mem_Clean q _ hqb (by decide) (by decide)
          have hqC : '?' ∉ path.Clean q := not_mem_Clean q _ hqq (by decide) (by decide)
          have hparse := url.parse_path (path.Clean q) (pathOK_Clean q hpath) hbare.1
            (path.Clean_not_slash_slash q)
          simp only [toString, windows_toString_eq, fromString, ne_eq, not_true_eq_false,
            if_false, hv, and_self, if_true]
          rw [windows_fromString_plain _ hbC (path.Clean_not_slash_slash q) hbare.2
            (get?_one_ne_of_not_mem _ _ hqC)]
          exact hparse
        · rw [if_neg hv] at hbare
          obtain ⟨hh, hrel, hcol⟩ := hbare
          cases q with
          | nil => simp at hh
          | cons c0 x =>
            simp only [List.head?_cons, Option.some.injEq] at hh
            subst hh
            simp only [List.drop_succ_cons, List.drop_zero] at hrel hcol
            have hxb : '\\' ∉ x := fun h1 => hqb (List.mem_cons_of_mem _ h1)
            have hbC : '\\' ∉ path.Clean x := not_mem_Clean x _ hxb (by decide) (by decide)
            obtain ⟨c, r, hcr, hc⟩ : ∃ c r, path.Clean x = c :: ':' :: r ∧ c ≠ '/' := by
              cases hC : path.Clean x with
              | nil => rw [hC] at hcol; simp at hcol
              | cons c r0 =>
                rw [hC] at hcol hrel
                cases r0 with
                | nil => simp at hcol
                | cons c1 r =>
                  simp only [List.get?_cons_succ, List.get?_cons_zero, Option.some.injEq] at hcol
                  subst hcol
                  exact ⟨c, r, rfl, by simpa using hrel⟩
            have hroot2 := path.Clean_root_cons x c r hc hcr
            simp only [toString, windows_toString_eq, fromString, ne_eq, not_true_eq_false,
              if_false, hv, not_false_eq_true, if_true, and_self, List.drop_succ_cons,
              List.drop_zero, path.Clean_idem]
            rw [hroot2, hcr]
            rw [hcr] at hbC
            exact windows_fromString_drive c r hbC
    · -- a host without a scheme: Windows only
      obtain ⟨hos, hcolon⟩ := hhostonly rfl (by simpa using hname)
      subst hos
      have hvol := windows_written_path { Scheme := [], Host := name, Path := q }
        (fun hv => (hwin rfl).2.2 hv)
      simp only at hvol
      have hcn : ':' ∉ name := fun h1 => (url.hostNameOK_hostByte name hn ':' h1).2 rfl
      have hcP : ':' ∉ '/' :: P := by
        rw [← hP]; exact not_mem_Join_root q _ hcolon (by decide) (by decide)
      have hW : ['/', '/'] ++ name ++ ('/' :: P) = '/' :: '/' :: (name ++ '/' :: P) := by simp
      have hbW : '\\' ∉ '/' :: '/' :: (name ++ '/' :: P) := by
        intro h1
        simp only [List.mem_cons, List.mem_append] at h1
        rcases h1 with h1 | h1 | h1 | h1 | h1
        · exact absurd h1 (by decide)
        · exact absurd h1 (by decide)
        · exact hhostb h1
        · exact absurd h1 (by decide)
        · exact hPb (hwin rfl).2.1 (List.mem_cons_of_mem _ h1)
      have hcW : ':' ∉ '/' :: '/' :: (name ++ '/' :: P) := by
        intro h1
        simp only [List.mem_cons, List.mem_append] at h1
        rcases h1 with h1 | h1 | h1 | h1 | h1
        · exact absurd h1 (by decide)
        · exact absurd h1 (by decide)
        · exact hcn h1
        · exact absurd h1 (by decide)
        · exact hcP (List.mem_cons_of_mem _ h1)
      simp only [toString, windows_toString_eq, fromString, ne_eq, not_true_eq_false,
        if_false, hname, not_false_eq_true, if_true, and_false, hvol, hP, hW]
      rw [windows_fromString_no_colon _ hbW hcW]
      exact url.parse_host_url name P hn hname hPok
  · -- a scheme
    have hsOK : url.schemeOK s = true := by
      rcases hscheme with h1 | h1
      · exact absurd h1 hs
      · exact h1
    have hauth := url.parseAuthority_host name port hn hport
    have hparse := url.parse_scheme_url s (name ++ port) P hsOK hhb hauth hPok
    have hW : s ++ [':', '/', '/'] ++ (name ++ port) ++ ('/' :: P)
        = s ++ ':' :: '/' :: '/' :: ((name ++ port) ++ '/' :: P) := by simp
    have h3 : "://".toList = [':', '/', '/'] := rfl
    cases os with
    | unix =>
      simp only [toString, unix.toString, fromString, unix.fromString, ne_eq, hs,
        not_false_eq_true, if_true, false_and, if_false, h3, hroot, hP, hW]
      exact hparse
    | windows =>
      have hvol := windows_written_path { Scheme := s, Host := name ++ port, Path := q }
        (fun hv => (hwin rfl).2.2 hv)
      simp only at hvol
      have hsb : '\\' ∉ s := by
        intro h1
        have := (url.schemeOK_spec s hsOK).2.1 _ h1
        revert this
        decide
      have hbW : '\\' ∉ s ++ ':' :: '/' :: '/' :: ((name ++ port) ++ '/' :: P) := by
        intro h1
        simp only [List.mem_cons, List.mem_append] at h1
        rcases h1 with h1 | h1 | h1 | h1 | (h1 | h1) | h1 | h1
        · exact hsb h1
        · exact absurd h1 (by decide)
        · exact absurd h1 (by decide)
        · exact absurd h1 (by decide)
        · exact hhostb (List.mem_append_left _ h1)
        · exact hhostb (List.mem_append_right _ h1)
        · exact absurd h1 (by decide)
        · exact hPb (hwin rfl).2.1 (List.mem_cons_of_mem _ h1)
      simp only [toString, windows_toString_eq, fromString, ne_eq, hs, not_false_eq_true,
        if_true, false_and, if_false, hvol, hP, hW]
      rw [windows_fromString_scheme s _ hsOK (hwin rfl).1 hbW]
      exact hparse

end urlpath

namespace path

theorem Join_root_idem (y : GoString) : Join [['/'], Join [['/'], y]] = Join [['/'], y] := by
  conv_lhs => rw [Join_pair ['/'] y (by simp)]
  rw [Join_root_Clean]
  simp only [List.singleton_append]
  rw [Join_root_slash, Join_root_slash]

/-- The rooted cleaned path of a rooted path is its cleaned path. -/
theorem Join_root_of_abs (q : GoString) (h : IsAbs q = true) : Join [['/'], q] = Clean q := by
  cases q with
  | nil => simp [IsAbs] at h
  | cons c r =>
    have hc : c = '/' := by simpa [IsAbs] using h
    subst hc
    rw [Join_root_slash, Join_pair _ _ (by simp)]
    have := Clean_slash_slash [] r
    simpa using this

theorem IsAbs_Join_root (q : GoString) : IsAbs (Join [['/'], q]) = true := by
  obtain ⟨P, hP⟩ := Join_root_IsAbs q
  rw [hP]
  rfl

/-- Joining a file name to the rooted directory gives the rooted path. -/
theorem Join_root_Join_Split (q : GoString) :
    Join [['/'], Join [Join [['/'], (Split q).1], (Split q).2]] = Join [['/'], q] := by
  obtain ⟨h1, _, h3⟩ := Split_spec q
  generalize (Split q).1 = d at h1 h3
  generalize (Split q).2 = f at h1
  subst h1
  have hD : Join [['/'], d] ≠ [] := by
    obtain ⟨P, hP⟩ := Join_root_IsAbs d
    rw [hP]
    simp
  rw [Join_pair _ _ hD, Join_root_Clean]
  have hZ : IsAbs (Join [['/'], d] ++ '/' :: f) = true := by
    rw [IsAbs_append _ _ hD, IsAbs_Join_root]
  rw [Join_root_of_abs _ hZ]
  conv_lhs => rw [Join_pair ['/'] d (by simp)]
  rw [Clean_Clean_append _ _ (by simp)]
  rcases h3 with h3 | ⟨d1, h3⟩
  · subst h3
    have e := Clean_slash_slash ['/'] f
    have e0 : ['/'] ++ '/' :: ([] : GoString) = ['/'] ++ ['/'] := rfl
    rw [e0, e, Join_pair _ _ (by simp)]
    rfl
  · subst h3
    have e := Clean_slash_slash ('/' :: '/' :: d1) f
    have e1 : (['/'] ++ '/' :: (d1 ++ ['/'])) ++ '/' :: f
        = (('/' :: '/' :: d1) ++ ['/']) ++ '/' :: f := by simp
    rw [e1, e, Join_pair _ _ (by simp)]
    simp

end path

namespace urlpath

open url (URL)

/-- The serialization of a structure with a scheme or a host: the prefix
and the rooted cleaned path. -/
theorem toString_qualified (os : GOOS) (s h q : GoString) (hq : s ≠ [] ∨ h ≠ [])
    (hunix : os = .unix → s ≠ [])
    (hv : os = .windows →
      windows.volumeName { Scheme := s, Host := h, Path := q } ≠ [] → path.IsAbs q = true) :
    toString os { Scheme := s, Host := h, Path := q }
      = (if s ≠ [] then s ++ "://".toList ++ h else "//".toList ++ h)
          ++ path.Join [['/'], q] := by
  cases os with
  | unix =>
    have hs := hunix rfl
    simp only [toString, unix.toString, if_pos hs]
    rfl
  | windows =>
    have hvol := windows_written_path { Scheme := s, Host := h, Path := q } (hv rfl)
    simp only at hvol
    rw [toString, windows_toString_eq]
    simp only [hvol]
    by_cases hs : s = []
    · have hh : h ≠ [] := by
        rcases hq with h1 | h1
        · exact absurd hs h1
        · exact h1
      simp only [hs, ne_eq, not_true_eq_false, if_false, hh, not_false_eq_true, if_true]
      rfl
    · simp only [ne_eq, hs, not_false_eq_true, if_true]
      rfl

/-- Parsing a file name of plain bytes without a colon and without a
slash, and on Windows without a backslash. -/
theorem fromString_file (os : GOOS) (f : GoString) (hf : url.pathOK f = true)
    (hc : ':' ∉ f) (hs : '/' ∉ f) (hb : os = .windows → '\\' ∉ f) :
    fromString os f = .ok { Scheme := [], Host := [], Path := f } := by
  have hss : strings.HasPrefix f ['/', '/'] = false := by
    cases f with
    | nil => rfl
    | cons c r =>
      have : c ≠ '/' := fun h => hs (by simp [h])
      simp [strings.HasPrefix, List.isPrefixOf, Ne.symm this]
  have hparse := url.parse_plain_path f hf hc hss
  cases os with
  | unix => exact hparse
  | windows =>
    simp only [fromString]
    rw [windows_fromString_no_colon _ (hb rfl) hc]
    exact hparse

end urlpath

namespace url

theorem unescape_path_rooted (r p : GoString)
    (h : unescape ('/' :: r) .encodePath = .ok p) : ∃ p1, p = '/' :: p1 := by
  cases hu : unescape r .encodePath with
  | error e =>
    have h2 : unescape ('/' :: r) .encodePath = .error e := by
      conv_lhs => unfold unescape
      have h1 : ¬ ('/' = '%') := by decide
      simp [if_neg h1, hu]
    rw [h2] at h
    cases h
  | ok t =>
    rw [unescape_cons_ok '/' r t _ (by decide) (by simp) hu] at h
    simp only [Except.ok.injEq] at h
    exact ⟨t, h.symm⟩

theorem unescape_path_rooted_or_nil (r p : GoString) (hr : r = [] ∨ ∃ r1, r = '/' :: r1)
    (h : unescape r .encodePath = .ok p) : p = [] ∨ path.IsAbs p = true := by
  rcases hr with hr | ⟨r1, hr⟩
  · subst hr
    simp only [unescape, Except.ok.injEq] at h
    exact Or.inl h.symm
  · subst hr
    obtain ⟨p1, hp1⟩ := unescape_path_rooted r1 p h
    subst hp1
    exact Or.inr rfl

theorem dropWhile_slash_shape (l : GoString) :
    l.dropWhile (fun c => !decide (c = '/')) = []
      ∨ ∃ r1, l.dropWhile (fun c => !decide (c = '/')) = '/' :: r1 := by
  induction l with
  | nil => exact Or.inl rfl
  | cons c cs ih =>
    by_cases hc : c = '/'
    · subst hc
      exact Or.inr ⟨cs, by simp [List.dropWhile_cons]⟩
    · have : (c :: cs).dropWhile (fun c => !decide (c = '/'))
          = cs.dropWhile (fun c => !decide (c = '/')) := by
        simp [List.dropWhile_cons, hc]
      rw [this]
      exact ih

/-- The path of a parsed structure with a scheme or a host is empty or
begins with a slash. -/
theorem parse_qualified_path (raw : GoString) (u : URL) (h : parse raw = .ok u)
    (hq : u.Scheme ≠ [] ∨ u.Host ≠ []) : u.Path = [] ∨ path.IsAbs u.Path = true := by
  unfold parse at h
  by_cases h1 : stringContainsCTLByte raw = true
  · rw [if_pos h1] at h
    cases h
  rw [if_neg h1] at h
  by_cases h2 : raw = ['*']
  · rw [if_pos h2] at h
    simp only [Except.ok.injEq] at h
    subst h
    simp at hq
  rw [if_neg h2] at h
  cases hg : getScheme raw with
  | error e => rw [hg] at h; cases h
  | ok sr =>
    obtain ⟨scheme0, rest0⟩ := sr
    rw [hg] at h
    simp only at h
    generalize (if rest0.getLast? = some '?' ∧ rest0.count '?' = 1
      then rest0.dropLast else (strings.Cut rest0 '?').1) = rest1 at h
    by_cases h3 : ¬ strings.HasPrefix rest1 ['/'] = true ∧ strings.ToLower scheme0 ≠ []
    · rw [if_pos h3] at h
      simp only [Except.ok.injEq] at h
      subst h
      exact Or.inl rfl
    rw [if_neg h3] at h
    by_cases h4 : ¬ strings.HasPrefix rest1 ['/'] = true
        ∧ strings.ContainsByte (strings.Cut rest1 '/').1 ':' = true
    · rw [if_pos h4] at h
      cases h
    rw [if_neg h4] at h
    by_cases h5 : (strings.ToLower scheme0 ≠ [] ∨ ¬ strings.HasPrefix rest1 ['/', '/', '/'] = true)
        ∧ strings.HasPrefix rest1 ['/', '/'] = true
    · rw [if_pos h5] at h
      cases ha : parseAuthority
          ((rest1.drop 2).takeWhile (fun c => !decide (c = '/'))) with
      | error e => rw [ha] at h; cases h
      | ok host =>
        rw [ha] at h
        simp only at h
        cases hu : unescape ((rest1.drop 2).dropWhile (fun c => !decide (c = '/')))
            .encodePath with
        | error e => rw [hu] at h; cases h
        | ok p =>
          rw [hu] at h
          simp only [Except.ok.injEq] at h
          subst h
          exact unescape_path_rooted_or_nil _ _ (dropWhile_slash_shape _) hu
    · rw [if_neg h5] at h
      cases hu : unescape rest1 .encodePath with
      | error e => rw [hu] at h; cases h
      | ok p =>
        rw [hu] at h
        simp only [Except.ok.injEq] at h
        subst h
        simp only [ne_eq, not_true_eq_false, or_false] at hq
        have hpre : strings.HasPrefix rest1 ['/'] = true := by
          by_contra hn
          exact h3 ⟨hn, hq⟩
        cases rest1 with
        | nil => simp [strings.HasPrefix, List.isPrefixOf] at hpre
        | cons c r =>
          have hc : '/' = c := by
            simpa [strings.HasPrefix, List.isPrefixOf] using hpre
          subst hc
          obtain ⟨p1, hp1⟩ := unescape_path_rooted r p hu
          subst hp1
          exact Or.inr rfl

theorem Parse_qualified_path (raw : GoString) (u : URL) (h : Parse raw = .ok u)
    (hq : u.Scheme ≠ [] ∨ u.Host ≠ []) : u.Path = [] ∨ path.IsAbs u.Path = true := by
  unfold Parse at h
  simp only at h
  split at h
  · cases h
  · rename_i v hv
    split at h
    · simp only [Except.ok.injEq] at h
      subst h
      exact parse_qualified_path _ _ hv hq
    · split at h
      · cases h
      · simp only [Except.ok.injEq] at h
        subst h
        exact parse_qualified_path _ _ hv hq

end url

namespace urlpath

open url (URL)

/-- The path of a parsed structure with a scheme or a host is empty or
begins with a slash, on both variants. -/
theorem fromString_qualified_path (os : GOOS) (p : GoString) (u : URL)
    (h : fromString os p = .ok u) (hq : u.Scheme ≠ [] ∨ u.Host ≠ []) :
    u.Path = [] ∨ path.IsAbs u.Path = true := by
  cases os with
  | unix => exact url.Parse_qualified_path p u h hq
  | windows =>
    simp only [fromString, windows.fromString] at h
    split at h
    · simp only [Except.ok.injEq] at h
      subst h
      simp at hq
    · exact url.Parse_qualified_path _ u h hq

end urlpath

namespace urlpath

open url (URL)

/-- The unix serializer does not write a host without a scheme. -/
theorem unix_toString_no_scheme (h q : GoString) :
    toString .unix { Scheme := [], Host := h, Path := q }
      = toString .unix { Scheme := [], Host := [], Path := q } := by
  simp [toString, unix.toString]

/-- A host without a scheme is written on Windows only. -/
theorem Writable_unix_scheme (os : GOOS) (s h q : GoString)
    (hw : Writable os { Scheme := s, Host := h, Path := q }) (hq : s ≠ [] ∨ h ≠ []) :
    os = .unix → s ≠ [] := by
  intro hos hs
  obtain ⟨_, _, _, _, hhostonly, _⟩ := hw
  simp only at hhostonly
  have hh : h ≠ [] := by
    rcases hq with h1 | h1
    · exact absurd hs h1
    · exact h1
  have := (hhostonly hs hh).1
  rw [hos] at this
  cases this

/-- Cleaning the serialization of a writable structure with a cleaned path
gives that serialization. -/
theorem Clean_written (os : GOOS) (s h q : GoString)
    (hw : Writable os { Scheme := s, Host := h, Path := path.Clean q }) :
    Clean os (toString os { Scheme := s, Host := h, Path := path.Clean q })
      = (toString os { Scheme := s, Host := h, Path := path.Clean q }, none) := by
  have hrt := roundtrip os _ hw
  rw [Clean_ok os _ _ hrt]
  congr 1
  simp only [canon]
  by_cases hb : s = [] ∧ h = []
  · simp only [if_pos hb, path.Clean_idem]
  · simp only [if_neg hb]
    have hroot : "/".toList = ['/'] := rfl
    rw [hroot]
    have hq : s ≠ [] ∨ h ≠ [] := by
      by_cases hs : s = []
      · exact Or.inr (fun hh => hb ⟨hs, hh⟩)
      · exact Or.inl hs
    have hunix := Writable_unix_scheme os s h _ hw hq
    obtain ⟨_, _, _, _, _, hwin⟩ := hw
    simp only at hwin
    rw [toString_qualified os s h _ hq hunix
        (fun _ _ => by rw [path.IsAbs_Clean]; exact path.IsAbs_Join_root _),
      toString_qualified os s h _ hq hunix (fun hos hv => (hwin hos).2.2 hv),
      path.Join_root_Clean, path.Join_root_idem]

/-- Joining the file part of a path to the serialization of the structure
with the directory part gives the serialization of the structure with the
cleaned path. -/
theorem Join_Split_written (os : GOOS) (s h q : GoString)
    (hwd : Writable os { Scheme := s, Host := h, Path := (path.Split q).1 })
    (hf : url.pathOK (path.Split q).2 = true ∧ ':' ∉ (path.Split q).2
      ∧ (os = .windows → '\\' ∉ (path.Split q).2))
    (hrooted : s ≠ [] ∨ h ≠ [] → q = [] ∨ path.IsAbs q = true) :
    Join os [toString os { Scheme := s, Host := h, Path := (path.Split q).1 }, (path.Split q).2]
      = some (toString os { Scheme := s, Host := h, Path := path.Clean q }, none) := by
  have hrt := roundtrip os _ hwd
  have hfile := fromString_file os _ hf.1 hf.2.1 (path.Split_spec q).2.1 hf.2.2
  simp only [Join, joinLoop, hrt, hfile, canon]
  congr 2
  by_cases hb : s = [] ∧ h = []
  · simp only [if_pos hb, path.Join_Clean_Split]
  · simp only [if_neg hb]
    have hroot : "/".toList = ['/'] := rfl
    rw [hroot]
    have hq : s ≠ [] ∨ h ≠ [] := by
      by_cases hs : s = []
      · exact Or.inr (fun hh => hb ⟨hs, hh⟩)
      · exact Or.inl hs
    have hunix := Writable_unix_scheme os s h _ hwd hq
    have hD : path.Join [['/'], (path.Split q).1] ≠ [] := by
      obtain ⟨P, hP⟩ := path.Join_root_IsAbs (path.Split q).1
      rw [hP]
      simp
    have hJ : path.IsAbs (path.Join [path.Join [['/'], (path.Split q).1], (path.Split q).2])
        = true := by
      rw [path.Join_pair _ _ hD, path.IsAbs_Clean, path.IsAbs_append _ _ hD,
        path.IsAbs_Join_root]
    have hC : os = .windows →
        windows.volumeName { Scheme := s, Host := h, Path := path.Clean q } ≠ [] →
        path.IsAbs (path.Clean q) = true := by
      intro _ hv
      rcases hrooted hq with h0 | h0
      · subst h0
        exact absurd rfl hv
      · rw [path.IsAbs_Clean]
        exact h0
    rw [toString_qualified os s h _ hq hunix (fun _ _ => hJ),
      toString_qualified os s h _ hq hunix hC, path.Join_root_Clean,
      path.Join_root_Join_Split]

end urlpath

namespace path

theorem IsAbs_iff_head (q : GoString) : IsAbs q = true ↔ q.head? = some '/' := by
  cases q with
  | nil => simp [IsAbs]
  | cons c cs => simp [IsAbs]

end path

namespace urlpath

open url (URL)

/-! ## C11: `IsAbs` -/

/-- The predicate of `IsAbs`: for every `p` that parses to `(scheme, host,
path)`, `IsAbs(p)` succeeds and is true exactly when, on unix, the scheme is
not empty or the path begins with a slash; on Windows, the scheme is not
empty, or the host is not empty, or `volumeName(u) != ""`, or the path begins
with a slash.  A path `/X:...`, as the Windows parser stores a drive-letter
path, has `volumeName(u) != ""`. -/
theorem IsAbs_spec (os : GOOS) (p : GoString) (u : URL) (hp : fromString os p = .ok u) :
    (os = .unix → IsAbs os p
        = (decide (u.Scheme ≠ [] ∨ u.Path.head? = some '/'), none))
    ∧ (os = .windows → IsAbs os p
        = (decide (u.Scheme ≠ [] ∨ u.Host ≠ [] ∨ windows.volumeName u ≠ []
            ∨ u.Path.head? = some '/'), none))
    ∧ (∀ c rest, u.Path = '/' :: c :: ':' :: rest → windows.volumeName u ≠ []) := by
  refine ⟨?_, ?_, ?_⟩
  · intro hos
    subst hos
    simp only [IsAbs, hp, isAbsURL, unix.isAbsURL, ← path.IsAbs_iff_head]
    congr 1
    by_cases h1 : u.Scheme = [] <;> cases h2 : path.IsAbs u.Path <;> simp [h1]
  · intro hos
    subst hos
    simp only [IsAbs, hp, isAbsURL, windows.isAbsURL, ← path.IsAbs_iff_head]
    congr 1
    by_cases h1 : u.Scheme = [] <;> by_cases h3 : u.Host = []
      <;> by_cases h4 : windows.volumeName u = [] <;> cases h2 : path.IsAbs u.Path
      <;> simp [h1, h3, h4]
  · intro c rest hq
    have hlen : filepath.volumeNameLen (c :: ':' :: rest) = 2 := by
      simp [filepath.volumeNameLen]
    simp [windows.volumeName, hq, filepath.VolumeName, hlen, filepath.FromSlash,
      strings.ReplaceAll]

/-- C11, the code at the failing input: on Windows `x//a/b` parses to the
relative path `x//a/b`, with no scheme and no host; the path has no drive
letter (no colon at all) and does not begin with a slash, so the predicate of
the claim is false.  `volumeName` reads the path from its second byte on,
`//a/b`, which `filepath.VolumeName` takes for a UNC volume, and
`IsAbs("x//a/b")` is true.  On unix it is false.  The examples of the claim
hold on both variants. -/
theorem C11_windows_IsAbs_relative_path :
    fromString .windows "x//a/b".toList
        = .ok { Scheme := [], Host := [], Path := "x//a/b".toList }
    ∧ ':' ∉ "x//a/b".toList
    ∧ ("x//a/b".toList).head? ≠ some '/'
    ∧ windows.volumeName { Scheme := [], Host := [], Path := "x//a/b".toList }
        = "\\\\a\\b".toList
    ∧ IsAbs .windows "x//a/b".toList = (true, none)
    ∧ IsAbs .unix "x//a/b".toList = (false, none)
    ∧ (IsAbs .unix [] = (false, none) ∧ IsAbs .windows [] = (false, none))
    ∧ (IsAbs .unix "./test.txt".toList = (false, none)
      ∧ IsAbs .windows "./test.txt".toList = (false, none))
    ∧ (IsAbs .unix "http://localhost:8118".toList = (true, none)
      ∧ IsAbs .windows "http://localhost:8118".toList = (true, none))
    ∧ IsAbs .windows "C:/home/user/test.txt".toList = (true, none) :=
  ⟨by decide, by decide, by decide, by decide, by decide, by decide,
   ⟨by decide, by decide⟩, ⟨by decide, by decide⟩, ⟨by decide, by decide⟩, by decide⟩

/-! ## C12: `Path` -/

/-- C12, counterexample: `Path` prefixes the host only for a `file` URL or a
URL without a scheme.  On Windows `Path("http://localhost:8118/home/user/test.txt")`
is `/home/user/test.txt`, as the test of the package expects, and not
`//localhost:8118/home/user/test.txt`. -/
theorem C12_Path_http_host_not_prefixed :
    fromString .windows "http://localhost:8118/home/user/test.txt".toList
        = .ok { Scheme := "http".toList, Host := "localhost:8118".toList,
                Path := "/home/user/test.txt".toList }
    ∧ Path .windows "http://localhost:8118/home/user/test.txt".toList
        = ("/home/user/test.txt".toList, none)
    ∧ Path .windows "http://localhost:8118/home/user/test.txt".toList
        ≠ ("//localhost:8118/home/user/test.txt".toList, none)
    ∧ Path .windows "file://127.0.0.1/home/user/test.txt".toList
        = ("//127.0.0.1/home/user/test.txt".toList, none) :=
  ⟨by decide, by decide, by decide, by decide⟩

/-- C12, amended (Windows variant): for every `p` that parses to a structure
whose path is rooted when it carries a volume, `Path(p)` succeeds; with a
non-empty host and the scheme `file` or no scheme it is `//` + host + the
rooted cleaned path `path.Join("/", path)`; in every other case (empty host,
or a host with another scheme) it is `path.Clean` of the path, taken without
its leading slash when the path carries a volume. -/
theorem C12_Path_spec (p : GoString) (u : URL) (hp : fromString .windows p = .ok u)
    (hv : windows.volumeName u ≠ [] → u.Path.head? = some '/') :
    Path .windows p =
      (if u.Host ≠ [] ∧ (u.Scheme = "file".toList ∨ u.Scheme = []) then
          "//".toList ++ u.Host ++ path.Join ["/".toList, u.Path]
        else path.Clean (if windows.volumeName u ≠ [] then u.Path.drop 1 else u.Path),
       none) := by
  have hroot : "/".toList = ['/'] := rfl
  simp only [Path, hp, pathURL, windows.pathURL, windows.isFileURL, hroot]
  congr 1
  by_cases hvol : windows.volumeName u ≠ []
  · have hh := hv hvol
    obtain ⟨s, h, q⟩ := u
    cases q with
    | nil => simp at hh
    | cons c r =>
      simp only [List.head?_cons, Option.some.injEq] at hh
      subst hh
      simp only [if_pos hvol, List.drop_succ_cons, List.drop_zero, Bool.or_eq_true,
        decide_eq_true_eq, path.Join_root_slash]
      by_cases h1 : h = [] <;> by_cases h2 : s = "file".toList <;> by_cases h3 : s = []
        <;> simp [h1, h2, h3]
  · obtain ⟨s, h, q⟩ := u
    simp only [if_neg hvol, Bool.or_eq_true, decide_eq_true_eq]
    by_cases h1 : h = [] <;> by_cases h2 : s = "file".toList <;> by_cases h3 : s = []
      <;> simp [h1, h2, h3]

/-- C12, witness: a `file` URL with a host, a drive-letter path, and a
`file` URL with a volume and no host. -/
theorem C12_Path_spec_witness :
    Path .windows "file://127.0.0.1/home/user/../test.txt".toList
        = ("//127.0.0.1/home/test.txt".toList, none)
    ∧ Path .windows "C:/home/user/test.txt".toList = ("C:/home/user/test.txt".toList, none)
    ∧ Path .windows "file:///C:/home/user/test.txt".toList
        = ("C:/home/user/test.txt".toList, none) :=
  ⟨(C12_Path_spec "file://127.0.0.1/home/user/../test.txt".toList
      { Scheme := "file".toList, Host := "127.0.0.1".toList,
        Path := "/home/user/../test.txt".toList }
      (by decide) (by decide)).trans (by decide),
   (C12_Path_spec "C:/home/user/test.txt".toList
      { Scheme := [], Host := [], Path := "/C:/home/user/test.txt".toList }
      (by decide) (by decide)).trans (by decide),
   (C12_Path_spec "file:///C:/home/user/test.txt".toList
      { Scheme := "file".toList, Host := [], Path := "/C:/home/user/test.txt".toList }
      (by decide) (by decide)).trans (by decide)⟩

/-! ## C13: the volume of a Windows path -/

/-- C13, the code at the failing input: on Windows the volume is an ordinary
first path element for `path.Clean`, `path.Dir` and `path.Join`, so `..`
removes it.  `C:/..` parses to the path `/C:/..`, which carries the volume
`C:`, and `Clean("C:/..")` is `/`; `Dir("C:")` is `/`; and
`Join("C:/home", "../..")` is `/`.  The volume is lost. -/
theorem C13_windows_volume_lost :
    fromString .windows "C:/..".toList
        = .ok { Scheme := [], Host := [], Path := "/C:/..".toList }
    ∧ windows.volumeName { Scheme := [], Host := [], Path := "/C:/..".toList } = "C:".toList
    ∧ Clean .windows "C:/..".toList = ("/".toList, none)
    ∧ Dir .windows "C:".toList = ("/".toList, none)
    ∧ Join .windows ["C:/home".toList, "../..".toList] = some ("/".toList, none)
    ∧ Clean .windows "C:/home/user/../test.txt".toList = ("C:/home/test.txt".toList, none) :=
  ⟨by decide, by decide, by decide, by decide, by decide, by decide⟩

end urlpath

namespace urlpath

open url (URL)

/-! ## C14: parse failure is the only failure -/

theorem parses_iff_not_error (os : GOOS) (s : GoString) :
    parses os s ↔ ∀ e, fromString os s ≠ .error e := by
  unfold parses
  cases h : fromString os s with
  | error e => simp
  | ok u => simp

theorem root_parses (os : GOOS) : parses os "/".toList := by
  cases os
  · exact ⟨{ Scheme := [], Host := [], Path := ['/'] }, by decide⟩
  · exact ⟨{ Scheme := [], Host := [], Path := ['/'] }, by decide⟩

theorem joinLoop_error_iff (os : GOOS) (es : List GoString) :
    ∀ uf : URL, ((∃ uf1, joinLoop os uf es = .ok uf1) ↔ ∀ x ∈ es, parses os x) := by
  induction es with
  | nil => intro uf; simp [joinLoop]
  | cons e es ih =>
    intro uf
    cases h : fromString os e with
    | error err =>
      simp only [joinLoop, h, List.mem_cons, forall_eq_or_imp, parses]
      simp
    | ok u =>
      simp only [joinLoop, h, List.mem_cons, forall_eq_or_imp]
      rw [ih]
      simp [show parses os e from ⟨u, h⟩]

/-- C14: parse failure is the only failure and it is all-or-nothing.  Each of
`Abs`, `Base`, `Dir`, `Ext`, `Clean`, `IsAbs`, `Join` (of at least one
element), `Split` and `Path` returns no error exactly when all its string
inputs parse (for `Abs`: `pth` and `wd` after the default `/` for the empty
`wd`; for `Join`: every element), and with an error the result is the zero
value (the empty string, `false`). -/
theorem C14_parse_failure_only (os : GOOS) :
    (∀ p wd, ((Abs os p wd).2 = none
          ↔ parses os p ∧ parses os (if wd = [] then "/".toList else wd))
        ∧ ((Abs os p wd).2 ≠ none → (Abs os p wd).1 = []))
    ∧ (∀ p, ((Base os p).2 = none ↔ parses os p)
        ∧ ((Base os p).2 ≠ none → (Base os p).1 = []))
    ∧ (∀ p, ((Dir os p).2 = none ↔ parses os p)
        ∧ ((Dir os p).2 ≠ none → (Dir os p).1 = []))
    ∧ (∀ p, ((Ext os p).2 = none ↔ parses os p)
        ∧ ((Ext os p).2 ≠ none → (Ext os p).1 = []))
    ∧ (∀ p, ((Clean os p).2 = none ↔ parses os p)
        ∧ ((Clean os p).2 ≠ none → (Clean os p).1 = []))
    ∧ (∀ p, ((IsAbs os p).2 = none ↔ parses os p)
        ∧ ((IsAbs os p).2 ≠ none → (IsAbs os p).1 = false))
    ∧ (∀ e es, ∃ r, Join os (e :: es) = some r
        ∧ (r.2 = none ↔ ∀ x ∈ e :: es, parses os x)
        ∧ (r.2 ≠ none → r.1 = []))
    ∧ (∀ p, ((Split os p).2.2 = none ↔ parses os p)
        ∧ ((Split os p).2.2 ≠ none → (Split os p).1 = [] ∧ (Split os p).2.1 = []))
    ∧ (∀ p, ((Path os p).2 = none ↔ parses os p)
        ∧ ((Path os p).2 ≠ none → (Path os p).1 = [])) := by
  refine ⟨?_, ?_, ?_, ?_, ?_, ?_, ?_, ?_, ?_⟩
  · intro p wd
    cases h : fromString os p with
    | error err => simp [Abs, h, parses]
    | ok u =>
      cases h2 : fromString os (if wd = [] then "/".toList else wd) with
      | error err => simp only [Abs, h, h2, parses]; simp
      | ok w => simp only [Abs, h, h2, parses]; simp
  · intro p
    cases h : fromString os p <;> simp [Base, h, parses]
  · intro p
    cases h : fromString os p <;> simp [Dir, h, parses]
  · intro p
    cases h : fromString os p <;> simp [Ext, h, parses]
  · intro p
    cases h : fromString os p <;> simp [Clean, h, parses]
  · intro p
    cases h : fromString os p <;> simp [IsAbs, h, parses]
  · intro e es
    cases h : fromString os e with
    | error err =>
      refine ⟨([], some err), by simp [Join, h], ?_, by simp⟩
      simp [parses, h]
    | ok uf =>
      have hl := joinLoop_error_iff os es uf
      cases h2 : joinLoop os uf es with
      | error err =>
        refine ⟨([], some err), by simp [Join, h, h2], ?_, by simp⟩
        rw [h2] at hl
        simp only [List.mem_cons, forall_eq_or_imp]
        simp only [reduceCtorEq, exists_false, false_iff] at hl
        simp only [reduceCtorEq, false_iff, not_and]
        intro _
        exact hl
      | ok uf1 =>
        refine ⟨(toString os uf1, none), by simp [Join, h, h2], ?_, by simp⟩
        rw [h2] at hl
        simp only [List.mem_cons, forall_eq_or_imp, true_iff]
        exact ⟨⟨uf, h⟩, hl.mp ⟨uf1, rfl⟩⟩
  · intro p
    cases h : fromString os p <;> simp [Split, h, parses]
  · intro p
    cases h : fromString os p <;> simp [Path, h, parses]

/-! ## C15: panics -/

/-- C15, counterexample: `Join()` with no element leaves the first structure
`uf` nil and passes it to `toString`, which reads its fields: the call
panics, it returns neither a value nor an error (`none` in this embedding),
on both variants. -/
theorem C15_Join_no_elements_panics :
    Join .unix [] = none ∧ Join .windows [] = none :=
  ⟨rfl, rfl⟩

/-- C15, amended: with one or more elements `Join` returns a value or an
error, on both variants, and a structure for which `volumeName` reports a
volume has a non-empty path, so that every slice `Path[1:]` taken by the
Windows variant, in `volumeName`, `toString` and `pathURL`, is in range. -/
theorem C15_no_panic_with_elements (os : GOOS) :
    (∀ e es, ∃ r, Join os (e :: es) = some r)
    ∧ (∀ u : URL, windows.volumeName u ≠ [] → u.Path ≠ []) := by
  refine ⟨?_, ?_⟩
  · intro e es
    cases h : fromString os e with
    | error err => exact ⟨([], some err), by simp only [Join, h]⟩
    | ok uf =>
      cases h2 : joinLoop os uf es with
      | error err => exact ⟨([], some err), by simp only [Join, h, h2]⟩
      | ok uf1 => exact ⟨(toString os uf1, none), by simp only [Join, h, h2]⟩
  · intro u hv hq
    exact hv (by simp [windows.volumeName, hq])

/-- C15, witness: the structure parsed from `C:/home` on Windows has the
volume `C:` and the path `/C:/home`, which is not empty; `Join` of the single
element `C:/home` returns. -/
theorem C15_no_panic_with_elements_witness :
    windows.volumeName { Scheme := [], Host := [], Path := "/C:/home".toList } ≠ []
    ∧ "/C:/home".toList ≠ []
    ∧ ∃ r, Join .windows ["C:/home".toList] = some r :=
  ⟨by decide,
    (C15_no_panic_with_elements .windows).2
      { Scheme := [], Host := [], Path := "/C:/home".toList } (by decide),
    (C15_no_panic_with_elements .windows).1 "C:/home".toList []⟩

/-! ## C19: `Split` and `Dir` on unix -/

theorem unix_toString_Clean (s h q : GoString) :
    unix.toString { Scheme := s, Host := h, Path := q }
      = unix.toString { Scheme := s, Host := h, Path := path.Clean q } := by
  have hroot : "/".toList = ['/'] := rfl
  simp only [unix.toString, hroot, path.Join_root_Clean, path.Clean_idem]

/-- C19: on the unix variant serialization gives the same string for a path
and for its cleaned form, `toString(s, h, q) = toString(s, h, path.Clean(q))`,
and so for every `p` that parses to `(s, h, q)`, `Dir(p)` succeeds and is the
first component of `Split(p)`, the serialization of `(s, h, d)` where
`path.Split(q) = (d, f)`. -/
theorem C19_unix_Split_dir_eq_Dir (p : GoString) (u : URL)
    (hp : fromString .unix p = .ok u) :
    (∀ s h q, unix.toString { Scheme := s, Host := h, Path := q }
        = unix.toString { Scheme := s, Host := h, Path := path.Clean q })
    ∧ (Split .unix p).1 = (Dir .unix p).1
    ∧ (Dir .unix p).2 = none
    ∧ Split .unix p
        = (unix.toString { u with Path := (path.Split u.Path).1 }, (path.Split u.Path).2, none) := by
  refine ⟨unix_toString_Clean, ?_, ?_, ?_⟩
  · simp only [Split, Dir, hp, toString]
    obtain ⟨s, h, q⟩ := u
    simp only [path.Dir]
    exact unix_toString_Clean s h _
  · simp [Dir, hp]
  · simp [Split, hp, toString]

/-- C19, witness: `Split` and `Dir` of `mem:///home/user/test.txt`, and of a
relative path whose directory is cleaned by the serialization. -/
theorem C19_unix_Split_dir_eq_Dir_witness :
    ((Split .unix "mem:///home/user/test.txt".toList).1
        = (Dir .unix "mem:///home/user/test.txt".toList).1
      ∧ Dir .unix "mem:///home/user/test.txt".toList = ("mem:///home/user".toList, none))
    ∧ ((Split .unix "a/./b//c".toList).1 = (Dir .unix "a/./b//c".toList).1
      ∧ Split .unix "a/./b//c".toList = ("a/b".toList, "c".toList, none)) :=
  ⟨⟨(C19_unix_Split_dir_eq_Dir "mem:///home/user/test.txt".toList
        { Scheme := "mem".toList, Host := [], Path := "/home/user/test.txt".toList }
        (by decide)).2.1, by decide⟩,
   ⟨(C19_unix_Split_dir_eq_Dir "a/./b//c".toList
        { Scheme := [], Host := [], Path := "a/./b//c".toList } (by decide)).2.1,
     by decide⟩⟩

/-! ## C20: the character dropped by the Windows variant -/

/-- C20, the code at the failing input: on Windows `./xC:/y` parses to the
relative path `./xC:/y`, and `Clean` passes the structure with the path
`path.Clean("./xC:/y") = "xC:/y"` to `toString`.  For that structure
`volumeName` reports the volume `C:`, read from the second byte on, though the
path does not begin with a slash; `toString` drops the first byte `x`, a
character of the caller, and `Clean("./xC:/y")` is `C:/y`.  In the same way
`Join("a/..", "/xC:/y")` is `C:/y`. -/
theorem C20_windows_drops_caller_byte :
    fromString .windows "./xC:/y".toList
        = .ok { Scheme := [], Host := [], Path := "./xC:/y".toList }
    ∧ path.Clean "./xC:/y".toList = "xC:/y".toList
    ∧ windows.volumeName { Scheme := [], Host := [], Path := "xC:/y".toList } = "C:".toList
    ∧ ("xC:/y".toList).head? ≠ some '/'
    ∧ windows.toString { Scheme := [], Host := [], Path := "xC:/y".toList } = "C:/y".toList
    ∧ Clean .windows "./xC:/y".toList = ("C:/y".toList, none)
    ∧ Join .windows ["a/..".toList, "/xC:/y".toList] = some ("C:/y".toList, none) :=
  ⟨by decide, by decide, by decide, by decide, by decide, by decide, by decide⟩

end urlpath

namespace urlpath

open url (URL)

/-! ## C17: `Base` -/

/-- C17: for every `p` that parses with path component `q`, `Base(p)`
succeeds and is `path.Base(q)`, a function of `q` alone, taken on `q` as it
is, not cleaned: `.` when `q` is empty, `/` when `q` is not empty and
consists only of slashes, and otherwise the last non-empty element of `q`
split at the slashes; a `q` with a byte other than a slash has such an
element. -/
theorem C17_Base_spec (os : GOOS) (p : GoString) (u : URL) (hp : fromString os p = .ok u) :
    Base os p = (path.Base u.Path, none)
    ∧ path.Base u.Path =
        (if u.Path = [] then ".".toList else
          match ((path.segs u.Path).filter (fun e => !decide (e = []))).getLast? with
          | none => "/".toList
          | some e => e)
    ∧ (u.Path ≠ [] → (∀ c ∈ u.Path, c = '/') → path.Base u.Path = "/".toList)
    ∧ ((∃ c ∈ u.Path, c ≠ '/') →
        ∃ e, ((path.segs u.Path).filter (fun e => !decide (e = []))).getLast? = some e
          ∧ e ≠ [] ∧ '/' ∉ e ∧ path.Base u.Path = e) := by
  refine ⟨by simp [Base, hp], path.Base_spec u.Path, path.Base_all_slashes u.Path, ?_⟩
  rintro ⟨c, hc, hs⟩
  obtain ⟨e, he, hce⟩ := path.mem_segs_of_mem u.Path c hc hs
  have hmem : e ∈ (path.segs u.Path).filter (fun e => !decide (e = [])) := by
    rw [List.mem_filter]
    refine ⟨he, ?_⟩
    have : e ≠ [] := List.ne_nil_of_mem hce
    simp [this]
  have hne : (path.segs u.Path).filter (fun e => !decide (e = [])) ≠ [] :=
    List.ne_nil_of_mem hmem
  refine ⟨_, List.getLast?_eq_getLast _ hne, ?_, ?_, ?_⟩
  · have h1 := List.getLast_mem hne
    rw [List.mem_filter] at h1
    simpa using h1.2
  · have h1 := List.getLast_mem hne
    rw [List.mem_filter] at h1
    exact path.not_mem_of_mem_segs u.Path _ h1.1
  · have hq : u.Path ≠ [] := List.ne_nil_of_mem hc
    rw [path.Base_spec, if_neg hq, List.getLast?_eq_getLast _ hne]

/-- C17, witness: the two examples of the claim, a path that `Base` does not
clean, a path with trailing slashes and a path of slashes only. -/
theorem C17_Base_spec_witness :
    (Base .unix "http://localhost:8118".toList = (".".toList, none)
      ∧ Base .windows "http://localhost:8118".toList = (".".toList, none))
    ∧ (Base .unix "mem:///home/user/test.txt".toList = ("test.txt".toList, none)
      ∧ Base .windows "mem:///home/user/test.txt".toList = ("test.txt".toList, none))
    ∧ Base .unix "http://h/a/b/..".toList = ("..".toList, none)
    ∧ Base .unix "a/b//".toList = ("b".toList, none)
    ∧ Base .unix "///".toList = ("/".toList, none) :=
  ⟨⟨(C17_Base_spec .unix "http://localhost:8118".toList
        { Scheme := "http".toList, Host := "localhost:8118".toList, Path := [] }
        (by decide)).1.trans (by decide),
     (C17_Base_spec .windows "http://localhost:8118".toList
        { Scheme := "http".toList, Host := "localhost:8118".toList, Path := [] }
        (by decide)).1.trans (by decide)⟩,
   ⟨(C17_Base_spec .unix "mem:///home/user/test.txt".toList
        { Scheme := "mem".toList, Host := [], Path := "/home/user/test.txt".toList }
        (by decide)).1.trans (by decide),
     (C17_Base_spec .windows "mem:///home/user/test.txt".toList
        { Scheme := "mem".toList, Host := [], Path := "/home/user/test.txt".toList }
        (by decide)).1.trans (by decide)⟩,
   (C17_Base_spec .unix "http://h/a/b/..".toList
        { Scheme := "http".toList, Host := "h".toList, Path := "/a/b/..".toList }
        (by decide)).1.trans (by decide),
   (C17_Base_spec .unix "a/b//".toList
        { Scheme := [], Host := [], Path := "a/b//".toList } (by decide)).1.trans (by decide),
   (C17_Base_spec .unix "///".toList
        { Scheme := [], Host := [], Path := "///".toList } (by decide)).1.trans (by decide)⟩

/-! ## C18: serialization with a scheme -/

/-- C18: for every structure with a non-empty scheme and any path, on both
variants, serialization returns scheme + `://` + host + `/` + `r`, where `r`
is empty or every element of `r` split at the slashes is non-empty, without a
slash, and neither `.` nor `..`; so the path part is never empty, begins with
exactly one slash (`r` does not begin with a slash) and has no trailing slash
unless it is `/` (`r` does not end with a slash).  On unix the path part is
`path.Join("/", q)`. -/
theorem C18_scheme_serialization (os : GOOS) (s h q : GoString) (hs : s ≠ []) :
    ∃ r, toString os { Scheme := s, Host := h, Path := q }
        = s ++ "://".toList ++ h ++ '/' :: r
      ∧ (r = [] ∨ ∀ e ∈ path.segs r, e ≠ [] ∧ '/' ∉ e ∧ e ≠ ".".toList ∧ e ≠ "..".toList)
      ∧ r.head? ≠ some '/' ∧ r.getLast? ≠ some '/'
      ∧ (os = .unix → '/' :: r = path.Join ["/".toList, q]) := by
  have hroot : "/".toList = ['/'] := rfl
  have key : ∀ q1 : GoString, ∃ r, path.Join [['/'], q1] = '/' :: r
      ∧ (r = [] ∨ ∀ e ∈ path.segs r, e ≠ [] ∧ '/' ∉ e ∧ e ≠ ".".toList ∧ e ≠ "..".toList)
      ∧ r.head? ≠ some '/' ∧ r.getLast? ≠ some '/' := by
    intro q1
    obtain ⟨r, h1, h2⟩ := path.Join_root_shape q1
    refine ⟨r, h1, ?_, ?_, ?_⟩
    · rcases h2 with h2 | h2
      · exact Or.inl h2
      · exact Or.inr (fun e he => ⟨(h2 e he).1.1, (h2 e he).1.2, (h2 e he).2.1, (h2 e he).2.2⟩)
    · intro hh
      rcases h2 with h2 | h2
      · simp [h2] at hh
      · exact (h2 [] (path.segs_head_slash r hh)).1.1 rfl
    · intro hh
      rcases h2 with h2 | h2
      · simp [h2] at hh
      · exact (h2 [] (path.segs_last_slash r hh)).1.1 rfl
  cases os with
  | unix =>
    obtain ⟨r, h1, h2, h3, h4⟩ := key q
    refine ⟨r, ?_, h2, h3, h4, fun _ => by rw [hroot, h1]⟩
    simp only [toString, unix.toString, if_pos hs, hroot, h1]
  | windows =>
    by_cases hv : windows.volumeName { Scheme := s, Host := h, Path := q } ≠ []
    · obtain ⟨r, h1, h2, h3, h4⟩ := key (path.Clean (q.drop 1))
      refine ⟨r, ?_, h2, h3, h4, fun h => by cases h⟩
      simp only [toString, windows.toString, if_pos hv, if_pos hs, hroot, h1]
    · obtain ⟨r, h1, h2, h3, h4⟩ := key q
      refine ⟨r, ?_, h2, h3, h4, fun h => by cases h⟩
      simp only [toString, windows.toString, if_neg hv, if_pos hs, hroot, h1]

/-- C18, witness: the structure of `http://localhost:8118`, whose path is
empty, and the examples of the claim: `Clean` and `Dir` of
`http://localhost:8118` are `http://localhost:8118/`; `..` does not climb
above the root. -/
theorem C18_scheme_serialization_witness :
    (∃ r, toString .unix { Scheme := "http".toList, Host := "localhost:8118".toList, Path := [] }
        = "http".toList ++ "://".toList ++ "localhost:8118".toList ++ '/' :: r
      ∧ (r = [] ∨ ∀ e ∈ path.segs r, e ≠ [] ∧ '/' ∉ e ∧ e ≠ ".".toList ∧ e ≠ "..".toList)
      ∧ r.head? ≠ some '/' ∧ r.getLast? ≠ some '/'
      ∧ (GOOS.unix = .unix → '/' :: r = path.Join ["/".toList, []]))
    ∧ Clean .unix "http://localhost:8118".toList = ("http://localhost:8118/".toList, none)
    ∧ Dir .unix "http://localhost:8118".toList = ("http://localhost:8118/".toList, none)
    ∧ Clean .windows "http://localhost:8118".toList = ("http://localhost:8118/".toList, none)
    ∧ Dir .windows "http://localhost:8118".toList = ("http://localhost:8118/".toList, none)
    ∧ toString .unix (URL.mk "http".toList "h".toList "a/../../b//c/.".toList)
        = "http://h/b/c".toList :=
  ⟨C18_scheme_serialization .unix "http".toList "localhost:8118".toList [] (by decide),
   by decide, by decide, by decide, by decide, by decide⟩

end urlpath

namespace urlpath

open url (URL)

/-! ## C16: `Match` -/

/-- C16, counterexample: `Match` is `path.Match` of Go, which is not the
glob matching of the claim.  The name `%E2%82%AC` serialises as the three
bytes of the single character U+20AC; the pattern `*??` matches it, though
`?` stands for one character: the star skips one byte and each `?` takes one
of the two bytes left.  The pattern `?` matches `%C3%A9`, two bytes, so `?`
is not one byte either.  And the class of `[/]x` matches the slash of `/x`,
which no bracket expression of a POSIX glob does. -/
theorem C16_Match_not_glob :
    (fromString .unix "%E2%82%AC".toList
        = .ok { Scheme := [], Host := [], Path := "\xE2\x82\xAC".toList }
      ∧ toString .unix { Scheme := [], Host := [], Path := "\xE2\x82\xAC".toList }
        = "\xE2\x82\xAC".toList
      ∧ utf8.DecodeRuneInString "\xE2\x82\xAC".toList = (0x20AC, 3)
      ∧ Match .unix "*??".toList "%E2%82%AC".toList = (true, none)
      ∧ Match .windows "*??".toList "%E2%82%AC".toList = (true, none)
      ∧ Match .unix "??".toList "%E2%82%AC".toList = (false, none))
    ∧ (toString .unix { Scheme := [], Host := [], Path := "\xC3\xA9".toList }
        = "\xC3\xA9".toList
      ∧ Match .unix "?".toList "%C3%A9".toList = (true, none))
    ∧ (toString .unix { Scheme := [], Host := [], Path := "/x".toList } = "/x".toList
      ∧ Match .unix "[/]x".toList "/x".toList = (true, none)) :=
  ⟨⟨by decide, by decide, by decide, by decide, by decide, by decide⟩,
   ⟨by decide, by decide⟩, ⟨by decide, by decide⟩⟩

/-- C16, amended: for every pattern and every `name` that parses to `u`,
`Match(pattern, name)` is `path.Match` of the pattern against the
serialization `toString(u)` as a whole, scheme and host included; the run of
`path.Match` ends with any fuel above the length of the pattern; the error
depends on the pattern alone (it is the error `path.Match` gives for the
pattern on the empty text) and comes with the result `false`; a well-formed
pattern gives no error.  For a well-formed pattern none of whose classes
accepts a slash, when the serialization is ASCII or the pattern has stars and
literal bytes only, the result is true exactly when the items of the pattern
match the whole serialization: `*` any run of bytes other than `/`, `?` one
byte other than `/`, a class one byte of its ranges (or of none of them, for
a negated class), any other byte, also after a backslash, itself.  A name
that does not parse gives its parse error. -/
theorem C16_Match_spec (os : GOOS) (pattern name : GoString) (u : URL)
    (hp : fromString os name = .ok u) :
    Match os pattern name = path.Match pattern (toString os u)
    ∧ (∀ fuel, pattern.length < fuel →
        path.matchLoop fuel pattern (toString os u) = path.Match pattern (toString os u))
    ∧ (Match os pattern name).2 = (path.Match pattern []).2
    ∧ ((Match os pattern name).2 ≠ none → (Match os pattern name).1 = false)
    ∧ (∀ items, path.Parses pattern items → (Match os pattern name).2 = none)
    ∧ (∀ items, path.Parses pattern items →
        (∀ i ∈ items, i.accepts '/' = true → ∃ c, i = .lit c) →
        ((∀ c ∈ toString os u, c.toNat < 128)
          ∨ (∀ i ∈ items, i = .star ∨ ∃ c, i = .lit c)) →
        ((Match os pattern name).1 = true ↔ path.Glob items (toString os u)))
    ∧ (∀ name2 err, fromString os name2 = .error err →
        Match os pattern name2 = (false, some err)) := by
  have hM : Match os pattern name = path.Match pattern (toString os u) := by
    simp only [Match, hp]
  refine ⟨hM, ?_, ?_, ?_, ?_, ?_, ?_⟩
  · intro fuel hf
    exact path.matchLoop_fuel fuel _ pattern _ hf (Nat.lt_succ_self _)
  · rw [hM]
    simp only [path.Match, path.matchLoop_err]
  · rw [hM]
    exact path.matchLoop_err_false _ _ _
  · intro items hpar
    rw [hM]
    exact path.Match_parses_ok pattern items _ hpar
  · intro items hpar hS hH
    rw [hM]
    exact (path.Match_glob pattern items _ hpar hS hH).2
  · intro name2 err h
    simp only [Match, h]

/-- C16, witness: the example of the claim on both variants, the same name
against its path alone, a pattern with a class and an escape, and a
malformed pattern. -/
theorem C16_Match_spec_witness :
    (Match .unix "*:///home/user/test.txt".toList "mem:///home/user/test.txt".toList
        = (true, none)
      ∧ path.Glob (path.plainItems "*:///home/user/test.txt".toList)
          "mem:///home/user/test.txt".toList)
    ∧ Match .windows "*:///home/user/test.txt".toList "mem:///home/user/test.txt".toList
        = (true, none)
    ∧ (Match .unix "/home/user/test.txt".toList "mem:///home/user/test.txt".toList
        = (false, none)
      ∧ ¬ path.Glob (path.plainItems "/home/user/test.txt".toList)
          "mem:///home/user/test.txt".toList)
    ∧ (Match .unix "[a-z]\\*?".toList "m*x".toList = (true, none)
      ∧ path.Glob [.cls false [(97, 122)], .lit '*', .any] "m*x".toList)
    ∧ Match .unix "mem://*/test.txt".toList "mem:///home/user/test.txt".toList = (false, none)
    ∧ Match .unix "[".toList "mem:///home/user/test.txt".toList
        = (false, some Error.errBadPattern)
    ∧ Match .unix "*".toList "%zz".toList = (false, some Error.escapeError) :=
  ⟨⟨(C16_Match_spec .unix "*:///home/user/test.txt".toList "mem:///home/user/test.txt".toList
        { Scheme := "mem".toList, Host := [], Path := "/home/user/test.txt".toList }
        (by decide)).1.trans (by decide),
    ((C16_Match_spec .unix "*:///home/user/test.txt".toList "mem:///home/user/test.txt".toList
        { Scheme := "mem".toList, Host := [], Path := "/home/user/test.txt".toList }
        (by decide)).2.2.2.2.2.1 _ (path.Parses_plainItems _ (by decide))
        (path.plainItems_slash _) (Or.inl (by decide))).mp (by decide)⟩,
   by decide,
   ⟨by decide,
    fun hg => absurd
      (((C16_Match_spec .unix "/home/user/test.txt".toList "mem:///home/user/test.txt".toList
        { Scheme := "mem".toList, Host := [], Path := "/home/user/test.txt".toList }
        (by decide)).2.2.2.2.2.1 _ (path.Parses_plainItems _ (by decide))
        (path.plainItems_slash _) (Or.inl (by decide))).mpr hg) (by decide)⟩,
   ⟨by decide,
    ((C16_Match_spec .unix "[a-z]\\*?".toList "m*x".toList
        { Scheme := [], Host := [], Path := "m*x".toList }
        (by decide)).2.2.2.2.2.1 [.cls false [(97, 122)], .lit '*', .any]
        (path.Parses.cls "a-z".toList [(97, 122)] "\\*?".toList [.lit '*', .any] (by decide)
          (path.ClassRanges.one _ _ (path.ClassRange.range ['a'] 97 ['z'] 122
            (path.ClassChar.plain 'a' (by decide) (by decide) (by decide) (by decide))
            (path.ClassChar.plain 'z' (by decide) (by decide) (by decide) (by decide))))
          (path.Parses.esc '*' "?".toList [.any] (path.Parses.any [] [] path.Parses.nil)))
        (fun i hi => by
          simp only [List.mem_cons, List.mem_singleton, List.not_mem_nil, or_false] at hi
          rcases hi with h | h | h
          · subst h; intro h2; exact absurd h2 (by decide)
          · subst h; intro _; exact ⟨'*', rfl⟩
          · subst h; intro h2; exact absurd h2 (by decide))
        (Or.inl (by decide))).mp (by decide)⟩,
   by decide, by decide, by decide⟩

end urlpath

namespace urlpath

open url (URL)

/-! ## C9: parsing a serialization, amended -/

/-- C9, amended: for every writable structure (`Writable`: a well-formed or
empty scheme, a host name with an optional port, a path of bytes that are
written verbatim, and the conditions on colons and, on Windows, on
backslashes and volumes stated there, which admit the stored form `/C:/...`
of a drive-letter path), parsing
the serialization succeeds and gives the same scheme and host; the path is
`path.Clean(path)` for a structure with no scheme and no host, and the rooted
path `path.Join("/", path)` otherwise, which is `path.Clean(path)` when the
path begins with a slash. -/
theorem C9_roundtrip (os : GOOS) (u : URL) (hw : Writable os u) :
    fromString os (toString os u) = .ok
      { Scheme := u.Scheme, Host := u.Host,
        Path := if u.Scheme = [] ∧ u.Host = [] then path.Clean u.Path
          else path.Join ["/".toList, u.Path] }
    ∧ (path.IsAbs u.Path = true → path.Join ["/".toList, u.Path] = path.Clean u.Path) :=
  ⟨roundtrip os u hw, path.Join_root_of_abs u.Path⟩

/-- C9, witness: `mem:///home/user/test.txt` on unix; the URL with an empty
path `http://localhost:8118` on Windows, whose path is read back as `/`; a
bare relative path and a bare path with a colon after its first element on
unix; and the stored form of the drive-letter path `C:/home/user` on
Windows. -/
theorem C9_roundtrip_witness :
    fromString .unix (toString .unix
        { Scheme := "mem".toList, Host := [], Path := "/home/user/test.txt".toList })
      = .ok { Scheme := "mem".toList, Host := [], Path := "/home/user/test.txt".toList }
    ∧ fromString .windows (toString .windows
        { Scheme := "http".toList, Host := "localhost:8118".toList, Path := [] })
      = .ok { Scheme := "http".toList, Host := "localhost:8118".toList, Path := "/".toList }
    ∧ fromString .unix (toString .unix
        { Scheme := [], Host := [], Path := "home/user".toList })
      = .ok { Scheme := [], Host := [], Path := "home/user".toList }
    ∧ fromString .unix (toString .unix
        { Scheme := [], Host := [], Path := "home/a:b".toList })
      = .ok { Scheme := [], Host := [], Path := "home/a:b".toList }
    ∧ fromString .windows (toString .windows
        { Scheme := [], Host := [], Path := "/C:/home/user".toList })
      = .ok { Scheme := [], Host := [], Path := "/C:/home/user".toList } :=
  ⟨(C9_roundtrip .unix
      { Scheme := "mem".toList, Host := [], Path := "/home/user/test.txt".toList }
      ⟨⟨[], [], by decide, by decide, by decide, by decide⟩, by decide, by decide, by decide,
        by decide, by decide⟩).1.trans (by decide),
   (C9_roundtrip .windows
      { Scheme := "http".toList, Host := "localhost:8118".toList, Path := [] }
      ⟨⟨"localhost".toList, ":8118".toList, by decide, by decide, by decide, by decide⟩,
        by decide, by decide, by decide, by decide, by decide⟩).1.trans (by decide),
   (C9_roundtrip .unix
      { Scheme := [], Host := [], Path := "home/user".toList }
      ⟨⟨[], [], by decide, by decide, by decide, by decide⟩, by decide, by decide, by decide,
        by decide, by decide⟩).1.trans (by decide),
   (C9_roundtrip .unix
      { Scheme := [], Host := [], Path := "home/a:b".toList }
      ⟨⟨[], [], by decide, by decide, by decide, by decide⟩, by decide, by decide, by decide,
        by decide, by decide⟩).1.trans (by decide),
   (C9_roundtrip .windows
      { Scheme := [], Host := [], Path := "/C:/home/user".toList }
      ⟨⟨[], [], by decide, by decide, by decide, by decide⟩, by decide, by decide, by decide,
        by decide, by decide⟩).1.trans (by decide)⟩

/-! ## C1: idempotence of `Clean`, amended -/

/-- C1, amended: for every `x` that parses to `(s, h, q)` such that
the structure `(s, h, path.Clean(q))` that `Clean` serialises is writable
(`Writable`), or, on unix, such that `s` is empty and the structure
`("", "", path.Clean(q))` is writable (the unix serializer does not write a
host without a scheme): `Clean(x)` succeeds, and `Clean(Clean(x))` succeeds
and equals `Clean(x)`. -/
theorem C1_Clean_idempotent (os : GOOS) (x : GoString) (u : URL)
    (hx : fromString os x = .ok u)
    (hw : Writable os { u with Path := path.Clean u.Path }
      ∨ (os = .unix ∧ u.Scheme = []
          ∧ Writable .unix { Scheme := [], Host := [], Path := path.Clean u.Path })) :
    (Clean os x).2 = none ∧ Clean os (Clean os x).1 = Clean os x := by
  have hC := Clean_ok os x u hx
  refine ⟨by rw [hC], ?_⟩
  rw [hC]
  obtain ⟨s, h, q⟩ := u
  rcases hw with hw | ⟨hos, hs, hw⟩
  · exact Clean_written os s h q hw
  · subst hos
    simp only at hs
    subst hs
    simp only
    rw [unix_toString_no_scheme]
    exact Clean_written .unix [] [] q hw

/-- C1, witness: `mem:///home/user/../test.txt` on unix, the URL with an
empty path `http://localhost:8118` and the drive-letter path
`C:/home/user/../test.txt` on Windows, and `//host/a/../b` on unix, whose
host is not written. -/
theorem C1_Clean_idempotent_witness :
    Clean .unix (Clean .unix "mem:///home/user/../test.txt".toList).1
        = Clean .unix "mem:///home/user/../test.txt".toList
    ∧ Clean .windows (Clean .windows "http://localhost:8118".toList).1
        = Clean .windows "http://localhost:8118".toList
    ∧ Clean .windows (Clean .windows "C:/home/user/../test.txt".toList).1
        = Clean .windows "C:/home/user/../test.txt".toList
    ∧ Clean .unix (Clean .unix "//host/a/../b".toList).1
        = Clean .unix "//host/a/../b".toList :=
  ⟨(C1_Clean_idempotent .unix "mem:///home/user/../test.txt".toList
      { Scheme := "mem".toList, Host := [], Path := "/home/user/../test.txt".toList }
      (by decide)
      (Or.inl ⟨⟨[], [], by decide, by decide, by decide, by decide⟩, by decide, by decide,
        by decide, by decide, by decide⟩)).2,
   (C1_Clean_idempotent .windows "http://localhost:8118".toList
      { Scheme := "http".toList, Host := "localhost:8118".toList, Path := [] }
      (by decide)
      (Or.inl ⟨⟨"localhost".toList, ":8118".toList, by decide, by decide, by decide,
        by decide⟩, by decide, by decide, by decide, by decide, by decide⟩)).2,
   (C1_Clean_idempotent .windows "C:/home/user/../test.txt".toList
      { Scheme := [], Host := [], Path := "/C:/home/user/../test.txt".toList }
      (by decide)
      (Or.inl ⟨⟨[], [], by decide, by decide, by decide, by decide⟩, by decide, by decide,
        by decide, by decide, by decide⟩)).2,
   (C1_Clean_idempotent .unix "//host/a/../b".toList
      { Scheme := [], Host := "host".toList, Path := "/a/../b".toList }
      (by decide)
      (Or.inr ⟨rfl, rfl, ⟨[], [], by decide, by decide, by decide, by decide⟩, by decide,
        by decide, by decide, by decide, by decide⟩)).2⟩

end urlpath

namespace urlpath

open url (URL)

/-- Joining onto the cleaned path serialises as joining onto the path
itself, unless the path is empty and the joined path is rooted. -/
theorem toString_Join_Clean_left (os : GOOS) (P qc : GoString)
    (hne : P ≠ [] ∨ path.IsAbs qc = false) :
    toString os { Scheme := [], Host := [], Path := path.Join [path.Clean P, qc] }
      = toString os { Scheme := [], Host := [], Path := path.Join [P, qc] } := by
  by_cases hP : P = []
  · subst hP
    have hrel : path.IsAbs qc = false := by
      rcases hne with h | h
      · exact absurd rfl h
      · exact h
    have h0 : path.Clean [] = ['.'] := rfl
    rw [h0, path.Join_pair _ _ (by simp), path.Join_nil_left]
    have h1 : ['.'] ++ '/' :: qc = '.' :: '/' :: qc := rfl
    rw [h1, path.Clean_dot_slash qc hrel]
    by_cases hqc : qc = []
    · subst hqc
      rw [if_pos rfl]
      cases os <;> rfl
    · rw [if_neg hqc]
  · rw [path.Join_pair _ _ (path.Clean_ne_nil P), path.Join_pair _ _ hP,
      path.Clean_Clean_append _ _ hP]

/-! ## C7: associativity of `Join`, amended -/

/-- C7, amended: for `a`, `b`, `c` that parse, `a` with empty scheme and
host, such that the bare structure holding the joined path `path.Join` of the
paths of `a` and `b` is writable (`Writable`: plain path bytes, no colon in
the first element of the cleaned path, and on Windows the conditions on
backslashes and volumes), and such that this joined path is not empty or the path of `c`
does not begin with a slash: `Join(a, b)` succeeds, and `Join(Join(a, b), c)`
and `Join(a, b, c)` both succeed with the same string. -/
theorem C7_Join_associative (os : GOOS) (a b c : GoString) (ua ub uc : URL)
    (ha : fromString os a = .ok ua) (hb : fromString os b = .ok ub)
    (hc : fromString os c = .ok uc)
    (hsa : ua.Scheme = [] ∧ ua.Host = [])
    (hw : Writable os { Scheme := [], Host := [], Path := path.Join [ua.Path, ub.Path] })
    (hne : path.Join [ua.Path, ub.Path] ≠ [] ∨ path.IsAbs uc.Path = false) :
    ∃ jab r, Join os [a, b] = some (jab, none) ∧ Join os [jab, c] = some (r, none)
      ∧ Join os [a, b, c] = some (r, none) := by
  obtain ⟨sa, hta, ap⟩ := ua
  obtain ⟨s1, s2⟩ := hsa
  simp only at s1 s2 hw hne
  subst s1 s2
  have hrt := roundtrip os _ hw
  simp only [canon, and_self, if_true] at hrt
  refine ⟨toString os { Scheme := [], Host := [], Path := path.Join [ap, ub.Path] },
    toString os (URL.mk [] [] (path.Join [path.Join [ap, ub.Path], uc.Path])), ?_, ?_, ?_⟩
  · simp [Join, joinLoop, ha, hb]
  · simp only [Join, joinLoop, hrt, hc]
    rw [toString_Join_Clean_left os _ _ hne]
  · simp [Join, joinLoop, ha, hb, hc]

/-- C7, witness: `a/b`, `../c`, `d` on unix; the drive-letter path
`C:/home`, `user`, `test.txt` on Windows; and two empty paths followed by a
relative path on unix. -/
theorem C7_Join_associative_witness :
    (∃ jab r, Join .unix ["a/b".toList, "../c".toList] = some (jab, none)
      ∧ Join .unix [jab, "d".toList] = some (r, none)
      ∧ Join .unix ["a/b".toList, "../c".toList, "d".toList] = some (r, none))
    ∧ (∃ jab r, Join .windows ["C:/home".toList, "user".toList] = some (jab, none)
      ∧ Join .windows [jab, "test.txt".toList] = some (r, none)
      ∧ Join .windows ["C:/home".toList, "user".toList, "test.txt".toList] = some (r, none))
    ∧ (∃ jab r, Join .unix [[], []] = some (jab, none)
      ∧ Join .unix [jab, "x".toList] = some (r, none)
      ∧ Join .unix [[], [], "x".toList] = some (r, none)) :=
  ⟨C7_Join_associative .unix "a/b".toList "../c".toList "d".toList
      { Scheme := [], Host := [], Path := "a/b".toList }
      { Scheme := [], Host := [], Path := "../c".toList }
      { Scheme := [], Host := [], Path := "d".toList }
      (by decide) (by decide) (by decide) (by decide)
      ⟨⟨[], [], by decide, by decide, by decide, by decide⟩, by decide, by decide, by decide,
        by decide, by decide⟩
      (by decide),
   C7_Join_associative .windows "C:/home".toList "user".toList "test.txt".toList
      { Scheme := [], Host := [], Path := "/C:/home".toList }
      { Scheme := [], Host := [], Path := "user".toList }
      { Scheme := [], Host := [], Path := "test.txt".toList }
      (by decide) (by decide) (by decide) (by decide)
      ⟨⟨[], [], by decide, by decide, by decide, by decide⟩, by decide, by decide, by decide,
        by decide, by decide⟩
      (by decide),
   C7_Join_associative .unix [] [] "x".toList
      { Scheme := [], Host := [], Path := [] }
      { Scheme := [], Host := [], Path := [] }
      { Scheme := [], Host := [], Path := "x".toList }
      (by decide) (by decide) (by decide) (by decide)
      ⟨⟨[], [], by decide, by decide, by decide, by decide⟩, by decide, by decide, by decide,
        by decide, by decide⟩
      (by decide)⟩

/-! ## C8: `Split` and `Join`, amended -/

/-- C8, amended: for every `p` that parses to `(s, h, q)`, with
`(d, f) = path.Split(q)`, such that the structure `(s, h, d)` that `Split`
serialises is writable (`Writable`), or, on unix, such that `s` is empty and
the structure `("", "", d)` is writable (the unix serializer does not write a
host without a scheme), and such that the file part `f` has only plain bytes,
no colon and, on Windows, no backslash: `Split(p)` succeeds with
`(dir, file)`, `Clean(p)` succeeds, and `Join(dir, file)` succeeds and equals
`Clean(p)`. -/
theorem C8_Split_Join (os : GOOS) (p : GoString) (u : URL)
    (hp : fromString os p = .ok u)
    (hwd : Writable os { u with Path := (path.Split u.Path).1 }
      ∨ (os = .unix ∧ u.Scheme = []
          ∧ Writable .unix { Scheme := [], Host := [], Path := (path.Split u.Path).1 }))
    (hf : url.pathOK (path.Split u.Path).2 = true ∧ ':' ∉ (path.Split u.Path).2
      ∧ (os = .windows → '\\' ∉ (path.Split u.Path).2)) :
    (Split os p).2.2 = none ∧ (Clean os p).2 = none
      ∧ Join os [(Split os p).1, (Split os p).2.1] = some (Clean os p) := by
  have hrooted := fromString_qualified_path os p u hp
  obtain ⟨s, h, q⟩ := u
  simp only at hwd hf hrooted
  have hS : Split os p
      = (toString os { Scheme := s, Host := h, Path := (path.Split q).1 },
          (path.Split q).2, none) := by
    simp [Split, hp]
  rw [hS, Clean_ok os p _ hp]
  refine ⟨rfl, rfl, ?_⟩
  rcases hwd with hwd | ⟨hos, hs, hwd⟩
  · exact Join_Split_written os s h q hwd hf hrooted
  · subst hos
    subst hs
    simp only
    rw [unix_toString_no_scheme, unix_toString_no_scheme h]
    exact Join_Split_written .unix [] [] q hwd hf (fun hq => by simp at hq)

/-- C8, witness: the example of the claim on unix, a drive-letter path on
Windows, a URL with a host and a port on Windows, and `//host/a/b.txt` on
unix, whose host is not written. -/
theorem C8_Split_Join_witness :
    (Split .unix "mem:///home/user/test.txt".toList
        = ("mem:///home/user".toList, "test.txt".toList, none)
      ∧ Join .unix ["mem:///home/user".toList, "test.txt".toList]
        = some ("mem:///home/user/test.txt".toList, none))
    ∧ Join .windows [(Split .windows "C:/home/user/../test.txt".toList).1,
          (Split .windows "C:/home/user/../test.txt".toList).2.1]
        = some (Clean .windows "C:/home/user/../test.txt".toList)
    ∧ Join .windows [(Split .windows "http://localhost:8118/a/b.txt".toList).1,
          (Split .windows "http://localhost:8118/a/b.txt".toList).2.1]
        = some (Clean .windows "http://localhost:8118/a/b.txt".toList)
    ∧ Join .unix [(Split .unix "//host/a/b.txt".toList).1,
          (Split .unix "//host/a/b.txt".toList).2.1]
        = some (Clean .unix "//host/a/b.txt".toList) :=
  ⟨⟨by decide,
    (C8_Split_Join .unix "mem:///home/user/test.txt".toList
      { Scheme := "mem".toList, Host := [], Path := "/home/user/test.txt".toList }
      (by decide)
      (Or.inl ⟨⟨[], [], by decide, by decide, by decide, by decide⟩, by decide, by decide,
        by decide, by decide, by decide⟩)
      ⟨by decide, by decide, by decide⟩).2.2.trans (by decide)⟩,
   (C8_Split_Join .windows "C:/home/user/../test.txt".toList
      { Scheme := [], Host := [], Path := "/C:/home/user/../test.txt".toList }
      (by decide)
      (Or.inl ⟨⟨[], [], by decide, by decide, by decide, by decide⟩, by decide, by decide,
        by decide, by decide, by decide⟩)
      ⟨by decide, by decide, by decide⟩).2.2,
   (C8_Split_Join .windows "http://localhost:8118/a/b.txt".toList
      { Scheme := "http".toList, Host := "localhost:8118".toList, Path := "/a/b.txt".toList }
      (by decide)
      (Or.inl ⟨⟨"localhost".toList, ":8118".toList, by decide, by decide, by decide,
        by decide⟩, by decide, by decide, by decide, by decide, by decide⟩)
      ⟨by decide, by decide, by decide⟩).2.2,
   (C8_Split_Join .unix "//host/a/b.txt".toList
      { Scheme := [], Host := "host".toList, Path := "/a/b.txt".toList }
      (by decide)
      (Or.inr ⟨rfl, rfl, ⟨[], [], by decide, by decide, by decide, by decide⟩, by decide,
        by decide, by decide, by decide, by decide⟩)
      ⟨by decide, by decide, by decide⟩).2.2⟩

end urlpath
